import Mathlib

/-!
Kurento client generator: type normaliser, doc formatter, the two passes, the templates

A shallow embedding of `main.go` of the generator.

* Go strings are byte sequences (`GoString`).  Every pattern the program
  searches for is ASCII, so the byte-level functions below are exact for any
  content, valid UTF-8 or not.
* A decoded JSON object (`map[string]interface{}`) is an association list read
  with `idx` (Go's `p[k]`, `nil` for an absent key) and written with `setKey`.
* A run-time panic or a fatal exit is the result `none`.
* The Unicode case tables of the Go standard library are not part of the
  program; the case functions are exact on ASCII strings and take the
  non-ASCII behaviour as a parameter (`CaseTables`).
-/

namespace Kurento

/-! ## Go strings -/

/-- A Go string: an immutable sequence of bytes. -/
abbrev GoString := List UInt8

/-- The UTF-8 bytes of a literal. -/
def bytes (s : String) : GoString := s.data.flatMap String.utf8EncodeChar

/-- Model of `strings.Replace(s, old, new, -1)` for a non-empty `old`: scan from the
left; where `old` starts, emit `new` and skip `len(old)` bytes (the first argument
counts the bytes still to skip); elsewhere copy the byte. -/
def replaceScan (old new : GoString) : Nat → GoString → GoString
  | _, [] => []
  | k + 1, _ :: cs => replaceScan old new k cs
  | 0, c :: cs =>
    if old.isPrefixOf (c :: cs) then new ++ replaceScan old new (old.length - 1) cs
    else c :: replaceScan old new 0 cs

/-- Model of `strings.Replace(s, old, new, -1)`; every call site passes a non-empty
literal as `old` (for an empty `old` Go works rune by rune, which no caller needs). -/
def Replace (s old new : GoString) : GoString :=
  if old = [] then s else replaceScan old new 0 s

/-- Model of `strings.Split(s, sep)` for a one-byte separator: `n` separators give
`n + 1` pieces, the empty string gives one empty piece. -/
def Split (sep : UInt8) : GoString → List GoString
  | [] => [[]]
  | c :: cs =>
    if c = sep then [] :: Split sep cs
    else
      match Split sep cs with
      | [] => [[c]]
      | l :: ls => (c :: l) :: ls

/-- Model of `strings.Join(parts, sep)`. -/
def Join : List GoString → GoString → GoString
  | [], _ => []
  | [a], _ => a
  | a :: b :: rest, sep => a ++ sep ++ Join (b :: rest) sep

/-- The UTF-8 encodings of the runes for which `unicode.IsSpace` holds:
tab, LF, VT, FF, CR, space, U+0085, U+00A0, U+1680, U+2000 to U+200A, U+2028,
U+2029, U+202F, U+205F, U+3000. -/
def spaceRunes : List GoString :=
  [[0x09], [0x0A], [0x0B], [0x0C], [0x0D], [0x20], [0xC2, 0x85], [0xC2, 0xA0],
   [0xE1, 0x9A, 0x80],
   [0xE2, 0x80, 0x80], [0xE2, 0x80, 0x81], [0xE2, 0x80, 0x82], [0xE2, 0x80, 0x83],
   [0xE2, 0x80, 0x84], [0xE2, 0x80, 0x85], [0xE2, 0x80, 0x86], [0xE2, 0x80, 0x87],
   [0xE2, 0x80, 0x88], [0xE2, 0x80, 0x89], [0xE2, 0x80, 0x8A],
   [0xE2, 0x80, 0xA8], [0xE2, 0x80, 0xA9], [0xE2, 0x80, 0xAF], [0xE2, 0x81, 0x9F],
   [0xE3, 0x80, 0x80]]

/-- Width in bytes of the white-space rune at the head of `s`, `0` when `s` does not
start with one.  With `rs` the reversed encodings and `s` a reversed string this is
the width of a trailing white-space rune. -/
def spaceWidth (rs : List GoString) (s : GoString) : Nat :=
  match rs.find? (fun r => r.isPrefixOf s) with
  | some r => r.length
  | none => 0

/-- Drop leading white-space runes (the first argument counts the bytes of the
current rune still to drop). -/
def trimScan (rs : List GoString) : Nat → GoString → GoString
  | _, [] => []
  | k + 1, _ :: cs => trimScan rs k cs
  | 0, c :: cs =>
    match spaceWidth rs (c :: cs) with
    | 0 => c :: cs
    | w + 1 => trimScan rs w cs

/-- Model of `strings.TrimSpace`: leading, then trailing white-space runes removed. -/
def TrimSpace (s : GoString) : GoString :=
  (trimScan (spaceRunes.map List.reverse) 0 (trimScan spaceRunes 0 s).reverse).reverse

/-- Model of `strings.Contains(s, sub)`. -/
def Contains (s sub : GoString) : Bool :=
  match s with
  | [] => sub.isPrefixOf []
  | c :: cs => sub.isPrefixOf (c :: cs) || Contains cs sub

/-! ## `formatDoc` (main.go 344-365) -/

/-- The five replacements at the head of `formatDoc` (main.go 345-349). -/
def stripTokens (doc : GoString) : GoString :=
  let doc := Replace doc (bytes ":rom:cls:") []
  let doc := Replace doc (bytes ":term:") []
  let doc := Replace doc (bytes "``") (bytes "\"")
  let doc := Replace doc (bytes "/*") []
  Replace doc (bytes "*/") []

/-- The comment block built from one line (main.go 361). -/
def wrapLine (p : GoString) : GoString :=
  bytes "/*" ++ TrimSpace p ++ bytes "*/"

/-- Embedding of `formatDoc`: strip the tokens, split on newlines, copy every line into
`part` (main.go 355-358 appends each line, with no test), wrap each, join with
newlines. -/
def formatDoc (doc : GoString) : GoString :=
  let lines := Split 0x0A (stripTokens doc)
  let part := lines
  Join (part.map wrapLine) (bytes "\n")

/-! ## Decoded JSON values and property maps -/

/-- A value of type `interface{}` as `encoding/json` decodes it: `nil` (JSON null, and
what indexing a map at an absent key yields), a string, a boolean, or any other value
(number, array, object), which the program only prints and tests in `{{ if }}`; it is
carried as the text `fmt.Fprint` gives for it and its truth in `{{ if }}` (false for the
number zero and for an empty array or object; the text alone does not tell the empty array
from the array that holds one empty string). -/
inductive Value where
  | nil
  | str (s : GoString)
  | bool (b : Bool)
  | other (shown : GoString) (truth : Bool)
  deriving DecidableEq, Repr

/-- A `map[string]interface{}`. -/
abbrev Props := List (GoString × Value)

/-- Go's `p[k]`: the value stored under `k`, `nil` when there is none. -/
def idx (p : Props) (k : GoString) : Value :=
  match p.lookup k with
  | some v => v
  | none => Value.nil

/-- Go's `p[k] = v`. -/
def setKey (p : Props) (k : GoString) (v : Value) : Props :=
  (k, v) :: p.filter (fun e => e.1 != k)

/-! ## The two regular expressions (main.go 126-127) -/

/-- The pattern `(.+)\[\]` tried at the head of `s`: the greedy `(.+)` takes the longest
non-empty run of bytes other than newline that is followed by `[]`; the result is
group 1. -/
def reHere : GoString → Option GoString
  | [] => none
  | c :: cs =>
    if c = 0x0A then none
    else
      match reHere cs with
      | some g => some (c :: g)
      | none => if (bytes "[]").isPrefixOf cs then some [c] else none

/-- Group 1 of the leftmost match of `re = (.+)\[\]` in `s`, that is
`re.FindAllStringSubmatch(s, -1)[0][1]`; `none` when `re.MatchString(s)` is false. -/
def re : GoString → Option GoString
  | [] => none
  | c :: cs =>
    match reHere (c :: cs) with
    | some g => some g
    | none => re cs

/-- The regular expression `symbol = <>`: `symbol.MatchString`. -/
def symbol (s : GoString) : Bool := Contains s (bytes "<>")

/-! ## `formatTypes` (main.go 367-412) -/

/-- Lines 371-385: the exact-match rewrites of the primitive spellings. -/
def mapPrimitives (p : Props) : Props :=
  let p := if idx p (bytes "type") = .str (bytes "String[]") then
    setKey p (bytes "type") (.str (bytes "[]string")) else p
  let p := if idx p (bytes "type") = .str (bytes "String")
      ∨ idx p (bytes "type") = .str (bytes "String<>") then
    setKey p (bytes "type") (.str (bytes "string")) else p
  let p := if idx p (bytes "type") = .str (bytes "float")
      ∨ idx p (bytes "type") = .str (bytes "double") then
    setKey p (bytes "type") (.str (bytes "float64")) else p
  if idx p (bytes "type") = .str (bytes "boolean") then
    setKey p (bytes "type") (.str (bytes "bool")) else p

/-- Lines 387-391: when `re` matches, the type becomes `[]` followed by group 1 of the
first match.  `p["type"].(string)` panics unless the type is a string. -/
def collectionStep (p : Props) : Option Props :=
  match idx p (bytes "type") with
  | .str t =>
    match re t with
    | some g => some (setKey p (bytes "type") (.str (bytes "[]" ++ g)))
    | none => some p
  | _ => none

/-- Lines 393-397: when `<>` occurs anywhere in the type, its last two bytes are
dropped (`substr[0 : len(substr)-2]`). -/
def optionalStep (p : Props) : Option Props :=
  match idx p (bytes "type") with
  | .str t =>
    if symbol t then
      if t.length < 2 then none
      else some (setKey p (bytes "type") (.str (t.take (t.length - 2))))
    else some p
  | _ => none

/-- Lines 399-409: the default value synthesised when none is supplied. -/
def defaultStep (p : Props) : Props :=
  if idx p (bytes "defaultValue") = .str [] ∨ idx p (bytes "defaultValue") = .nil then
    if idx p (bytes "type") = .str (bytes "string") then
      setKey p (bytes "defaultValue") (.str (bytes "\"\""))
    else if idx p (bytes "type") = .str (bytes "bool") then
      setKey p (bytes "defaultValue") (.str (bytes "false"))
    else if idx p (bytes "type") = .str (bytes "int")
        ∨ idx p (bytes "type") = .str (bytes "float64") then
      setKey p (bytes "defaultValue") (.str (bytes "0"))
    else p
  else p

/-- Embedding of `formatTypes`.  Line 369 `p["doc"].(string)` panics unless the doc is
a string. -/
def formatTypes (p : Props) : Option Props :=
  match idx p (bytes "doc") with
  | .str d =>
    let p := setKey p (bytes "doc") (.str (formatDoc d))
    let p := mapPrimitives p
    match collectionStep p with
    | some p =>
      match optionalStep p with
      | some p => some (defaultStep p)
      | none => none
    | none => none
  | _ => none

/-! ## Case functions of package `strings` -/

/-- The Unicode case tables of the Go standard library, which are not part of the
program: what `strings.ToUpper`, `strings.ToLower` and `strings.Title` return for a
string that holds a byte outside ASCII. -/
structure CaseTables where
  toUpper : GoString → GoString
  toLower : GoString → GoString
  title : GoString → GoString

/-- Whether every byte is below `utf8.RuneSelf`. -/
def isASCII (s : GoString) : Bool := s.all (fun c => c < 0x80)

/-- Upper case of an ASCII byte. -/
def upperByte (c : UInt8) : UInt8 := if 0x61 ≤ c ∧ c ≤ 0x7A then c - 0x20 else c

/-- Lower case of an ASCII byte. -/
def lowerByte (c : UInt8) : UInt8 := if 0x41 ≤ c ∧ c ≤ 0x5A then c + 0x20 else c

/-- Model of `strings.ToUpper` (the `uppercase` function of `funcMap`). -/
def ToUpper (T : CaseTables) (s : GoString) : GoString :=
  if isASCII s then s.map upperByte else T.toUpper s

/-- Model of `strings.ToLower`. -/
def ToLower (T : CaseTables) (s : GoString) : GoString :=
  if isASCII s then s.map lowerByte else T.toLower s

/-- The `isSeparator` of package `strings` on an ASCII byte: everything but letters,
digits and the underscore. -/
def isSeparator (c : UInt8) : Bool :=
  !((0x30 ≤ c && c ≤ 0x39) || (0x61 ≤ c && c ≤ 0x7A) || (0x41 ≤ c && c ≤ 0x5A) || c == 0x5F)

/-- The mapping closure of `strings.Title`: a byte that follows a separator is put in
title case; `prev` is the byte before. -/
def titleScan (prev : UInt8) : GoString → GoString
  | [] => []
  | c :: cs => (if isSeparator prev then upperByte c else c) :: titleScan c cs

/-- Model of `strings.Title` (the `title` function of `funcMap`); `prev` starts as a
space. -/
def Title (T : CaseTables) (s : GoString) : GoString :=
  if isASCII s then titleScan 0x20 s else T.title s

/-! ## The complex-type template (main.go 102-122) -/

/-- The Go struct `ComplexType` (main.go 158-164). -/
structure ComplexType where
  TypeFormat : GoString
  Doc : GoString
  Values : List GoString
  Name : GoString
  Properties : List Props

/-- What the template prints for `{{ .k }}` on a map: the string itself, and
`<no value>` for an absent key and for a null alike (the library unwraps the nil
interface to an invalid value before printing). -/
def printKey (p : Props) (k : GoString) : GoString :=
  match p.lookup k with
  | none => bytes "<no value>"
  | some .nil => bytes "<no value>"
  | some (.str s) => s
  | some (.bool true) => bytes "true"
  | some (.bool false) => bytes "false"
  | some (.other shown _) => shown

/-- One pass of the body of `{{ range .Values }}` (template line 113), `name` being the
variable `$name` and `v` the dot. -/
def enumConst (T : CaseTables) (name v : GoString) : GoString :=
  bytes "\n\t\t" ++ ToUpper T name ++ bytes "_" ++ ToUpper T v ++ bytes " " ++ name
    ++ bytes " = \"" ++ v ++ bytes "\" \n\t"

/-- Execution of `{{ range .Properties }}` (template lines 118-119): the text written,
and whether execution reached the end.  `{{ .name | title }}` fails, and execution
stops there, unless the name is a string. -/
def structFields (T : CaseTables) : List Props → GoString × Bool
  | [] => ([], true)
  | p :: ps =>
    match idx p (bytes "name") with
    | .str n =>
      let rest := structFields T ps
      (Title T n ++ bytes " " ++ printKey p (bytes "type") ++ bytes "\n\t" ++ rest.1, rest.2)
    | _ => ([], false)

/-- Execution of `complexTypeTemplate` on a `ComplexType`: the text written to the
buffer, and whether execution reached the end (on an error the text written so far
stays in the buffer). -/
def complexTypeTemplate (T : CaseTables) (ct : ComplexType) : GoString × Bool :=
  if ct.TypeFormat = bytes "ENUM" then
    (bytes "\n" ++ bytes "\n" ++ bytes "\n" ++ ct.Doc ++ bytes "\ntype " ++ ct.Name
      ++ bytes " string\n// Implement fmt.Stringer interface\nfunc (t " ++ ct.Name
      ++ bytes ") String() string \x7b\n\treturn string(t)\n\x7d\nconst (\n\t"
      ++ ct.Values.flatMap (enumConst T ct.Name)
      ++ bytes "\n)\n" ++ bytes "\n", true)
  else
    let fields := structFields T ct.Properties
    if fields.2 then
      (bytes "\n" ++ bytes "\ntype " ++ ct.Name ++ bytes " struct \x7b\n\t" ++ fields.1
        ++ bytes "\n\x7d\n" ++ bytes "\n", true)
    else
      (bytes "\n" ++ bytes "\ntype " ++ ct.Name ++ bytes " struct \x7b\n\t" ++ fields.1, false)

/-! ## Output files (main.go 429-450) -/

/-- Drop the trailing slashes of a path. -/
def stripSlashes (path : GoString) : GoString :=
  (path.reverse.dropWhile (fun c => c == 0x2F)).reverse

/-- The last element of a path that has no trailing slash. -/
def lastElement (path : GoString) : GoString :=
  (path.reverse.takeWhile (fun c => c != 0x2F)).reverse

/-- Model of `filepath.Base` (Unix). -/
def Base (path : GoString) : GoString :=
  if path = [] then bytes "."
  else
    let e := lastElement (stripSlashes path)
    if e = [] then bytes "/" else e

/-- Embedding of `createFile`. -/
def createFile (T : CaseTables) (path suffix : GoString) : GoString :=
  let base := Base path
  let base := Replace base (bytes ".kmd.json") []
  let base := Replace base (bytes ".") (bytes "_")
  let base := bytes "kurento/" ++ base
  let base := if suffix ≠ [] then base ++ bytes "_" ++ suffix ++ bytes ".go"
    else base ++ bytes ".go"
  ToLower T base

/-- The bytes `writeFile` writes: `packageTemplate` around the joined bodies. -/
def fileContent (classess : List GoString) : GoString :=
  bytes "package kurento\n" ++ Join classess (bytes "\n") ++ bytes "\n"

/-! ## The complex-type pass (main.go 178-185, 211-254) -/

/-- The Go struct `Constructor` (main.go 147-151). -/
structure Constructor where
  Name : GoString
  Doc : GoString
  Params : List Props

/-- The Go struct `Method` (main.go 153-156): an embedded `Constructor` and the `Return`
map, empty when the schema gives none (a nil map and an empty map behave alike). -/
structure Method extends Constructor where
  Return : Props

/-- The Go struct `Class` (main.go 136-145). -/
structure Class where
  Name : GoString
  Doc : GoString
  Abstract : Bool
  Properties : List Props
  Extends : GoString
  Methods : List Method
  Events : List GoString
  Constructor : Constructor

/-- The Go struct `Core` (main.go 131-134): the remote classes, and the `ComplexTypes`
slice, `none` for a nil slice (key absent or null). -/
structure Core where
  RemoteClasses : List Class
  ComplexTypes : Option (List ComplexType)

/-- What the run reads from outside: `filepath.Glob` (`none` for a malformed pattern)
and `getModel` (`none` when the file cannot be read or parsed); both failures are
fatal. -/
structure World where
  glob : GoString → Option (List GoString)
  getModel : GoString → Option Core

/-- The state of a run: the global `CPXTYPES` and the files written, in order. -/
structure State where
  CPXTYPES : List GoString
  files : List (GoString × GoString)

/-- Embedding of `isComplexType`, on the value of `CPXTYPES`. -/
def isComplexType : List GoString → GoString → Bool
  | [], _ => false
  | c :: cs, t => if c = t then true else isComplexType cs t

/-- Lines 215-221 (and 260-266): the paths of all patterns, in order. -/
def globAll (W : World) : List GoString → Option (List GoString)
  | [] => some []
  | pat :: rest =>
    match W.glob pat with
    | none => none
    | some pathList =>
      match globAll W rest with
      | none => none
      | some more => some (pathList ++ more)

/-- Lines 238-240: every property replaced by its `formatTypes`. -/
def formatProps : List Props → Option (List Props)
  | [] => some []
  | p :: ps =>
    match formatTypes p with
    | none => none
    | some q =>
      match formatProps ps with
      | none => none
      | some qs => some (q :: qs)

/-- Lines 236-249: the text rendered for one complex type (the error of `Execute` is
dropped, the buffer is kept). -/
def renderComplexType (T : CaseTables) (ct : ComplexType) : Option GoString :=
  match formatProps ct.Properties with
  | none => none
  | some ps =>
    some (complexTypeTemplate T { ct with Doc := formatDoc ct.Doc, Properties := ps }).1

/-- Lines 233-250: the loop over the complex types of one file; the pair is
`CPXTYPES` and `ret`. -/
def ctypesLoop (T : CaseTables) :
    List ComplexType → List GoString × List GoString → Option (List GoString × List GoString)
  | [], acc => some acc
  | ct :: cts, acc =>
    match renderComplexType T ct with
    | none => none
    | some out => ctypesLoop T cts (acc.1 ++ [ct.Name], acc.2 ++ [out])

/-- Lines 224-253: the loop over the paths; `ret` is declared before the loop and lives
across its passes. -/
def pathsLoop (T : CaseTables) (W : World) (suffix : GoString) :
    List GoString → State × List GoString → Option (State × List GoString)
  | [], acc => some acc
  | path :: rest, acc =>
    match W.getModel path with
    | none => none
    | some core =>
      match core.ComplexTypes with
      | none => pathsLoop T W suffix rest acc
      | some ctypes =>
        match ctypesLoop T ctypes (acc.1.CPXTYPES, acc.2) with
        | none => none
        | some r =>
          pathsLoop T W suffix rest
            ({ CPXTYPES := r.1,
               files := acc.1.files ++ [(createFile T path suffix, fileContent r.2)] }, r.2)

/-- Embedding of `parseComplexTypes`: `none` when the run is aborted (fatal error or
panic). -/
def parseComplexTypes (T : CaseTables) (W : World) (complexs : List GoString)
    (suffix : GoString) (st : State) : Option State :=
  match globAll W complexs with
  | none => none
  | some paths =>
    match pathsLoop T W suffix paths (st, []) with
    | none => none
    | some r => some r.1


/-! ## Template functions and values (main.go 166-209) -/

/-- Embedding of `tplCheckElement` (the `checkElement` function of `funcMap`): a name of
more than five bytes that starts with `Media` and does not end in `Type` gets
`IMedia` in place of `Media`. -/
def tplCheckElement (p : GoString) : GoString :=
  if p.length > 5 ∧ p.take 5 = bytes "Media" then
    if p.drop (p.length - 4) ≠ bytes "Type" then bytes "IMedia" ++ p.drop 5
    else p
  else p

/-- What the template library does where its behaviour differs between Go releases:
the result of `eq` when its first argument is an absent or null map entry (`none` for an
execution error). -/
structure TemplateLib where
  eqAbsent : Option Bool

/-- Truth of `{{ if .k }}` on a map: false for an absent key, a null, an empty string,
`false`, the number zero and an empty array or object. -/
def truthKey (p : Props) (k : GoString) : Bool :=
  match p.lookup k with
  | none => false
  | some .nil => false
  | some (.str s) => !(s = [])
  | some (.bool b) => b
  | some (.other _ truth) => truth

/-- The template function `eq` with a map entry as first argument and string constants
as the others: whether the entry is one of the strings; comparing a boolean or a number
with a string is an execution error (`none`). -/
def eqStrings (lib : TemplateLib) (v : Value) (cands : List GoString) : Option Bool :=
  match v with
  | .str s => some (cands.contains s)
  | .nil => lib.eqAbsent
  | _ => none

/-! ## The class template (main.go 20-100) -/

/-- The template `Arguments` (template line 21), from the parameter of index `i` on:
` , ` before every parameter but the first, then its name, a blank and
`checkElement` of its type, which fails (`none`) unless the type is a string. -/
def argumentsFrom : Nat → List Props → Option GoString
  | _, [] => some []
  | i, e :: es =>
    match idx e (bytes "type") with
    | .str t =>
      match argumentsFrom (i + 1) es with
      | some rest =>
        some ((if i = 0 then [] else bytes " , ") ++ printKey e (bytes "name") ++ bytes " "
          ++ tplCheckElement t ++ rest)
      | none => none
    | _ => none

/-- Execution of `{{ template "Arguments" . }}` on a method. -/
def Arguments (params : List Props) : Option GoString := argumentsFrom 0 params

/-- One pass of `{{ range .Methods }}` in the interface (template line 28). -/
def interfaceMethod (T : CaseTables) (m : Method) : Option GoString :=
  match Arguments m.Params with
  | some args =>
    some (bytes "\n\t" ++ Title T m.Name ++ bytes "(" ++ args ++ bytes ")("
      ++ (if truthKey m.Return (bytes "type") then printKey m.Return (bytes "type") ++ bytes ","
          else [])
      ++ bytes " error)\n\t")
  | none => none

/-- Execution of a `range` whose body may fail: the texts of the passes, in order. -/
def rangeOver {α : Type} (body : α → Option GoString) : List α → Option GoString
  | [] => some []
  | a :: rest =>
    match body a with
    | some out =>
      match rangeOver body rest with
      | some more => some (out ++ more)
      | none => none
    | none => none

/-- Template lines 25-31: the interface, left out for the class `MediaObject`. -/
def interfaceSection (T : CaseTables) (cl : Class) : Option GoString :=
  if cl.Name ≠ bytes "MediaObject" then
    match rangeOver (interfaceMethod T) cl.Methods with
    | some sigs =>
      some (bytes "\ntype I" ++ cl.Name ++ bytes " interface \x7b\n\t" ++ sigs ++ bytes "\n\x7d\n")
    | none => none
  else some []

/-- One pass of `{{ range .Properties }}` (template lines 39-42); `{{ .name | title }}`
fails unless the name is a string. -/
def classField (T : CaseTables) (p : Props) : Option GoString :=
  match idx p (bytes "name") with
  | .str n =>
    some (bytes "\n\t" ++ printKey p (bytes "doc") ++ bytes "\n\t" ++ Title T n ++ bytes " "
      ++ printKey p (bytes "type") ++ bytes "\n\t")
  | _ => none

/-- Template lines 33-43: the doc and the struct of the class. -/
def structSection (T : CaseTables) (cl : Class) : Option GoString :=
  match rangeOver (classField T) cl.Properties with
  | some fields =>
    some (bytes "\n\n" ++ cl.Doc ++ bytes "\ntype " ++ cl.Name ++ bytes " struct \x7b\n\t"
      ++ (if cl.Name = bytes "MediaObject" then bytes "connection *Connection\n\t"
          else bytes " " ++ cl.Extends ++ bytes "\n\t")
      ++ bytes "\n\t\n\t" ++ fields ++ bytes "\n\x7d\n")
  | none => none

/-- One pass of `{{ range .Constructor.Params }}` (template lines 51-53). -/
def constructorEntry (lib : TemplateLib) (p : Props) : Option GoString :=
  match eqStrings lib (idx p (bytes "type"))
      [bytes "string", bytes "float64", bytes "boolean", bytes "int"] with
  | some true =>
    some (bytes "\"" ++ printKey p (bytes "name") ++ bytes "\" : "
      ++ printKey p (bytes "defaultValue") ++ bytes ",\n\t\t")
  | some false =>
    some (bytes " \"" ++ printKey p (bytes "name")
      ++ bytes "\" : fmt.Sprintf(\"%s\", from),\n\t\t")
  | none => none

/-- Template lines 44-60: the function `getConstuctorParams`. -/
def constructorSection (lib : TemplateLib) (cl : Class) : Option GoString :=
  match (if cl.Constructor.Params.length ≠ 0 then
      match rangeOver (constructorEntry lib) cl.Constructor.Params with
      | some entries =>
        some (bytes "\n\n\t// Create basic constructor params\n\tret := map[string]interface\x7b\x7d \x7b\n\t\t"
          ++ entries ++ bytes "\n\t\x7d\n\t\n\tmergeOptions(ret, options)\n\treturn ret\n\t")
      | none => none
    else some (bytes "return options\n\t")) with
  | some body =>
    some (bytes "\n// Return Constructor Params to be called by \"Create\".\nfunc (elem *"
      ++ cl.Name
      ++ bytes ") getConstuctorParams(from IMediaObject, options map[string]interface\x7b\x7d) map[string]interface\x7b\x7d \x7b\n\t"
      ++ body ++ bytes "\n\x7d\n")
  | none => none

/-- One pass of `{{ range .Params }}` in a method (template lines 72-74). -/
def setCall (p : Props) : GoString :=
  bytes "\n\tsetIfNotEmpty(params, \"" ++ printKey p (bytes "name") ++ bytes "\", "
    ++ printKey p (bytes "name") ++ bytes ")\n\t"

/-- Template lines 69-83: the request a method builds. -/
def requestText (m : Method) : GoString :=
  bytes "\n\treq := elem.getInvokeRequest()\n\t"
    ++ (if m.Params ≠ [] then
          bytes "\n\tparams := make(map[string]interface\x7b\x7d)\n\t" ++ m.Params.flatMap setCall
            ++ bytes "\n\t"
        else [])
    ++ bytes "\n\n\treq[\"params\"] = map[string]interface\x7b\x7d \x7b\n\t\t\"operation\": \""
    ++ m.Name ++ bytes "\",\n\t\t\"object\": elem.Id, \n\t\t"
    ++ (if m.Params ≠ [] then bytes "\n\t\t\"operationParams\": params,\n\t\t" else [])
    ++ bytes "\n\t\x7d\n"

/-- Template lines 87-97: what a method returns. -/
def returnText (lib : TemplateLib) (m : Method) : Option GoString :=
  if m.Return ≠ [] then
    match eqStrings lib (idx m.Return (bytes "type"))
        [bytes "string", bytes "int", bytes "float64", bytes "boolean"] with
    | some true =>
      some (bytes "\n\t" ++ printKey m.Return (bytes "doc") ++ bytes "\n\t\t"
        ++ bytes "\n\t\treturn response.Result[\"value\"], response.Error\n\t\t" ++ bytes "\n\t")
    | some false =>
      some (bytes "\n\t" ++ printKey m.Return (bytes "doc") ++ bytes "\n\t\t"
        ++ bytes "\n\t\tret := " ++ printKey m.Return (bytes "type")
        ++ bytes "\x7b\x7d\n\t\treturn ret, response.Error\n\t\t" ++ bytes "\n\t")
    | none => none
  else some (bytes "\n\treturn response.Error\n\t")

/-- One pass of the second `{{ range .Methods }}` (template lines 62-99), `name` being
the variable `$name`. -/
def methodStub (T : CaseTables) (lib : TemplateLib) (name : GoString) (m : Method) :
    Option GoString :=
  match Arguments m.Params with
  | some args =>
    match returnText lib m with
    | some ret =>
      some (bytes "\n" ++ m.Doc ++ bytes " \n"
        ++ (if truthKey m.Return (bytes "doc") then
              bytes "\n// Returns\n" ++ printKey m.Return (bytes "doc") ++ bytes "\n"
            else [])
        ++ bytes "\nfunc (elem *" ++ name ++ bytes ") " ++ Title T m.Name ++ bytes "(" ++ args
        ++ bytes ") ("
        ++ (if truthKey m.Return (bytes "type") then
              printKey m.Return (bytes "type") ++ bytes ", "
            else [])
        ++ bytes " error) \x7b" ++ requestText m
        ++ bytes "\n\t// call server and and wait response\n\tresponse := <-elem.connection.Request(req)\n\t"
        ++ ret ++ bytes "\n\x7d\n")
    | none => none
  | none => none

/-- Execution of `strTemplate` on a class: the text written, `none` when execution
fails (which is fatal to the run). -/
def strTemplate (T : CaseTables) (lib : TemplateLib) (cl : Class) : Option GoString :=
  match interfaceSection T cl with
  | some iface =>
    match structSection T cl with
    | some struct =>
      match constructorSection lib cl with
      | some constr =>
        match rangeOver (methodStub T lib cl.Name) cl.Methods with
        | some stubs =>
          some (bytes "\n" ++ bytes "\n" ++ bytes "\n\n" ++ bytes "\n" ++ iface ++ struct
            ++ constr ++ bytes "\n" ++ stubs ++ bytes "\n")
        | none => none
      | none => none
    | none => none
  | none => none

/-! ## The remote-class pass (main.go 256-342) and `main` (main.go 456-493) -/

/-- Lines 279-298: the registry-based rewrite of the type of a class property.  The slice
`p["type"].(string)[:2]` panics on a string shorter than two bytes. -/
def rewriteProperty (CPXTYPES : List GoString) (p : Props) : Option Props :=
  match idx p (bytes "type") with
  | .str t =>
    if t = bytes "string" ∨ t = bytes "float64" ∨ t = bytes "bool" ∨ t = bytes "[]string" then
      some p
    else if t.length < 2 then none
    else if t.take 2 = bytes "[]" then
      if isComplexType CPXTYPES (t.drop 2) then
        some (setKey p (bytes "type") (.str (bytes "[]*" ++ t.drop 2)))
      else some (setKey p (bytes "type") (.str (bytes "[]I" ++ t.drop 2)))
    else if isComplexType CPXTYPES t then
      some (setKey p (bytes "type") (.str (bytes "*" ++ t)))
    else some (setKey p (bytes "type") (.str (bytes "I" ++ t)))
  | _ => some p

/-- Lines 277-300: every class property normalised by `formatTypes`, then rewritten. -/
def remoteProperties (CPXTYPES : List GoString) : List Props → Option (List Props)
  | [] => some []
  | p :: ps =>
    match formatTypes p with
    | none => none
    | some q =>
      match rewriteProperty CPXTYPES q with
      | none => none
      | some r =>
        match remoteProperties CPXTYPES ps with
        | none => none
        | some rs => some (r :: rs)

/-- Lines 304-316: the parameters, the doc and the return of a method normalised; the
return is touched only when it has a type, and its doc is then formatted a second
time. -/
def formatMethod (m : Method) : Option Method :=
  match formatProps m.Params with
  | none => none
  | some ps =>
    if idx m.Return (bytes "type") ≠ .nil then
      match formatTypes m.Return with
      | none => none
      | some r =>
        match idx r (bytes "doc") with
        | .str d =>
          some { Name := m.Name, Doc := formatDoc m.Doc, Params := ps,
                 Return := setKey r (bytes "doc") (.str (formatDoc d)) }
        | _ => none
    else some { Name := m.Name, Doc := formatDoc m.Doc, Params := ps, Return := m.Return }

/-- Lines 302-317: the loop over the methods. -/
def formatMethods : List Method → Option (List Method)
  | [] => some []
  | m :: ms =>
    match formatMethod m with
    | none => none
    | some r =>
      match formatMethods ms with
      | none => none
      | some rs => some (r :: rs)

/-- Lines 273-337: the class with its properties, methods and constructor parameters
normalised and its doc formatted, as the template receives it. -/
def prepareClass (CPXTYPES : List GoString) (cl : Class) : Option Class :=
  match remoteProperties CPXTYPES cl.Properties with
  | none => none
  | some ps =>
    match formatMethods cl.Methods with
    | none => none
    | some ms =>
      match formatProps cl.Constructor.Params with
      | none => none
      | some cs =>
        some { Name := cl.Name, Doc := formatDoc cl.Doc, Abstract := cl.Abstract,
               Properties := ps, Extends := cl.Extends, Methods := ms, Events := cl.Events,
               Constructor := { Name := cl.Constructor.Name, Doc := cl.Constructor.Doc,
                                Params := cs } }

/-- Lines 273-337: the text rendered for one class. -/
def renderClass (T : CaseTables) (lib : TemplateLib) (CPXTYPES : List GoString) (cl : Class) :
    Option GoString :=
  match prepareClass CPXTYPES cl with
  | none => none
  | some c => strTemplate T lib c

/-- Lines 273-338: the loop over the classes of one file. -/
def classesLoop (T : CaseTables) (lib : TemplateLib) (CPXTYPES : List GoString) :
    List Class → Option (List GoString)
  | [] => some []
  | cl :: cls =>
    match renderClass T lib CPXTYPES cl with
    | none => none
    | some out =>
      match classesLoop T lib CPXTYPES cls with
      | none => none
      | some outs => some (out :: outs)

/-- Lines 268-341: the loop over the paths; each file gets its own `ret`. -/
def remotePathsLoop (T : CaseTables) (lib : TemplateLib) (W : World) :
    List GoString → State → Option State
  | [], st => some st
  | p :: rest, st =>
    match W.getModel p with
    | none => none
    | some core =>
      match classesLoop T lib st.CPXTYPES core.RemoteClasses with
      | none => none
      | some ret =>
        remotePathsLoop T lib W rest
          { CPXTYPES := st.CPXTYPES,
            files := st.files ++ [(createFile T p [], fileContent ret)] }

/-- Embedding of `parseRemotes`: `none` when the run is aborted. -/
def parseRemotes (T : CaseTables) (lib : TemplateLib) (W : World) (remotes : List GoString)
    (st : State) : Option State :=
  match globAll W remotes with
  | none => none
  | some paths => remotePathsLoop T lib W paths st

/-- The pattern list of `main` (lines 479-483, and again 487-491). -/
def complexList : List GoString :=
  [bytes "kms-core/src/server/interface/core.kmd.json",
   bytes "kms-elements/src/server/interface/elements.*.kmd.json",
   bytes "kms-filters/src/server/interface/filters.*.kmd.json"]

/-- Embedding of `main`.  `base` is the outcome of lines 458-476, the copy of the two
base files: `none` when a read or a write fails, else the contents of `base.go` and
`kurento_ws.go`. -/
def main (T : CaseTables) (lib : TemplateLib) (W : World) (base : Option (GoString × GoString)) :
    Option State :=
  match base with
  | none => none
  | some b =>
    match parseComplexTypes T W complexList (bytes "complext_types")
        { CPXTYPES := [],
          files := [(bytes "kurento/base.go", b.1), (bytes "kurento/kurento_ws.go", b.2)] } with
    | none => none
    | some st => parseRemotes T lib W complexList st

/-! ## `formatTypes` as a function of the raw type and the supplied default -/

/-- The type after lines 371-385, as a function of the type before. -/
def primOf (t : GoString) : GoString :=
  let t := if t = bytes "String[]" then bytes "[]string" else t
  let t := if t = bytes "String" ∨ t = bytes "String<>" then bytes "string" else t
  let t := if t = bytes "float" ∨ t = bytes "double" then bytes "float64" else t
  if t = bytes "boolean" then bytes "bool" else t

/-- The type after lines 387-391. -/
def collOf (t : GoString) : GoString :=
  match re t with
  | some g => bytes "[]" ++ g
  | none => t

/-- The type after lines 393-397. -/
def optOf (t : GoString) : GoString :=
  if symbol t then t.take (t.length - 2) else t

/-- The type `formatTypes` stores for the raw type `t`. -/
def normType (t : GoString) : GoString := optOf (collOf (primOf t))

/-- The default value `formatTypes` stores, from the final type and the supplied
default. -/
def normDefault (t : GoString) (dv : Value) : Value :=
  if dv = .str [] ∨ dv = .nil then
    if t = bytes "string" then .str (bytes "\"\"")
    else if t = bytes "bool" then .str (bytes "false")
    else if t = bytes "int" ∨ t = bytes "float64" then .str (bytes "0")
    else dv
  else dv


/-- The primitive spellings with their canonical type and the text of their default. -/
def primitiveSpellings : List (String × String × String) :=
  [("String", "string", "\"\""), ("float", "float64", "0"), ("double", "float64", "0"),
   ("boolean", "bool", "false"), ("int", "int", "0")]

/-- A property map holding just a doc and a raw type. -/
def propOf (doc raw : String) : Props :=
  [(bytes "doc", .str (bytes doc)), (bytes "type", .str (bytes raw))]

/-- The type and the default `formatTypes` stores for the raw type `raw` with no default
supplied (`none` when it panics). -/
def typeAndDefault (raw : String) : Option (Value × Value) :=
  (formatTypes (propOf "" raw)).map
    (fun r => (idx r (bytes "type"), idx r (bytes "defaultValue")))

/-- The primitive spellings of the schema. -/
def primitiveNames : List GoString :=
  [bytes "String", bytes "float", bytes "double", bytes "boolean", bytes "int"]

/-! ## Documentation strings built from whole tokens -/

/-- A piece of a documentation string: one byte of plain text, or a whole
cross-reference token. -/
inductive DocPiece where
  | plain (c : UInt8)
  | romCls
  | term
  deriving DecidableEq, Repr

/-- The bytes of a piece. -/
def DocPiece.text : DocPiece → GoString
  | .plain c => [c]
  | .romCls => bytes ":rom:cls:"
  | .term => bytes ":term:"

/-- A plain byte is clean when it is neither a colon nor an asterisk. -/
def DocPiece.clean : DocPiece → Bool
  | .plain c => c != 0x3A && c != 0x2A
  | _ => true

/-- The documentation string made of the pieces. -/
def docOf (ps : List DocPiece) : GoString := ps.flatMap DocPiece.text

/-- The pieces other than the token `:rom:cls:`. -/
def dropRom : List DocPiece → List DocPiece
  | [] => []
  | .romCls :: ps => dropRom ps
  | p :: ps => p :: dropRom ps

/-- The plain bytes of the pieces. -/
def plainBytes : List DocPiece → GoString
  | [] => []
  | .plain c :: ps => c :: plainBytes ps
  | _ :: ps => plainBytes ps

/-- No two adjacent bytes are both backticks. -/
def NoTickPair (s : GoString) : Prop :=
  List.Chain' (fun a b : UInt8 => ¬ (a = 0x60 ∧ b = 0x60)) s

/-! ## Reading the rendered complex types -/

/-- The string held by a value (empty for a value that is not a string). -/
def strOf : Value → GoString
  | .str s => s
  | _ => []

/-- A property with a name, a raw type and a doc, as the schema writes it. -/
def property (name type : String) (doc : GoString) : Props :=
  [(bytes "name", .str (bytes name)), (bytes "type", .str (bytes type)),
   (bytes "doc", .str doc)]

/-- The names the complex-type pass meets, in processing order: path by path, and
within a file in schema order. -/
def declaredNames (W : World) (paths : List GoString) : List GoString :=
  paths.flatMap (fun path =>
    match W.getModel path with
    | some core => (core.ComplexTypes.getD []).map (fun ct => ct.Name)
    | none => [])

/-- Case tables that leave a string with a non-ASCII byte as it is; they stand in where
a concrete run is evaluated on ASCII input. -/
def plainTables : CaseTables := ⟨id, id, id⟩

/-- The complex type `Point` with the properties `x` and `y` of type `int`. -/
def pointType : ComplexType :=
  ⟨bytes "REGISTER", bytes "", [], bytes "Point",
    [property "x" "int" (bytes ""), property "y" "int" (bytes "")]⟩

/-- A world with the single schema file `core.kmd.json`, which declares `Point` twice. -/
def pointWorld : World where
  glob := fun pat => if pat = bytes "core.kmd.json" then some [bytes "core.kmd.json"] else some []
  getModel := fun path =>
    if path = bytes "core.kmd.json" then some ⟨[], some [pointType, pointType]⟩ else none


/-! ## Reading the remote-class pass -/

/-- The template library as current Go releases behave: `eq` on an absent entry is
false. -/
def goLib : TemplateLib := ⟨some false⟩

/-- A name the registry rewrite treats as a reference: at least two bytes, none of the
types the rewrite skips, and not a collection. -/
def isReferenceName (t : GoString) : Bool :=
  decide (2 ≤ t.length) && !(t = bytes "string" || t = bytes "float64" || t = bytes "bool"
    || t = bytes "[]string") && !(t.take 2 = bytes "[]")

/-- The names `tplCheckElement` rewrites: more than five bytes, starting with `Media`,
not ending in `Type`. -/
def isMediaName (p : GoString) : Bool :=
  decide (5 < p.length) && (p.take 5 = bytes "Media") && !(p.drop (p.length - 4) = bytes "Type")

/-- The field type emitted for a class property of raw type `raw` (with an empty doc)
under the registry `CPXTYPES`; `none` when the pass panics. -/
def fieldType (CPXTYPES : List GoString) (raw : String) : Option Value :=
  match remoteProperties CPXTYPES [property "p" raw (bytes "")] with
  | some [r] => some (idx r (bytes "type"))
  | _ => none

/-- A method with the given name, parameters and return, and an empty doc. -/
def method (name : String) (params : List Props) (ret : Props) : Method :=
  { Name := bytes name, Doc := bytes "", Params := params, Return := ret }

/-- A return of the given raw type, with an empty doc. -/
def returnOf (raw : String) : Props :=
  [(bytes "type", .str (bytes raw)), (bytes "doc", .str (bytes ""))]

/-- The return statement rendered for a method without parameters whose return is
`ret`. -/
def returnRendered (ret : Props) : Option GoString :=
  match formatMethod (method "get" [] ret) with
  | some m => returnText goLib m
  | none => none

/-- The entry of the constructor map rendered for a constructor parameter. -/
def entryRendered (p : Props) : Option GoString :=
  match formatTypes p with
  | some q => constructorEntry goLib q
  | none => none

/-- A class with the given name, base, properties, methods and constructor
parameters, and empty docs. -/
def classOf (name ext : String) (props : List Props) (methods : List Method)
    (params : List Props) : Class :=
  { Name := bytes name, Doc := bytes "", Abstract := false, Properties := props,
    Extends := bytes ext, Methods := methods, Events := [],
    Constructor := { Name := bytes "", Doc := bytes "", Params := params } }

/-- The class `Shape` of the end-to-end scenario, with a property `center` of type
`Point` added: no base, one method `move(to: Point)` without return. -/
def shapeClass : Class :=
  classOf "Shape" "" [property "center" "Point" (bytes "")]
    [method "move" [property "to" "Point" (bytes "")] []] []

/-- A world of two schema files: the core file declares the class `Shape`, and a file
of the second pattern, processed after it, declares the complex type `Point`. -/
def shapeWorld : World where
  glob := fun pat =>
    if pat = bytes "kms-core/src/server/interface/core.kmd.json" then
      some [bytes "kms-core/src/server/interface/core.kmd.json"]
    else if pat = bytes "kms-elements/src/server/interface/elements.*.kmd.json" then
      some [bytes "kms-elements/src/server/interface/elements.geometry.kmd.json"]
    else some []
  getModel := fun path =>
    if path = bytes "kms-core/src/server/interface/core.kmd.json" then
      some ⟨[shapeClass], none⟩
    else if path = bytes "kms-elements/src/server/interface/elements.geometry.kmd.json" then
      some ⟨[], some [pointType]⟩
    else none

/-- The content of the file written last under the given name, if any. -/
def fileNamed (st : State) (name : GoString) : Option GoString :=
  st.files.reverse.lookup name

/-! ## Reading the class template -/

/-- What `tplCheckElement` makes of a name: `I` before a name of more than five bytes
that starts with `Media` and does not end in `Type`, any other name as it is. -/
def capability (t : GoString) : GoString :=
  if isMediaName t then bytes "I" ++ t else t

/-- The text of one parameter in a signature: its name, a blank, its type. -/
def paramText (e : Props) : GoString :=
  printKey e (bytes "name") ++ bytes " " ++ capability (printKey e (bytes "type"))

/-- The text between the parentheses of a signature: the parameters in order, separated
by ` , `. -/
def paramList (ps : List Props) : GoString :=
  Join (ps.map paramText) (bytes " , ")

/-- The return type in a signature, followed by `sep`; nothing when the method has
none. -/
def returnPart (m : Method) (sep : GoString) : GoString :=
  if truthKey m.Return (bytes "type") then printKey m.Return (bytes "type") ++ sep else []

/-- The signature of a method in the interface of its class. -/
def signature (T : CaseTables) (m : Method) : GoString :=
  bytes "\n\t" ++ Title T m.Name ++ bytes "(" ++ paramList m.Params ++ bytes ")("
    ++ returnPart m (bytes ",") ++ bytes " error)\n\t"

/-- The lines of one property in the struct of its class: the doc, then the title-cased
name and the type. -/
def fieldText (T : CaseTables) (p : Props) : GoString :=
  bytes "\n\t" ++ printKey p (bytes "doc") ++ bytes "\n\t"
    ++ Title T (strOf (idx p (bytes "name"))) ++ bytes " " ++ printKey p (bytes "type")
    ++ bytes "\n\t"

/-- Whether a value is a string. -/
def isStr : Value → Bool
  | .str _ => true
  | _ => false

/-- A map whose doc and type are strings. -/
def typed (p : Props) : Bool :=
  isStr (idx p (bytes "doc")) && isStr (idx p (bytes "type"))

/-- A method as the schema declares one: every parameter carries a doc and a type, and
the return is absent or carries a doc and a type. -/
def wellFormedMethod (m : Method) : Bool :=
  m.Params.all typed && (decide (m.Return = []) || typed m.Return)

/-- A class property the pass can rewrite: doc, type and name are strings and the
normalised type has at least two bytes. -/
def wellFormedProperty (p : Props) : Bool :=
  typed p && isStr (idx p (bytes "name"))
    && decide (2 ≤ (normType (strOf (idx p (bytes "type")))).length)

/-- A class as the schema declares one. -/
def wellFormedClass (cl : Class) : Bool :=
  cl.Properties.all wellFormedProperty && cl.Methods.all wellFormedMethod
    && cl.Constructor.Params.all typed

/-- The request a method stub builds, for the operation `op` and the parameter names
`names`: one `setIfNotEmpty` call per name, in order, into the map `params`, then the
map with the entries `operation`, `object` and, when there are parameters,
`operationParams`. -/
def requestOf (op : GoString) (names : List GoString) : GoString :=
  bytes "\n\treq := elem.getInvokeRequest()\n\t"
    ++ (if names ≠ [] then
          bytes "\n\tparams := make(map[string]interface\x7b\x7d)\n\t"
            ++ names.flatMap (fun n => bytes "\n\tsetIfNotEmpty(params, \"" ++ n
                ++ bytes "\", " ++ n ++ bytes ")\n\t")
            ++ bytes "\n\t"
        else [])
    ++ bytes "\n\n\treq[\"params\"] = map[string]interface\x7b\x7d \x7b\n\t\t\"operation\": \""
    ++ op ++ bytes "\",\n\t\t\"object\": elem.Id, \n\t\t"
    ++ (if names ≠ [] then bytes "\n\t\t\"operationParams\": params,\n\t\t" else [])
    ++ bytes "\n\t\x7d\n"

/-- The text of a method stub up to the opening brace of its body: the doc, the doc of
the return when there is one, and the signature. -/
def stubHead (T : CaseTables) (name : GoString) (m : Method) : GoString :=
  bytes "\n" ++ m.Doc ++ bytes " \n"
    ++ (if truthKey m.Return (bytes "doc") then
          bytes "\n// Returns\n" ++ printKey m.Return (bytes "doc") ++ bytes "\n"
        else [])
    ++ bytes "\nfunc (elem *" ++ name ++ bytes ") " ++ Title T m.Name ++ bytes "("
    ++ paramList m.Params ++ bytes ") (" ++ returnPart m (bytes ", ") ++ bytes " error) \x7b"

/-- The text of a method stub after the request: the call, what `returnText` gives, the
closing brace. -/
def stubTail (ret : GoString) : GoString :=
  bytes "\n\t// call server and and wait response\n\tresponse := <-elem.connection.Request(req)\n\t"
    ++ ret ++ bytes "\n\x7d\n"

/-- The names of the parameters of a method, as the schema writes them. -/
def paramNames (m : Method) : List GoString :=
  m.Params.map (fun p => strOf (idx p (bytes "name")))

/-- A class `Dispatcher` with three methods: `connect(source: HubPort, sink: HubPort)`,
`setState(state: MediaState)` and `getPort(): HubPort`. -/
def dispatcherClass : Class :=
  classOf "Dispatcher" "Hub" []
    [method "connect" [property "source" "HubPort" (bytes ""),
        property "sink" "HubPort" (bytes "")] [],
     method "setState" [property "state" "MediaState" (bytes "")] [],
     method "getPort" [] (returnOf "HubPort")] []

/-- The text rendered for a class contains the given text. -/
def rendersText (out : Option GoString) (text : String) : Bool :=
  match out with
  | some o => Contains o (bytes text)
  | none => false

/-- Every parameter of every method of the class has a string name. -/
def namedParams (cl : Class) : Bool :=
  cl.Methods.all (fun m => m.Params.all (fun p => isStr (idx p (bytes "name"))))

/-- A class `PlayerEndpoint` whose constructor takes `mediaPipeline: MediaPipeline`,
`uri: String`, `useEncodedMedia: boolean` and `networkCache: int` with the default
2000. -/
def playerClass : Class :=
  classOf "PlayerEndpoint" "UriEndpoint" [] []
    [property "mediaPipeline" "MediaPipeline" (bytes ""),
     property "uri" "String" (bytes ""),
     property "useEncodedMedia" "boolean" (bytes ""),
     (bytes "defaultValue", .other (bytes "2000") true) :: property "networkCache" "int" (bytes "")]

/-- The paths of a run: those of every pattern, in order. -/
def pathsOf (W : World) (pats : List GoString) : List GoString :=
  pats.flatMap (fun pat => (W.glob pat).getD [])

/-- A world in which a run over the patterns goes through: every pattern is well
formed, every file is read and parsed, every property of a complex type carries a doc
and a type, and every class is well formed. -/
def wellFormedWorld (W : World) (pats : List GoString) : Bool :=
  pats.all (fun pat => (W.glob pat).isSome) &&
  (pathsOf W pats).all (fun path =>
    match W.getModel path with
    | some core =>
      (core.ComplexTypes.getD []).all (fun ct => ct.Properties.all typed)
        && core.RemoteClasses.all wellFormedClass
    | none => false)

/-- The state in which `main` starts the two passes: an empty registry and the two base
files. -/
def startState (b : GoString × GoString) : State :=
  { CPXTYPES := [],
    files := [(bytes "kurento/base.go", b.1), (bytes "kurento/kurento_ws.go", b.2)] }


/-! ## Worlds and inputs for the output files -/

/-- A complex type `Size` with the properties `w` and `h` of type `int`. -/
def sizeType : ComplexType :=
  ⟨bytes "REGISTER", bytes "", [], bytes "Size",
    [property "w" "int" (bytes ""), property "h" "int" (bytes "")]⟩

/-- A world of two schema files: the core file declares the class `Shape` and the
complex type `Point`; a file of the second pattern declares the class `Dispatcher` and
the complex type `Size`. -/
def twoFilesWorld : World where
  glob := fun pat =>
    if pat = bytes "kms-core/src/server/interface/core.kmd.json" then
      some [bytes "kms-core/src/server/interface/core.kmd.json"]
    else if pat = bytes "kms-elements/src/server/interface/elements.*.kmd.json" then
      some [bytes "kms-elements/src/server/interface/elements.geometry.kmd.json"]
    else some []
  getModel := fun path =>
    if path = bytes "kms-core/src/server/interface/core.kmd.json" then
      some ⟨[shapeClass], some [pointType]⟩
    else if path = bytes "kms-elements/src/server/interface/elements.geometry.kmd.json" then
      some ⟨[dispatcherClass], some [sizeType]⟩
    else none

/-- The names of the files a run has written, in order. -/
def fileNames (st : Option State) : List GoString :=
  match st with
  | some s => s.files.map Prod.fst
  | none => []

/-- The content of the file a run has written last under the given name. -/
def fileOf (st : Option State) (name : String) : Option GoString :=
  match st with
  | some s => fileNamed s (bytes name)
  | none => none

/-- A property or parameter with a name and a type only, without a doc. -/
def bareProperty (name type : String) : Props :=
  [(bytes "name", .str (bytes name)), (bytes "type", .str (bytes type))]

/-- The complex type `Point {x:int, y:int}` of the end-to-end scenario, its properties
without a doc. -/
def barePointType : ComplexType :=
  ⟨bytes "REGISTER", bytes "", [], bytes "Point",
    [bareProperty "x" "int", bareProperty "y" "int"]⟩

/-- The world of the end-to-end scenario: one schema file that declares the complex type
`Point {x:int, y:int}` and the class `Shape` with the method `move(to: Point)`, the
properties and the parameter without a doc. -/
def scenarioWorld : World where
  glob := fun pat =>
    if pat = bytes "kms-core/src/server/interface/core.kmd.json" then
      some [bytes "kms-core/src/server/interface/core.kmd.json"]
    else some []
  getModel := fun path =>
    if path = bytes "kms-core/src/server/interface/core.kmd.json" then
      some ⟨[classOf "Shape" "" [] [method "move" [bareProperty "to" "Point"] []] []],
        some [barePointType]⟩
    else none

/-- The type `formatTypes` stores for a raw type (with an empty doc). -/
def typeOf (raw : String) : Option Value :=
  (formatTypes [(bytes "doc", .str (bytes "")), (bytes "type", .str (bytes raw))]).map
    (fun r => idx r (bytes "type"))

/-- A class `Shape` whose property `center`, whose parameter `to` and whose return have
the type `Ghost`, and whose parameter `via` has the type `MediaGhost`. -/
def ghostClass : Class :=
  classOf "Shape" "" [property "center" "Ghost" (bytes "")]
    [method "move" [property "to" "Ghost" (bytes ""),
        property "via" "MediaGhost" (bytes "")] (returnOf "Ghost")] []

/-- A world whose only schema file declares the class `Shape` of `ghostClass` and no
complex type: the names `Ghost` and `MediaGhost` are neither complex types nor
classes. -/
def ghostWorld : World where
  glob := fun pat =>
    if pat = bytes "kms-core/src/server/interface/core.kmd.json" then
      some [bytes "kms-core/src/server/interface/core.kmd.json"]
    else some []
  getModel := fun path =>
    if path = bytes "kms-core/src/server/interface/core.kmd.json" then
      some ⟨[ghostClass], none⟩
    else none

/-- A class `Shape` whose method `m` has one parameter, of type `int`, whose name is a
JSON null. -/
def nullNameClass : Class :=
  classOf "Shape" "" []
    [method "m" [[(bytes "name", .nil), (bytes "type", .str (bytes "int")),
        (bytes "doc", .str (bytes ""))]] []] []

/-- The world of `shapeWorld` seen by a second run: the same patterns give the same
paths and the same two files hold the same documents, while a file no pattern names
differs. -/
def shapeWorldAgain : World where
  glob := fun pat =>
    if pat = bytes "kms-core/src/server/interface/core.kmd.json" then
      some [bytes "kms-core/src/server/interface/core.kmd.json"]
    else if pat = bytes "kms-elements/src/server/interface/elements.*.kmd.json" then
      some [bytes "kms-elements/src/server/interface/elements.geometry.kmd.json"]
    else if pat = bytes "kms-filters/src/server/interface/filters.*.kmd.json" then some []
    else none
  getModel := fun path =>
    if path = bytes "kms-core/src/server/interface/core.kmd.json" then
      some ⟨[shapeClass], none⟩
    else if path = bytes "kms-elements/src/server/interface/elements.geometry.kmd.json" then
      some ⟨[], some [pointType]⟩
    else some ⟨[dispatcherClass], some [sizeType]⟩

/-! ## The run of a generated method stub -/

/-- Modelled from the spec: a run-time argument of a generated method, as far as the
sparse-payload policy reads it (the helper `setIfNotEmpty` that the stubs call is defined
in `kurento_go_base/base.go`, which `main` copies and which is not among the sources): a
text, a number, a boolean, a reference to a remote object (`none` for no object), or a
composite value (struct or collection), of which only whether it is the zero value of its
type and its content matter. -/
inductive Arg where
  | text (s : GoString)
  | number (q : ℚ)
  | flag (b : Bool)
  | object (id : Option GoString)
  | composite (zero : Bool) (content : GoString)
  deriving DecidableEq

/-- Modelled from the spec: whether an argument is "the language's zero/empty value" of
its type: the empty text, the number zero, `false`, no object, a zero composite. -/
def Arg.isZero : Arg → Bool
  | .text s => decide (s = [])
  | .number q => decide (q = 0)
  | .flag b => !b
  | .object id => id.isNone
  | .composite zero _ => zero

/-- Modelled from the spec: the helper `setIfNotEmpty(params, name, value)` of
`base.go`, missing from the sources, by the sparse wire payload policy: "omitting any
argument whose value is the language's zero/empty value"; any other value is entered
under the name. -/
def setIfNotEmpty (params : List (GoString × Arg)) (name : GoString) (v : Arg) :
    List (GoString × Arg) :=
  if v.isZero then params else (name, v) :: params.filter (fun e => e.1 != name)

/-- The request payload a stub builds: `req["params"]`. -/
structure Payload where
  operation : GoString
  object : GoString
  operationParams : Option (List (GoString × Arg))

/-- The names under which a rendered stub enters its arguments: what the template writes
for `{{ .name }}` in `setIfNotEmpty(params, "{{ .name }}", {{ .name }})`. -/
def callNames (m : Method) : List GoString :=
  m.Params.map (fun p => printKey p (bytes "name"))

/-- Modelled from the spec: the run of the request part of a rendered stub (template
lines 69-83) on the arguments `args`, one per parameter, for the object `id`: the map
`params` starts empty and receives one `setIfNotEmpty` call per parameter, in order;
the payload holds the operation, the object and, when the method has parameters, the
map as `operationParams`. -/
def invokeStub (m : Method) (id : GoString) (args : List Arg) : Payload :=
  { operation := m.Name,
    object := id,
    operationParams :=
      if m.Params ≠ [] then
        some (((callNames m).zip args).foldl (fun acc e => setIfNotEmpty acc e.1 e.2) [])
      else none }

/-- The method `setOverlayedImage` of `FaceOverlayFilter`: a `uri` and four numbers. -/
def overlayMethod : Method :=
  method "setOverlayedImage"
    [property "uri" "String" (bytes ""), property "offsetXPercent" "float" (bytes ""),
     property "offsetYPercent" "float" (bytes ""), property "widthPercent" "float" (bytes ""),
     property "heightPercent" "float" (bytes "")] []

/-! # Theorems -/

/-! ## Lemmas: property maps -/

theorem idx_setKey_same (p : Props) (k : GoString) (v : Value) :
    idx (setKey p k v) k = v := by
  simp [idx, setKey, List.lookup]

theorem lookup_filter_ne (p : Props) (k k2 : GoString) (h : k2 ≠ k) :
    (p.filter (fun e => e.1 != k)).lookup k2 = p.lookup k2 := by
  induction p with
  | nil => rfl
  | cons e es ih =>
    obtain ⟨a, b⟩ := e
    by_cases hak : a = k
    · subst hak
      have h1 : (k2 == a) = false := by simpa using h
      simp [List.filter, List.lookup, h1, ih]
    · have h1 : (a != k) = true := by simpa using hak
      simp only [List.filter, h1, List.lookup, ih]

theorem idx_setKey_ne (p : Props) (k k2 : GoString) (v : Value) (h : k2 ≠ k) :
    idx (setKey p k v) k2 = idx p k2 := by
  have h1 : (k2 == k) = false := by simpa using h
  simp [idx, setKey, List.lookup, h1, lookup_filter_ne p k k2 h]

/-! ## Lemmas: the steps of `formatTypes` -/

theorem mapPrimitives_type (p : Props) (t : GoString) (ht : idx p (bytes "type") = .str t) :
    idx (mapPrimitives p) (bytes "type") = .str (primOf t) := by
  unfold mapPrimitives primOf
  simp only [ht, Value.str.injEq]
  split_ifs <;> simp_all [idx_setKey_same]

theorem mapPrimitives_other (p : Props) (k : GoString) (hk : k ≠ bytes "type") :
    idx (mapPrimitives p) k = idx p k := by
  unfold mapPrimitives
  simp only []
  split_ifs <;> simp [idx_setKey_ne _ _ _ _ hk]

theorem collectionStep_spec (p : Props) (t : GoString) (ht : idx p (bytes "type") = .str t) :
    ∃ r, collectionStep p = some r ∧ idx r (bytes "type") = .str (collOf t) ∧
      ∀ k, k ≠ bytes "type" → idx r k = idx p k := by
  unfold collectionStep collOf
  rw [ht]
  cases h : re t with
  | none => exact ⟨p, by simp [h], by simpa [h] using ht, fun _ _ => rfl⟩
  | some g =>
    exact ⟨setKey p (bytes "type") (.str (bytes "[]" ++ g)), by simp [h],
      by simpa [h] using idx_setKey_same _ _ _, fun k hk => idx_setKey_ne _ _ _ _ hk⟩

theorem contains_two_le (s : GoString) (a b : UInt8) (h : Contains s [a, b] = true) :
    2 ≤ s.length := by
  induction s with
  | nil => simp [Contains, List.isPrefixOf] at h
  | cons c cs ih =>
    cases cs with
    | nil => simp [Contains, List.isPrefixOf] at h
    | cons c2 cs2 => simp

theorem optionalStep_spec (p : Props) (t : GoString) (ht : idx p (bytes "type") = .str t) :
    ∃ r, optionalStep p = some r ∧ idx r (bytes "type") = .str (optOf t) ∧
      ∀ k, k ≠ bytes "type" → idx r k = idx p k := by
  unfold optionalStep optOf
  rw [ht]
  by_cases hs : symbol t = true
  · have h2 : ¬ t.length < 2 := by
      have := contains_two_le t 0x3C 0x3E (by simpa [symbol] using hs)
      omega
    simp only [hs, if_true, h2, if_false]
    exact ⟨_, rfl, idx_setKey_same _ _ _, fun k hk => idx_setKey_ne _ _ _ _ hk⟩
  · simp only [hs]
    exact ⟨p, rfl, ht, fun _ _ => rfl⟩

theorem key_default_ne_type : bytes "defaultValue" ≠ bytes "type" := by decide
theorem key_type_ne_default : bytes "type" ≠ bytes "defaultValue" := by decide
theorem key_type_ne_doc : bytes "type" ≠ bytes "doc" := by decide
theorem key_default_ne_doc : bytes "defaultValue" ≠ bytes "doc" := by decide
theorem key_doc_ne_type : bytes "doc" ≠ bytes "type" := by decide
theorem key_doc_ne_default : bytes "doc" ≠ bytes "defaultValue" := by decide

theorem defaultStep_spec (p : Props) (t : GoString) (ht : idx p (bytes "type") = .str t) :
    idx (defaultStep p) (bytes "type") = .str t ∧
    idx (defaultStep p) (bytes "defaultValue") = normDefault t (idx p (bytes "defaultValue")) ∧
    ∀ k, k ≠ bytes "defaultValue" → idx (defaultStep p) k = idx p k := by
  unfold defaultStep normDefault
  simp only [ht, Value.str.injEq]
  split_ifs <;>
    simp_all [idx_setKey_same, idx_setKey_ne _ _ _ _ key_type_ne_default] <;>
    intro k hk <;> exact idx_setKey_ne _ _ _ _ hk

/-- What `formatTypes` returns on a map whose doc and type are strings: it does not
panic, and the stored type, default and doc are functions of the supplied ones. -/
theorem formatTypes_spec (p : Props) (d t : GoString)
    (hd : idx p (bytes "doc") = .str d) (ht : idx p (bytes "type") = .str t) :
    ∃ r, formatTypes p = some r ∧
      idx r (bytes "type") = .str (normType t) ∧
      idx r (bytes "defaultValue") = normDefault (normType t) (idx p (bytes "defaultValue")) ∧
      idx r (bytes "doc") = .str (formatDoc d) ∧
      ∀ k, k ≠ bytes "type" → k ≠ bytes "defaultValue" → k ≠ bytes "doc" →
        idx r k = idx p k := by
  have h0 : idx (setKey p (bytes "doc") (.str (formatDoc d))) (bytes "type") = .str t := by
    rw [idx_setKey_ne _ _ _ _ key_type_ne_doc, ht]
  have h1 := mapPrimitives_type _ _ h0
  obtain ⟨r2, e2, t2, o2⟩ := collectionStep_spec _ _ h1
  obtain ⟨r3, e3, t3, o3⟩ := optionalStep_spec _ _ t2
  obtain ⟨t4, d4, o4⟩ := defaultStep_spec _ _ t3
  refine ⟨defaultStep r3, ?_, t4, ?_, ?_, ?_⟩
  · unfold formatTypes
    rw [hd]
    simp only [e2, e3]
  · rw [d4, o3 _ key_default_ne_type, o2 _ key_default_ne_type,
      mapPrimitives_other _ _ key_default_ne_type, idx_setKey_ne _ _ _ _ key_default_ne_doc]
    rfl
  · rw [o4 _ key_doc_ne_default, o3 _ key_doc_ne_type, o2 _ key_doc_ne_type,
      mapPrimitives_other _ _ key_doc_ne_type, idx_setKey_same]
  · intro k h1 h2 h3
    rw [o4 _ h2, o3 _ h1, o2 _ h1, mapPrimitives_other _ _ h1, idx_setKey_ne _ _ _ _ h3]


/-! ## Primitive spellings -/

/-- C1: for each primitive spelling (String, float, double, boolean, int) and every
property map carrying that raw type, a doc text (the doc is read as a string at line 369)
and no default value (absent, or the empty string), `formatTypes` returns a map whose type
is string, float64, float64, bool, int respectively and whose defaultValue is the text
`""`, `0`, `0`, `false`, `0` respectively. -/
theorem formatTypes_primitive_default (p : Props) (d : GoString)
    (hd : idx p (bytes "doc") = .str d)
    (hdef : idx p (bytes "defaultValue") = .nil ∨ idx p (bytes "defaultValue") = .str [])
    (raw canon dflt : String) (hmem : (raw, canon, dflt) ∈ primitiveSpellings)
    (ht : idx p (bytes "type") = .str (bytes raw)) :
    ∃ r, formatTypes p = some r ∧ idx r (bytes "type") = .str (bytes canon) ∧
      idx r (bytes "defaultValue") = .str (bytes dflt) := by
  obtain ⟨r, hr, htr, hdr, -, -⟩ := formatTypes_spec p d (bytes raw) hd ht
  refine ⟨r, hr, ?_, ?_⟩
  · rw [htr]
    simp only [primitiveSpellings, List.mem_cons, Prod.mk.injEq, List.mem_singleton,
      List.not_mem_nil, or_false] at hmem
    rcases hmem with ⟨rfl, rfl, rfl⟩ | ⟨rfl, rfl, rfl⟩ | ⟨rfl, rfl, rfl⟩ | ⟨rfl, rfl, rfl⟩ |
      ⟨rfl, rfl, rfl⟩ <;> decide
  · rw [hdr]
    simp only [primitiveSpellings, List.mem_cons, Prod.mk.injEq, List.mem_singleton,
      List.not_mem_nil, or_false] at hmem
    rcases hmem with ⟨rfl, rfl, rfl⟩ | ⟨rfl, rfl, rfl⟩ | ⟨rfl, rfl, rfl⟩ | ⟨rfl, rfl, rfl⟩ |
      ⟨rfl, rfl, rfl⟩ <;> rcases hdef with h | h <;> rw [h] <;> decide

/-- Witness of C1: the property `{doc: "", type: "float"}`. -/
theorem formatTypes_primitive_default_witness :
    ∃ r, formatTypes (propOf "" "float") = some r ∧
      idx r (bytes "type") = .str (bytes "float64") ∧
      idx r (bytes "defaultValue") = .str (bytes "0") :=
  formatTypes_primitive_default (propOf "" "float") (bytes "") (by decide)
    (Or.inl (by decide)) "float" "float64" "0" (by decide) (by decide)

/-- C2 (the code at the failing inputs): `String[]` gives `[]string` and `int[]` gives
`[]int`, but `float[]`, `double[]` and `boolean[]` give `[]float`, `[]double` and
`[]boolean`: the element type is not normalised. -/
theorem formatTypes_primitive_collection :
    (typeAndDefault "String[]").map Prod.fst = some (.str (bytes "[]string")) ∧
    (typeAndDefault "int[]").map Prod.fst = some (.str (bytes "[]int")) ∧
    (typeAndDefault "float[]").map Prod.fst = some (.str (bytes "[]float")) ∧
    (typeAndDefault "double[]").map Prod.fst = some (.str (bytes "[]double")) ∧
    (typeAndDefault "boolean[]").map Prod.fst = some (.str (bytes "[]boolean")) := by
  decide

/-- C3 (the code at the failing inputs): `String<>` and `int<>` give what the bare
spelling gives, but `float<>`, `double<>` and `boolean<>` give the types `float`, `double`
and `boolean` with no default, where the bare spellings give `float64`, `float64` and
`bool` with the defaults `0`, `0` and `false`. -/
theorem formatTypes_primitive_optional :
    typeAndDefault "String<>" = typeAndDefault "String" ∧
    typeAndDefault "int<>" = typeAndDefault "int" ∧
    typeAndDefault "float<>" = some (.str (bytes "float"), .nil) ∧
    typeAndDefault "float" = some (.str (bytes "float64"), .str (bytes "0")) ∧
    typeAndDefault "double<>" = some (.str (bytes "double"), .nil) ∧
    typeAndDefault "double" = some (.str (bytes "float64"), .str (bytes "0")) ∧
    typeAndDefault "boolean<>" = some (.str (bytes "boolean"), .nil) ∧
    typeAndDefault "boolean" = some (.str (bytes "bool"), .str (bytes "false")) := by
  decide

/-! ## Defaults -/

theorem brackets_append_ne (e : GoString) :
    bytes "[]" ++ e ≠ bytes "string" ∧ bytes "[]" ++ e ≠ bytes "bool" ∧
    bytes "[]" ++ e ≠ bytes "int" ∧ bytes "[]" ++ e ≠ bytes "float64" := by
  have hh : (bytes "[]" ++ e).head? = some 0x5B := rfl
  refine ⟨?_, ?_, ?_, ?_⟩ <;> intro h <;> rw [h] at hh <;> revert hh <;> decide

/-- C5: on a property map whose doc and type are strings `formatTypes` returns, and it
synthesises a defaultValue only when none is supplied and the canonical type is string,
bool, int or float64: the defaultValue differs from the supplied one only in that case;
when the canonical type is none of the four (a reference name or a collection `[]...`)
and the defaultValue is absent, the result carries none; and a supplied non-empty
defaultValue is kept. -/
theorem formatTypes_default_frame (p : Props) (d t : GoString)
    (hd : idx p (bytes "doc") = .str d) (ht : idx p (bytes "type") = .str t) :
    ∃ r, formatTypes p = some r ∧
      (idx r (bytes "defaultValue") ≠ idx p (bytes "defaultValue") →
        (idx p (bytes "defaultValue") = .nil ∨ idx p (bytes "defaultValue") = .str []) ∧
        (idx r (bytes "type") = .str (bytes "string") ∨
         idx r (bytes "type") = .str (bytes "bool") ∨
         idx r (bytes "type") = .str (bytes "int") ∨
         idx r (bytes "type") = .str (bytes "float64"))) ∧
      (idx p (bytes "defaultValue") = .nil →
        idx r (bytes "type") ≠ .str (bytes "string") →
        idx r (bytes "type") ≠ .str (bytes "bool") →
        idx r (bytes "type") ≠ .str (bytes "int") →
        idx r (bytes "type") ≠ .str (bytes "float64") →
        idx r (bytes "defaultValue") = .nil) ∧
      (∀ e, idx r (bytes "type") = .str (bytes "[]" ++ e) →
        idx p (bytes "defaultValue") = .nil → idx r (bytes "defaultValue") = .nil) ∧
      (idx p (bytes "defaultValue") ≠ .nil → idx p (bytes "defaultValue") ≠ .str [] →
        idx r (bytes "defaultValue") = idx p (bytes "defaultValue")) := by
  obtain ⟨r, hr, htr, hdr, -, -⟩ := formatTypes_spec p d t hd ht
  refine ⟨r, hr, ?_, ?_, ?_, ?_⟩
  · rw [hdr, htr]
    unfold normDefault
    simp only [Value.str.injEq]
    by_cases h : idx p (bytes "defaultValue") = .str [] ∨ idx p (bytes "defaultValue") = .nil
    · simp only [h, if_true]
      intro hne
      refine ⟨h.symm, ?_⟩
      by_contra hcon
      push_neg at hcon
      apply hne
      simp [hcon.1, hcon.2.1, hcon.2.2.1, hcon.2.2.2]
    · simp [h]
  · rw [hdr, htr]
    intro h0 h1 h2 h3 h4
    simp only [ne_eq, Value.str.injEq] at h1 h2 h3 h4
    simp [normDefault, h0, h1, h2, h3, h4]
  · intro e he h0
    rw [htr] at he
    have hn : normType t = bytes "[]" ++ e := by simpa using he
    obtain ⟨h1, h2, h3, h4⟩ := brackets_append_ne e
    rw [hdr, hn, h0]
    simp [normDefault, h1, h2, h3, h4]
  · intro h0 h1
    rw [hdr]
    simp [normDefault, h0, h1]

/-- Witness of C5: the property `{doc: "", type: "Foo[]"}`. -/
theorem formatTypes_default_frame_witness :
    ∃ r, formatTypes (propOf "" "Foo[]") = some r ∧
      (idx r (bytes "defaultValue") ≠ idx (propOf "" "Foo[]") (bytes "defaultValue") →
        (idx (propOf "" "Foo[]") (bytes "defaultValue") = .nil ∨
          idx (propOf "" "Foo[]") (bytes "defaultValue") = .str []) ∧
        (idx r (bytes "type") = .str (bytes "string") ∨
         idx r (bytes "type") = .str (bytes "bool") ∨
         idx r (bytes "type") = .str (bytes "int") ∨
         idx r (bytes "type") = .str (bytes "float64"))) ∧
      (idx (propOf "" "Foo[]") (bytes "defaultValue") = .nil →
        idx r (bytes "type") ≠ .str (bytes "string") →
        idx r (bytes "type") ≠ .str (bytes "bool") →
        idx r (bytes "type") ≠ .str (bytes "int") →
        idx r (bytes "type") ≠ .str (bytes "float64") →
        idx r (bytes "defaultValue") = .nil) ∧
      (∀ e, idx r (bytes "type") = .str (bytes "[]" ++ e) →
        idx (propOf "" "Foo[]") (bytes "defaultValue") = .nil →
        idx r (bytes "defaultValue") = .nil) ∧
      (idx (propOf "" "Foo[]") (bytes "defaultValue") ≠ .nil →
        idx (propOf "" "Foo[]") (bytes "defaultValue") ≠ .str [] →
        idx r (bytes "defaultValue") = idx (propOf "" "Foo[]") (bytes "defaultValue")) :=
  formatTypes_default_frame (propOf "" "Foo[]") (bytes "") (bytes "Foo[]")
    (by decide) (by decide)

/-! ## Reference names under the collection and optional markers -/

theorem bytes_brackets : bytes "[]" = [0x5B, 0x5D] := by decide

theorem bytes_angles : bytes "<>" = [0x3C, 0x3E] := by decide

theorem reHere_append_brackets (N : GoString) (hne : N ≠ []) (hnl : (0x0A : UInt8) ∉ N) :
    reHere (N ++ bytes "[]") = some N := by
  induction N with
  | nil => exact absurd rfl hne
  | cons c cs ih =>
    have hc : c ≠ 0x0A := fun h => hnl (by simp [h])
    cases cs with
    | nil =>
      have h0 : reHere (bytes "[]") = none := by decide
      have h1 : (bytes "[]").isPrefixOf (bytes "[]") = true := by decide
      show reHere (c :: bytes "[]") = some [c]
      rw [reHere]
      simp only [hc, if_false, h0, h1, if_true]
    | cons c2 cs2 =>
      have ih2 : reHere ((c2 :: cs2) ++ bytes "[]") = some (c2 :: cs2) :=
        ih (by simp) (fun h => hnl (List.mem_cons_of_mem _ h))
      show reHere (c :: ((c2 :: cs2) ++ bytes "[]")) = some (c :: c2 :: cs2)
      rw [reHere]
      simp only [hc, if_false, ih2]

theorem re_append_brackets (N : GoString) (hne : N ≠ []) (hnl : (0x0A : UInt8) ∉ N) :
    re (N ++ bytes "[]") = some N := by
  have h := reHere_append_brackets N hne hnl
  cases N with
  | nil => exact absurd rfl hne
  | cons c cs =>
    show re (c :: (cs ++ bytes "[]")) = some (c :: cs)
    rw [re]
    have h2 : reHere (c :: (cs ++ bytes "[]")) = some (c :: cs) := h
    simp only [h2]

theorem contains_of_isPrefixOf (sub s : GoString) (h : sub.isPrefixOf s = true) :
    Contains s sub = true := by
  cases s with
  | nil => simpa [Contains] using h
  | cons c cs => simp [Contains, h]

theorem contains_cons (sub : GoString) (c : UInt8) (s : GoString)
    (h : Contains s sub = true) : Contains (c :: s) sub = true := by
  simp [Contains, h]

theorem contains_of_reHere (s g : GoString) (h : reHere s = some g) :
    Contains s (bytes "[]") = true := by
  induction s generalizing g with
  | nil => simp [reHere] at h
  | cons c cs ih =>
    rw [reHere] at h
    by_cases hc : c = 0x0A
    · simp [hc] at h
    · simp only [hc, if_false] at h
      cases hr : reHere cs with
      | some g2 => exact contains_cons _ _ _ (ih g2 hr)
      | none =>
        simp only [hr] at h
        by_cases hp : (bytes "[]").isPrefixOf cs = true
        · exact contains_cons _ _ _ (contains_of_isPrefixOf _ _ hp)
        · simp [hp] at h

theorem contains_of_re (s g : GoString) (h : re s = some g) :
    Contains s (bytes "[]") = true := by
  induction s with
  | nil => simp [re] at h
  | cons c cs ih =>
    rw [re] at h
    cases hr : reHere (c :: cs) with
    | some g2 => exact contains_of_reHere _ _ hr
    | none =>
      simp only [hr] at h
      exact contains_cons _ _ _ (ih h)

theorem re_eq_none (s : GoString) (h : Contains s (bytes "[]") = false) : re s = none := by
  cases hr : re s with
  | none => rfl
  | some g => rw [contains_of_re s g hr] at h; exact absurd h (by decide)

theorem contains_pair_nil (a b : UInt8) : Contains [] [a, b] = false := by
  simp [Contains, List.isPrefixOf]

theorem contains_pair_single (a b c : UInt8) : Contains [c] [a, b] = false := by
  simp [Contains, List.isPrefixOf]

theorem contains_pair_cons (a b c c2 : UInt8) (cs : GoString) :
    Contains (c :: c2 :: cs) [a, b] = ((a == c && b == c2) || Contains (c2 :: cs) [a, b]) := by
  rw [Contains]
  simp [List.isPrefixOf]

/-- A two-byte pattern occurs in `N ++ [x, y]` only inside `N`, when it can neither
straddle the seam nor be the tail. -/
theorem contains_append_pair (N : GoString) (a b x y : UInt8) (hx : x ≠ b) (hxa : x ≠ a) :
    Contains (N ++ [x, y]) [a, b] = Contains N [a, b] := by
  have hxa2 : (a == x) = false := by simpa using Ne.symm hxa
  have hbx : (b == x) = false := by simpa using Ne.symm hx
  induction N with
  | nil =>
    show Contains [x, y] [a, b] = Contains [] [a, b]
    rw [contains_pair_cons, contains_pair_single, contains_pair_nil, hxa2]
    rfl
  | cons c cs ih =>
    cases cs with
    | nil =>
      show Contains (c :: x :: [y]) [a, b] = Contains [c] [a, b]
      have ih2 : Contains [x, y] [a, b] = Contains [] [a, b] := ih
      rw [contains_pair_cons, ih2, contains_pair_single, contains_pair_nil, hbx]
      simp
    | cons c2 cs2 =>
      show Contains (c :: c2 :: (cs2 ++ [x, y])) [a, b] = Contains (c :: c2 :: cs2) [a, b]
      have ih2 : Contains (c2 :: (cs2 ++ [x, y])) [a, b] = Contains (c2 :: cs2) [a, b] := ih
      rw [contains_pair_cons, contains_pair_cons, ih2]

theorem contains_pair_append_self (N : GoString) (a b : UInt8) :
    Contains (N ++ [a, b]) [a, b] = true := by
  induction N with
  | nil => simp [Contains, List.isPrefixOf]
  | cons c cs ih => exact contains_cons _ _ _ ih

theorem contains_pair_cons_cons (N : GoString) (a b x y : UInt8) (hx : x ≠ a) (hy : y ≠ a) :
    Contains (x :: y :: N) [a, b] = Contains N [a, b] := by
  have hx2 : (a == x) = false := by simpa using Ne.symm hx
  have hy2 : (a == y) = false := by simpa using Ne.symm hy
  cases N with
  | nil => rw [contains_pair_cons, contains_pair_single, contains_pair_nil, hx2]; rfl
  | cons c cs => rw [contains_pair_cons, contains_pair_cons, hx2, hy2]; simp

theorem append_pair_ne (N c : GoString) (x y : UInt8) (h : c.getLast? ≠ some y) :
    N ++ [x, y] ≠ c := by
  intro e
  apply h
  rw [← e]
  simp

theorem primOf_eq_self (t : GoString) (h1 : t ≠ bytes "String[]") (h2 : t ≠ bytes "String")
    (h3 : t ≠ bytes "String<>") (h4 : t ≠ bytes "float") (h5 : t ≠ bytes "double")
    (h6 : t ≠ bytes "boolean") : primOf t = t := by
  unfold primOf
  simp only [h1, h2, h3, h4, h5, h6, if_false, or_self]

theorem normType_collection (N : GoString) (hne : N ≠ []) (hS : N ≠ bytes "String")
    (ho : Contains N (bytes "<>") = false) (hnl : (0x0A : UInt8) ∉ N) :
    normType (N ++ bytes "[]") = bytes "[]" ++ N := by
  have hp : primOf (N ++ bytes "[]") = N ++ bytes "[]" := by
    apply primOf_eq_self
    · intro e
      exact hS (List.append_cancel_right (e.trans (by decide : bytes "String[]" = bytes "String" ++ bytes "[]")))
    all_goals
      rw [bytes_brackets]
      exact append_pair_ne _ _ _ _ (by decide)
  have hs : symbol (bytes "[]" ++ N) = false := by
    rw [symbol, bytes_brackets, bytes_angles]
    show Contains (0x5B :: 0x5D :: N) [0x3C, 0x3E] = false
    rw [contains_pair_cons_cons _ _ _ _ _ (by decide) (by decide), ← bytes_angles]
    exact ho
  unfold normType
  rw [hp]
  unfold collOf
  rw [re_append_brackets N hne hnl]
  simp only [optOf, hs]
  rfl

theorem normType_optional (N : GoString) (hS : N ≠ bytes "String")
    (hb : Contains N (bytes "[]") = false) :
    normType (N ++ bytes "<>") = N := by
  have hp : primOf (N ++ bytes "<>") = N ++ bytes "<>" := by
    apply primOf_eq_self
    case h3 =>
      intro e
      exact hS (List.append_cancel_right (e.trans (by decide : bytes "String<>" = bytes "String" ++ bytes "<>")))
    all_goals
      rw [bytes_angles]
      exact append_pair_ne _ _ _ _ (by decide)
  have hc : Contains (N ++ bytes "<>") (bytes "[]") = false := by
    rw [bytes_angles, bytes_brackets, contains_append_pair _ _ _ _ _ (by decide) (by decide),
      ← bytes_brackets]
    exact hb
  have hs : symbol (N ++ bytes "<>") = true := by
    rw [symbol, bytes_angles]
    exact contains_pair_append_self _ _ _
  unfold normType
  rw [hp]
  unfold collOf
  rw [re_eq_none _ hc]
  simp only [optOf, hs, if_true]
  rw [bytes_angles]
  simp

theorem normType_bare (N : GoString) (hprim : N ∉ primitiveNames)
    (hb : Contains N (bytes "[]") = false) (ho : Contains N (bytes "<>") = false) :
    normType N = N := by
  have hp : primOf N = N := by
    apply primOf_eq_self
    · intro e; rw [e] at hb; revert hb; decide
    · intro e; exact hprim (by simp [primitiveNames, e])
    · intro e; rw [e] at ho; revert ho; decide
    · intro e; exact hprim (by simp [primitiveNames, e])
    · intro e; exact hprim (by simp [primitiveNames, e])
    · intro e; exact hprim (by simp [primitiveNames, e])
  unfold normType
  rw [hp]
  unfold collOf
  rw [re_eq_none _ hb]
  simp only [optOf, symbol, ho]
  rfl

/-- C4 (counterexample): the name `a`, newline, `b` is non-empty, is not a primitive
spelling and contains neither `[]` nor `<>`, yet with the collection marker it becomes
`[]b`, not `[]` followed by the name. -/
theorem formatTypes_collection_newline :
    bytes "a\nb" ≠ [] ∧ bytes "a\nb" ∉ primitiveNames ∧
    Contains (bytes "a\nb") (bytes "[]") = false ∧
    Contains (bytes "a\nb") (bytes "<>") = false ∧
    (typeAndDefault "a\nb[]").map Prod.fst = some (.str (bytes "[]b")) ∧
    bytes "[]b" ≠ bytes "[]" ++ bytes "a\nb" := by
  decide

/-- C4 (amended): for every non-empty bare type name `N` that is not a primitive spelling
and contains neither `[]` nor `<>` nor a newline, `formatTypes` maps a property (a map
with a doc text) of raw type `N[]` to the type `[]N`, and maps one of raw type `N<>` to
exactly the type it produces for the bare `N`, namely `N` itself. -/
theorem formatTypes_reference_markers (N : GoString)
    (hne : N ≠ []) (hprim : N ∉ primitiveNames)
    (hb : Contains N (bytes "[]") = false) (ho : Contains N (bytes "<>") = false)
    (hnl : (0x0A : UInt8) ∉ N)
    (pc po pb : Props) (dc dopt db : GoString)
    (hdc : idx pc (bytes "doc") = .str dc) (hdo : idx po (bytes "doc") = .str dopt)
    (hdb : idx pb (bytes "doc") = .str db)
    (htc : idx pc (bytes "type") = .str (N ++ bytes "[]"))
    (hto : idx po (bytes "type") = .str (N ++ bytes "<>"))
    (htb : idx pb (bytes "type") = .str N) :
    (∃ r, formatTypes pc = some r ∧ idx r (bytes "type") = .str (bytes "[]" ++ N)) ∧
    (∃ r rb, formatTypes po = some r ∧ formatTypes pb = some rb ∧
      idx r (bytes "type") = idx rb (bytes "type") ∧ idx rb (bytes "type") = .str N) := by
  have hS : N ≠ bytes "String" := fun e => hprim (by simp [primitiveNames, e])
  obtain ⟨rc, hrc, htrc, -⟩ := formatTypes_spec pc dc _ hdc htc
  obtain ⟨ro, hro, htro, -⟩ := formatTypes_spec po dopt _ hdo hto
  obtain ⟨rb, hrb, htrb, -⟩ := formatTypes_spec pb db _ hdb htb
  rw [normType_collection N hne hS ho hnl] at htrc
  rw [normType_optional N hS hb] at htro
  rw [normType_bare N hprim hb ho] at htrb
  exact ⟨⟨rc, hrc, htrc⟩, ⟨ro, rb, hro, hrb, htro.trans htrb.symm, htrb⟩⟩

/-- Witness of C4 (amended): the name `Foo`, on the maps with an empty doc and the types
`Foo[]`, `Foo<>` and `Foo`. -/
theorem formatTypes_reference_markers_witness :
    (∃ r, formatTypes (propOf "" "Foo[]") = some r ∧
      idx r (bytes "type") = .str (bytes "[]" ++ bytes "Foo")) ∧
    (∃ r rb, formatTypes (propOf "" "Foo<>") = some r ∧
      formatTypes (propOf "" "Foo") = some rb ∧
      idx r (bytes "type") = idx rb (bytes "type") ∧
      idx rb (bytes "type") = .str (bytes "Foo")) :=
  formatTypes_reference_markers (bytes "Foo") (by decide) (by decide) (by decide)
    (by decide) (by decide) (propOf "" "Foo[]") (propOf "" "Foo<>") (propOf "" "Foo")
    (bytes "") (bytes "") (bytes "") (by decide) (by decide) (by decide) (by decide)
    (by decide) (by decide)

/-! ## `formatDoc`: one comment block per line -/

theorem Split_ne_nil (sep : UInt8) (s : GoString) : Split sep s ≠ [] := by
  induction s with
  | nil => simp [Split]
  | cons c cs ih =>
    rw [Split]
    split_ifs
    · simp
    · cases h : Split sep cs with
      | nil => exact absurd h ih
      | cons l ls => simp

theorem Split_of_not_mem (sep : UInt8) (l : GoString) (h : sep ∉ l) : Split sep l = [l] := by
  induction l with
  | nil => rfl
  | cons c cs ih =>
    have hc : c ≠ sep := fun e => h (by simp [e])
    have hcs : sep ∉ cs := fun e => h (List.mem_cons_of_mem _ e)
    rw [Split, if_neg hc, ih hcs]

theorem Split_append_sep (sep : UInt8) (l rest : GoString) (h : sep ∉ l) :
    Split sep (l ++ sep :: rest) = l :: Split sep rest := by
  induction l with
  | nil =>
    show Split sep (sep :: rest) = [] :: Split sep rest
    rw [Split, if_pos rfl]
  | cons c cs ih =>
    have hc : c ≠ sep := fun e => h (by simp [e])
    have hcs : sep ∉ cs := fun e => h (List.mem_cons_of_mem _ e)
    show Split sep (c :: (cs ++ sep :: rest)) = (c :: cs) :: Split sep rest
    rw [Split, if_neg hc, ih hcs]

/-- Splitting at the separator undoes joining with it, for pieces free of it. -/
theorem Split_Join (sep : UInt8) (parts : List GoString) (hne : parts ≠ [])
    (h : ∀ l ∈ parts, sep ∉ l) : Split sep (Join parts [sep]) = parts := by
  induction parts with
  | nil => exact absurd rfl hne
  | cons a rest ih =>
    cases rest with
    | nil => exact Split_of_not_mem sep a (h a (by simp))
    | cons b rest2 =>
      have ih2 := ih (by simp) (fun l hl => h l (List.mem_cons_of_mem _ hl))
      show Split sep (a ++ [sep] ++ Join (b :: rest2) [sep]) = a :: b :: rest2
      rw [List.append_assoc, List.singleton_append, Split_append_sep sep a _ (h a (by simp)), ih2]

theorem Split_head (sep : UInt8) (s : GoString) :
    ∃ l ls, Split sep s = l :: ls ∧ l <+: s := by
  induction s with
  | nil => exact ⟨[], [], rfl, List.prefix_refl _⟩
  | cons c cs ih =>
    obtain ⟨l, ls, hs, hp⟩ := ih
    rw [Split]
    split_ifs with hc
    · exact ⟨[], _, rfl, List.nil_prefix⟩
    · rw [hs]
      exact ⟨c :: l, ls, rfl, by simpa [ List.cons_prefix_cons] using hp⟩

/-- Every piece of a split is a contiguous part of the string and is free of the
separator. -/
theorem Split_mem (sep : UInt8) (s : GoString) :
    ∀ l ∈ Split sep s, l <:+: s ∧ sep ∉ l := by
  induction s with
  | nil =>
    intro l hl
    simp only [Split, List.mem_singleton] at hl
    subst hl
    exact ⟨ List.infix_refl _, by simp⟩
  | cons c cs ih =>
    intro l hl
    obtain ⟨l0, ls, hs, hp⟩ := Split_head sep cs
    rw [Split] at hl
    split_ifs at hl with hc
    · rcases List.mem_cons.mp hl with rfl | hm
      · exact ⟨⟨[], c :: cs, by simp⟩, by simp⟩
      · exact ⟨(ih l hm).1.trans (List.suffix_cons c cs).isInfix, (ih l hm).2⟩
    · rw [hs] at hl
      simp only at hl
      rcases List.mem_cons.mp hl with rfl | hm
      · have hn := (ih l0 (by rw [hs]; simp)).2
        refine ⟨?_, ?_⟩
        · have hp2 : c :: l0 <+: c :: cs := by simpa [ List.cons_prefix_cons] using hp
          exact hp2.isInfix
        · intro hm
          rcases List.mem_cons.mp hm with e | e
          · exact hc e.symm
          · exact hn e
      · have := ih l (by rw [hs]; exact List.mem_cons_of_mem _ hm)
        exact ⟨this.1.trans (List.suffix_cons c cs).isInfix, this.2⟩

/-! ### `TrimSpace` returns a contiguous part of its argument -/

theorem trimScan_suffix (rs : List GoString) (k : Nat) (s : GoString) :
    trimScan rs k s <:+ s := by
  induction s generalizing k with
  | nil => cases k <;> exact List.suffix_refl _
  | cons c cs ih =>
    cases k with
    | zero =>
      rw [trimScan]
      split
      · exact List.suffix_refl _
      · exact (ih _).trans (List.suffix_cons c cs)
    | succ k =>
      rw [trimScan]
      exact (ih k).trans (List.suffix_cons c cs)

theorem TrimSpace_contiguous (s : GoString) : TrimSpace s <:+: s := by
  unfold TrimSpace
  have h1 : trimScan spaceRunes 0 s <:+ s := trimScan_suffix _ _ _
  have h2 := trimScan_suffix (spaceRunes.map List.reverse) 0 (trimScan spaceRunes 0 s).reverse
  have h3 : (trimScan (spaceRunes.map List.reverse) 0 (trimScan spaceRunes 0 s).reverse).reverse
      <+: trimScan spaceRunes 0 s := by
    rw [← List.reverse_suffix, List.reverse_reverse]
    exact h2
  exact h3.isInfix.trans h1.isInfix

theorem wrapLine_no_newline (l : GoString) (h : (0x0A : UInt8) ∉ l) :
    (0x0A : UInt8) ∉ wrapLine l := by
  unfold wrapLine
  intro hm
  rcases List.mem_append.mp hm with hm | hm
  · rcases List.mem_append.mp hm with hm | hm
    · revert hm; decide
    · exact h ((TrimSpace_contiguous l).subset hm)
  · revert hm; decide

/-- C6 (counterexample): the empty doc gives the comment block `/**/`, not the empty
output, and the empty middle line of `a`, newline, newline, `b` gives a block of its
own. -/
theorem formatDoc_empty_line_block :
    formatDoc (bytes "") = bytes "/**/" ∧ formatDoc (bytes "") ≠ bytes "" ∧
    formatDoc (bytes "a\n\nb") = bytes "/*a*/\n/**/\n/*b*/" := by
  decide

/-- C6 (amended): for every documentation string, `formatDoc` splits the token-stripped
text on newlines and emits exactly one `/*...*/` block per line, empty lines included
(an empty line gives `/**/`): the lines of the output are, in order, the lines of the
stripped text, each with surrounding white space trimmed and wrapped in `/*` and `*/`;
the output is these blocks joined by newlines. -/
theorem formatDoc_lines (doc : GoString) :
    Split 0x0A (formatDoc doc) =
      (Split 0x0A (stripTokens doc)).map (fun l => bytes "/*" ++ TrimSpace l ++ bytes "*/") ∧
    formatDoc doc =
      Join ((Split 0x0A (stripTokens doc)).map
        (fun l => bytes "/*" ++ TrimSpace l ++ bytes "*/")) (bytes "\n") := by
  refine ⟨?_, rfl⟩
  have hnl : bytes "\n" = [0x0A] := by decide
  show Split 0x0A (Join ((Split 0x0A (stripTokens doc)).map wrapLine) (bytes "\n")) = _
  rw [hnl]
  apply Split_Join
  · simpa using Split_ne_nil 0x0A (stripTokens doc)
  · intro l hl
    obtain ⟨l0, hl0, rfl⟩ := List.mem_map.mp hl
    exact wrapLine_no_newline l0 (Split_mem 0x0A _ l0 hl0).2

/-! ## `formatDoc`: tokens and double backticks -/

theorem bytes_romcls :
    bytes ":rom:cls:" = [0x3A, 0x72, 0x6F, 0x6D, 0x3A, 0x63, 0x6C, 0x73, 0x3A] := by decide

theorem bytes_term : bytes ":term:" = [0x3A, 0x74, 0x65, 0x72, 0x6D, 0x3A] := by decide

theorem bytes_ticks : bytes "``" = [0x60, 0x60] := by decide

theorem bytes_quote : bytes "\"" = [0x22] := by decide

theorem bytes_open : bytes "/*" = [0x2F, 0x2A] := by decide

theorem bytes_close : bytes "*/" = [0x2A, 0x2F] := by decide

/-! ### The replacement scan -/

theorem replaceScan_skip (old new A X : GoString) :
    replaceScan old new A.length (A ++ X) = replaceScan old new 0 X := by
  induction A with
  | nil => rfl
  | cons a A ih =>
    show replaceScan old new (A.length + 1) (a :: (A ++ X)) = _
    rw [replaceScan, ih]

theorem replaceScan_match (o : UInt8) (os new X : GoString) :
    replaceScan (o :: os) new 0 ((o :: os) ++ X) = new ++ replaceScan (o :: os) new 0 X := by
  have hp : (o :: os).isPrefixOf (o :: (os ++ X)) = true := by
    rw [ List.isPrefixOf_iff_prefix]
    exact ⟨X, rfl⟩
  show replaceScan (o :: os) new 0 (o :: (os ++ X)) = _
  rw [replaceScan, if_pos hp]
  have hl : (o :: os).length - 1 = os.length := by simp
  rw [hl, replaceScan_skip]

theorem replaceScan_copy (old new : GoString) (c : UInt8) (X : GoString)
    (h : old.isPrefixOf (c :: X) = false) :
    replaceScan old new 0 (c :: X) = c :: replaceScan old new 0 X := by
  rw [replaceScan, if_neg (by simp [h])]

theorem replaceScan_mem (old new : GoString) (b : UInt8) :
    ∀ (s : GoString) (k : Nat), b ∈ replaceScan old new k s → b ∈ s ∨ b ∈ new := by
  intro s
  induction s with
  | nil => intro k h; cases k <;> simp [replaceScan] at h
  | cons c cs ih =>
    intro k h
    cases k with
    | succ k =>
      rw [replaceScan] at h
      rcases ih k h with h | h
      · exact Or.inl (List.mem_cons_of_mem _ h)
      · exact Or.inr h
    | zero =>
      rw [replaceScan] at h
      split_ifs at h
      · rcases List.mem_append.mp h with h | h
        · exact Or.inr h
        · rcases ih _ h with h | h
          · exact Or.inl (List.mem_cons_of_mem _ h)
          · exact Or.inr h
      · rcases List.mem_cons.mp h with h | h
        · exact Or.inl (by simp [h])
        · rcases ih _ h with h | h
          · exact Or.inl (List.mem_cons_of_mem _ h)
          · exact Or.inr h

theorem mem_of_isPrefixOf (old s : GoString) (b : UInt8) (hb : b ∈ old)
    (h : old.isPrefixOf s = true) : b ∈ s := by
  rw [ List.isPrefixOf_iff_prefix] at h
  exact h.subset hb

/-- A pattern holding a byte that the string lacks is never found: the scan copies the
string. -/
theorem replaceScan_id (old new s : GoString) (b : UInt8) (hb : b ∈ old) (hs : b ∉ s) :
    replaceScan old new 0 s = s := by
  induction s with
  | nil => rfl
  | cons c cs ih =>
    have hp : old.isPrefixOf (c :: cs) = false := by
      cases h : old.isPrefixOf (c :: cs) with
      | false => rfl
      | true => exact absurd (mem_of_isPrefixOf _ _ _ hb h) hs
    rw [replaceScan_copy _ _ _ _ hp, ih (fun h => hs (List.mem_cons_of_mem _ h))]

theorem Replace_eq_scan (s old new : GoString) (h : old ≠ []) :
    Replace s old new = replaceScan old new 0 s := by
  rw [Replace, if_neg h]

/-! ### Removing the tokens from a string built of whole tokens -/

theorem docOf_cons (p : DocPiece) (ps : List DocPiece) :
    docOf (p :: ps) = p.text ++ docOf ps := by
  simp [docOf]

theorem clean_tail (p : DocPiece) (ps : List DocPiece)
    (h : (p :: ps).all DocPiece.clean = true) : ps.all DocPiece.clean = true := by
  simp only [List.all_cons, Bool.and_eq_true] at h
  exact h.2

/-- A clean string that starts with a byte other than the colon starts with a plain
piece. -/
theorem docOf_head_plain (ps : List DocPiece) (c : UInt8) (Y : GoString) (hc : c ≠ 0x3A)
    (h : docOf ps = c :: Y) : ∃ ps2, ps = .plain c :: ps2 ∧ Y = docOf ps2 := by
  cases ps with
  | nil => simp [docOf] at h
  | cons p ps2 =>
    rw [docOf_cons] at h
    cases p with
    | plain c2 =>
      simp only [DocPiece.text, List.singleton_append, List.cons.injEq] at h
      exact ⟨ps2, by rw [h.1], h.2.symm⟩
    | romCls =>
      rw [DocPiece.text, bytes_romcls] at h
      simp only [List.cons_append, List.cons.injEq] at h
      exact absurd h.1.symm hc
    | term =>
      rw [DocPiece.text, bytes_term] at h
      simp only [List.cons_append, List.cons.injEq] at h
      exact absurd h.1.symm hc

/-- In a clean string a colon is followed by `r` or by `t`. -/
theorem docOf_after_colon (ps : List DocPiece) (Y : GoString)
    (hcl : ps.all DocPiece.clean = true) (h : docOf ps = 0x3A :: Y) :
    Y.head? = some 0x72 ∨ Y.head? = some 0x74 := by
  cases ps with
  | nil => simp [docOf] at h
  | cons p ps2 =>
    rw [docOf_cons] at h
    cases p with
    | plain c2 =>
      simp only [DocPiece.text, List.singleton_append, List.cons.injEq] at h
      simp only [List.all_cons, DocPiece.clean, Bool.and_eq_true, bne_iff_ne] at hcl
      exact absurd h.1 hcl.1.1
    | romCls =>
      rw [DocPiece.text, bytes_romcls] at h
      simp only [List.cons_append, List.cons.injEq, true_and] at h
      rw [← h]
      exact Or.inl rfl
    | term =>
      rw [DocPiece.text, bytes_term] at h
      simp only [List.cons_append, List.cons.injEq, true_and] at h
      rw [← h]
      exact Or.inr rfl

/-- A clean string does not start with `rom:c`, so the last colon of `:term:` never
starts a `:rom:cls:`. -/
theorem docOf_not_rom (ps : List DocPiece) (hcl : ps.all DocPiece.clean = true) :
    List.isPrefixOf [(0x72 : UInt8), 0x6F, 0x6D, 0x3A, 0x63, 0x6C, 0x73, 0x3A] (docOf ps)
      = false := by
  cases h : List.isPrefixOf [(0x72 : UInt8), 0x6F, 0x6D, 0x3A, 0x63, 0x6C, 0x73, 0x3A]
      (docOf ps) with
  | false => rfl
  | true =>
    exfalso
    rw [ List.isPrefixOf_iff_prefix] at h
    obtain ⟨Z, hZ⟩ := h
    simp only [List.cons_append, List.nil_append] at hZ
    obtain ⟨ps1, e1, h1⟩ := docOf_head_plain ps _ _ (by decide) hZ.symm
    obtain ⟨ps2, e2, h2⟩ := docOf_head_plain ps1 _ _ (by decide) h1.symm
    obtain ⟨ps3, e3, h3⟩ := docOf_head_plain ps2 _ _ (by decide) h2.symm
    subst e1 e2 e3
    have hcl3 := clean_tail _ _ (clean_tail _ _ (clean_tail _ _ hcl))
    rcases docOf_after_colon ps3 _ hcl3 h3.symm with h | h
    · revert h; simp
    · revert h; simp

theorem isPrefixOf_cons_ne (a c : UInt8) (as X : GoString) (h : a ≠ c) :
    (a :: as).isPrefixOf (c :: X) = false := by
  simp [List.isPrefixOf, h]

theorem clean_plain (c : UInt8) (ps : List DocPiece)
    (h : (DocPiece.plain c :: ps).all DocPiece.clean = true) : c ≠ 0x3A ∧ c ≠ 0x2A := by
  simp only [List.all_cons, DocPiece.clean, Bool.and_eq_true, bne_iff_ne] at h
  exact h.1

/-- The first replacement removes exactly the `:rom:cls:` pieces. -/
theorem strip_rom (ps : List DocPiece) (hcl : ps.all DocPiece.clean = true) :
    replaceScan (bytes ":rom:cls:") [] 0 (docOf ps) = docOf (dropRom ps) := by
  induction ps with
  | nil => rfl
  | cons p ps ih =>
    have ih2 := ih (clean_tail _ _ hcl)
    rw [docOf_cons]
    cases p with
    | plain c =>
      have hc := (clean_plain c ps hcl).1
      show replaceScan _ [] 0 (c :: docOf ps) = docOf (.plain c :: dropRom ps)
      rw [replaceScan_copy _ _ _ _ (by rw [bytes_romcls]; exact isPrefixOf_cons_ne _ _ _ _ (Ne.symm hc)),
        ih2, docOf_cons]
      rfl
    | romCls =>
      show replaceScan _ [] 0 (bytes ":rom:cls:" ++ docOf ps) = docOf (dropRom ps)
      rw [← ih2, bytes_romcls, replaceScan_match]
      rfl
    | term =>
      have hX := docOf_not_rom ps (clean_tail _ _ hcl)
      show replaceScan _ [] 0 (bytes ":term:" ++ docOf ps) = docOf (.term :: dropRom ps)
      rw [docOf_cons, ← ih2, bytes_romcls]
      show replaceScan _ [] 0 (bytes ":term:" ++ docOf ps) = bytes ":term:" ++ _
      rw [bytes_term]
      simp only [List.cons_append, List.nil_append]
      rw [replaceScan_copy _ _ _ _ (by simp [List.isPrefixOf]),
        replaceScan_copy _ _ _ _ (by simp [List.isPrefixOf]),
        replaceScan_copy _ _ _ _ (by simp [List.isPrefixOf]),
        replaceScan_copy _ _ _ _ (by simp [List.isPrefixOf]),
        replaceScan_copy _ _ _ _ (by simp [List.isPrefixOf]),
        replaceScan_copy _ _ _ _ (by simpa [List.isPrefixOf] using hX)]

/-- The second replacement then removes the `:term:` pieces: the plain bytes stay. -/
theorem strip_term (ps : List DocPiece) (hcl : ps.all DocPiece.clean = true) :
    replaceScan (bytes ":term:") [] 0 (docOf (dropRom ps)) = plainBytes ps := by
  induction ps with
  | nil => rfl
  | cons p ps ih =>
    have ih2 := ih (clean_tail _ _ hcl)
    cases p with
    | plain c =>
      have hc := (clean_plain c ps hcl).1
      show replaceScan _ [] 0 (docOf (.plain c :: dropRom ps)) = c :: plainBytes ps
      rw [docOf_cons]
      show replaceScan _ [] 0 (c :: docOf (dropRom ps)) = c :: plainBytes ps
      rw [replaceScan_copy _ _ _ _ (by rw [bytes_term]; exact isPrefixOf_cons_ne _ _ _ _ (Ne.symm hc)),
        ih2]
    | romCls => exact ih2
    | term =>
      show replaceScan _ [] 0 (docOf (.term :: dropRom ps)) = plainBytes ps
      rw [docOf_cons, ← ih2]
      show replaceScan _ [] 0 (bytes ":term:" ++ _) = _
      rw [bytes_term, replaceScan_match]
      rfl

theorem plainBytes_clean (ps : List DocPiece) (hcl : ps.all DocPiece.clean = true) :
    ∀ b ∈ plainBytes ps, b ≠ 0x3A ∧ b ≠ 0x2A := by
  induction ps with
  | nil => intro b hb; simp [plainBytes] at hb
  | cons p ps ih =>
    have ih2 := ih (clean_tail _ _ hcl)
    cases p with
    | plain c =>
      intro b hb
      rcases List.mem_cons.mp hb with rfl | hb
      · exact clean_plain _ ps hcl
      · exact ih2 b hb
    | romCls => exact ih2
    | term => exact ih2

/-! ### Double backticks -/

theorem ticks_step (s : GoString) :
    (NoTickPair (replaceScan [0x60, 0x60] [0x22] 0 s) ∧
      ((replaceScan [0x60, 0x60] [0x22] 0 s).head? = some 0x60 → s.head? = some 0x60)) ∧
    ∀ c, (NoTickPair (replaceScan [0x60, 0x60] [0x22] 0 (c :: s)) ∧
      ((replaceScan [0x60, 0x60] [0x22] 0 (c :: s)).head? = some 0x60 →
        (c :: s).head? = some 0x60)) := by
  induction s with
  | nil =>
    refine ⟨⟨List.chain'_nil, fun h => by simp [replaceScan] at h⟩, fun c => ?_⟩
    rw [replaceScan_copy _ _ _ _ (by simp [List.isPrefixOf])]
    exact ⟨List.chain'_singleton _, fun h => h⟩
  | cons c2 cs ih =>
    refine ⟨ih.2 c2, fun c => ?_⟩
    by_cases h : c = 0x60 ∧ c2 = 0x60
    · obtain ⟨rfl, rfl⟩ := h
      have e : replaceScan [0x60, 0x60] [0x22] 0 ((0x60 : UInt8) :: 0x60 :: cs)
          = 0x22 :: replaceScan [0x60, 0x60] [0x22] 0 cs :=
        replaceScan_match 0x60 [0x60] [0x22] cs
      rw [e]
      refine ⟨?_, fun h => by simp at h⟩
      unfold NoTickPair
      rw [List.chain'_cons']
      exact ⟨fun y _ hxy => absurd hxy.1 (by decide), ih.1.1⟩
    · have hp : List.isPrefixOf [(0x60 : UInt8), 0x60] (c :: c2 :: cs) = false := by
        cases hpp : List.isPrefixOf [(0x60 : UInt8), 0x60] (c :: c2 :: cs) with
        | false => rfl
        | true =>
          exfalso
          rw [ List.isPrefixOf_iff_prefix] at hpp
          obtain ⟨Z, hZ⟩ := hpp
          simp only [List.cons_append, List.nil_append, List.cons.injEq] at hZ
          exact h ⟨hZ.1.symm, hZ.2.1.symm⟩
      rw [replaceScan_copy _ _ _ _ hp]
      refine ⟨?_, fun h => by simpa using h⟩
      unfold NoTickPair
      rw [List.chain'_cons']
      refine ⟨fun y hy hxy => ?_, (ih.2 c2).1⟩
      have hy2 : (replaceScan [0x60, 0x60] [0x22] 0 (c2 :: cs)).head? = some 0x60 := by
        rw [hxy.2] at hy; exact Option.mem_def.mp hy
      have := (ih.2 c2).2 hy2
      simp only [List.head?_cons, Option.some.injEq] at this
      exact h ⟨hxy.1, this⟩

/-- After the third replacement no double backtick is left. -/
theorem ticks_replaced (s : GoString) :
    NoTickPair (replaceScan (bytes "``") (bytes "\"") 0 s) := by
  rw [bytes_ticks, bytes_quote]
  exact (ticks_step s).1.1

/-! ### The output of `formatDoc` -/

theorem stripTokens_docOf (ps : List DocPiece) (hcl : ps.all DocPiece.clean = true) :
    stripTokens (docOf ps) = replaceScan (bytes "``") (bytes "\"") 0 (plainBytes ps) := by
  have hstar : (0x2A : UInt8) ∉ replaceScan (bytes "``") (bytes "\"") 0 (plainBytes ps) := by
    intro h
    rcases replaceScan_mem _ _ _ _ _ h with h | h
    · exact (plainBytes_clean ps hcl _ h).2 rfl
    · revert h; decide
  unfold stripTokens
  simp only []
  rw [Replace_eq_scan _ (bytes ":rom:cls:") _ (by decide), strip_rom ps hcl,
    Replace_eq_scan _ (bytes ":term:") _ (by decide), strip_term ps hcl,
    Replace_eq_scan _ (bytes "``") _ (by decide),
    Replace_eq_scan _ (bytes "/*") _ (by decide),
    replaceScan_id (bytes "/*") [] _ 0x2A (by decide) hstar,
    Replace_eq_scan _ (bytes "*/") _ (by decide),
    replaceScan_id (bytes "*/") [] _ 0x2A (by decide) hstar]

theorem mem_Join (sep : GoString) (b : UInt8) (parts : List GoString)
    (h : b ∈ Join parts sep) : b ∈ sep ∨ ∃ l ∈ parts, b ∈ l := by
  induction parts with
  | nil => simp [Join] at h
  | cons a rest ih =>
    cases rest with
    | nil => exact Or.inr ⟨a, by simp, by simpa [Join] using h⟩
    | cons a2 rest2 =>
      rw [Join] at h
      rcases List.mem_append.mp h with h | h
      · rcases List.mem_append.mp h with h | h
        · exact Or.inr ⟨a, by simp, h⟩
        · exact Or.inl h
      · rcases ih h with h | ⟨l, hl, hb⟩
        · exact Or.inl h
        · exact Or.inr ⟨l, List.mem_cons_of_mem _ hl, hb⟩

/-- Every byte of the output of `formatDoc` is a byte of the stripped text, or one of
`/`, `*` and newline. -/
theorem mem_formatDoc (doc : GoString) (b : UInt8) (h : b ∈ formatDoc doc) :
    b ∈ stripTokens doc ∨ b = 0x2F ∨ b = 0x2A ∨ b = 0x0A := by
  unfold formatDoc at h
  rcases mem_Join _ _ _ h with h | ⟨w, hw, hb⟩
  · have : b = 0x0A := by
      have hnl : bytes "\n" = [0x0A] := by decide
      rw [hnl] at h
      simpa using h
    exact Or.inr (Or.inr (Or.inr this))
  · obtain ⟨l, hl, rfl⟩ := List.mem_map.mp hw
    unfold wrapLine at hb
    rw [bytes_open, bytes_close] at hb
    simp only [List.mem_append, List.mem_cons, List.mem_singleton, List.not_mem_nil,
      or_false] at hb
    rcases hb with (hb | hb) | hb
    · rcases hb with hb | hb
      · exact Or.inr (Or.inl hb)
      · exact Or.inr (Or.inr (Or.inl hb))
    · exact Or.inl ((Split_mem 0x0A _ l hl).1.subset ((TrimSpace_contiguous l).subset hb))
    · rcases hb with hb | hb
      · exact Or.inr (Or.inr (Or.inl hb))
      · exact Or.inr (Or.inl hb)

theorem noTickPair_append (A B : GoString) (hA : NoTickPair A) (hB : NoTickPair B)
    (h : (0x60 : UInt8) ∉ A ∨ (0x60 : UInt8) ∉ B) : NoTickPair (A ++ B) := by
  unfold NoTickPair at *
  rw [List.chain'_append]
  refine ⟨hA, hB, fun x hx y hy hxy => ?_⟩
  rcases h with h | h
  · exact h (hxy.1 ▸ List.mem_of_mem_getLast? hx)
  · exact h (hxy.2 ▸ List.mem_of_mem_head? hy)

theorem noTickPair_wrapLine (l : GoString) (h : NoTickPair l) : NoTickPair (wrapLine l) := by
  unfold wrapLine
  have ht : NoTickPair (TrimSpace l) := List.Chain'.infix h (TrimSpace_contiguous l)
  have ho : NoTickPair (bytes "/*") := by
    unfold NoTickPair
    rw [bytes_open, List.chain'_cons]
    exact ⟨by decide, List.chain'_singleton _⟩
  have hc : NoTickPair (bytes "*/") := by
    unfold NoTickPair
    rw [bytes_close, List.chain'_cons]
    exact ⟨by decide, List.chain'_singleton _⟩
  exact noTickPair_append _ _ (noTickPair_append _ _ ho ht (Or.inl (by decide))) hc
    (Or.inr (by decide))

theorem noTickPair_Join (parts : List GoString) (h : ∀ l ∈ parts, NoTickPair l) :
    NoTickPair (Join parts [0x0A]) := by
  induction parts with
  | nil => exact List.chain'_nil
  | cons a rest ih =>
    cases rest with
    | nil => exact h a (by simp)
    | cons a2 rest2 =>
      have ih2 := ih (fun l hl => h l (List.mem_cons_of_mem _ hl))
      rw [Join, List.append_assoc]
      have hs : NoTickPair ([0x0A] ++ Join (a2 :: rest2) [0x0A]) :=
        noTickPair_append _ _ (List.chain'_singleton _) ih2 (Or.inl (by decide))
      unfold NoTickPair at *
      rw [List.chain'_append]
      refine ⟨h a (by simp), hs, fun x _ y hy hxy => ?_⟩
      simp only [List.singleton_append, List.head?_cons, Option.mem_def,
        Option.some.injEq] at hy
      rw [← hy] at hxy
      exact absurd hxy.2 (by decide)

theorem noTickPair_formatDoc (doc : GoString) (h : NoTickPair (stripTokens doc)) :
    NoTickPair (formatDoc doc) := by
  unfold formatDoc
  have hnl : bytes "\n" = [0x0A] := by decide
  simp only [hnl]
  apply noTickPair_Join
  intro w hw
  obtain ⟨l, hl, rfl⟩ := List.mem_map.mp hw
  exact noTickPair_wrapLine l ( List.Chain'.infix h (Split_mem 0x0A _ l hl).1)

theorem mem_of_contains (sub : GoString) (b : UInt8) (hb : b ∈ sub) (s : GoString)
    (h : Contains s sub = true) : b ∈ s := by
  induction s with
  | nil =>
    rw [Contains] at h
    exact mem_of_isPrefixOf _ _ _ hb h
  | cons c cs ih =>
    rw [Contains, Bool.or_eq_true] at h
    rcases h with h | h
    · exact mem_of_isPrefixOf _ _ _ hb h
    · exact List.mem_cons_of_mem _ (ih h)

theorem not_contains_ticks (s : GoString) (h : NoTickPair s) :
    Contains s [0x60, 0x60] = false := by
  induction s with
  | nil => exact contains_pair_nil _ _
  | cons c cs ih =>
    cases cs with
    | nil => exact contains_pair_single _ _ _
    | cons c2 cs2 =>
      unfold NoTickPair at h
      rw [List.chain'_cons] at h
      rw [contains_pair_cons, ih h.2]
      have : ((0x60 : UInt8) == c && (0x60 : UInt8) == c2) = false := by
        rw [Bool.and_eq_false_iff]
        by_cases hc : c = 0x60
        · right
          have : c2 ≠ 0x60 := fun e => h.1 ⟨hc, e⟩
          simpa using Ne.symm this
        · left
          simpa using Ne.symm hc
      rw [this]
      rfl

/-- C7 (the code at the failing input): the doc `:te:term:rm:` gives `/*:term:*/`: the
one pass that removes `:term:` leaves the bytes before and after the removed token next
to each other, and the token they spell stays in the output.  Likewise `:rom::term:cls:`
gives `/*:rom:cls:*/`, the token that the later removal of `:term:` leaves, and a
backtick, `/*`, a backtick give a double backtick, left by the removal of `/*`.  A doc
that holds the tokens and the double backticks once, as in `a :rom:cls:` + backtick +
`Foo` + backtick + ` :term:` + two backticks + `b` + two backticks, loses them. -/
theorem formatDoc_token_left :
    formatDoc (bytes ":te:term:rm:") = bytes "/*:term:*/" ∧
    Contains (formatDoc (bytes ":te:term:rm:")) (bytes ":term:") = true ∧
    formatDoc (bytes ":rom::term:cls:") = bytes "/*:rom:cls:*/" ∧
    Contains (formatDoc (bytes ":rom::term:cls:")) (bytes ":rom:cls:") = true ∧
    formatDoc (bytes "`/*`") = bytes "/*``*/" ∧
    Contains (formatDoc (bytes "`/*`")) (bytes "``") = true ∧
    formatDoc (bytes "a :rom:cls:`Foo` :term:``b``") = bytes "/*a `Foo` \"b\"*/" := by
  decide

/-- Without an asterisk in the doc the two comment delimiters are not found, and the
stripped text is what the third replacement leaves: it has no double backtick. -/
theorem stripTokens_no_star (doc : GoString) (h : (0x2A : UInt8) ∉ doc) :
    NoTickPair (stripTokens doc) := by
  have h1 : (0x2A : UInt8) ∉ replaceScan (bytes ":rom:cls:") [] 0 doc := by
    intro hm
    rcases replaceScan_mem _ _ _ _ _ hm with hm | hm
    · exact h hm
    · simp at hm
  have h2 : (0x2A : UInt8) ∉
      replaceScan (bytes ":term:") [] 0 (replaceScan (bytes ":rom:cls:") [] 0 doc) := by
    intro hm
    rcases replaceScan_mem _ _ _ _ _ hm with hm | hm
    · exact h1 hm
    · simp at hm
  have h3 : (0x2A : UInt8) ∉ replaceScan (bytes "``") (bytes "\"") 0
      (replaceScan (bytes ":term:") [] 0 (replaceScan (bytes ":rom:cls:") [] 0 doc)) := by
    intro hm
    rcases replaceScan_mem _ _ _ _ _ hm with hm | hm
    · exact h2 hm
    · revert hm; decide
  unfold stripTokens
  simp only []
  rw [Replace_eq_scan _ (bytes ":rom:cls:") _ (by decide),
    Replace_eq_scan _ (bytes ":term:") _ (by decide),
    Replace_eq_scan _ (bytes "``") _ (by decide),
    Replace_eq_scan _ (bytes "/*") _ (by decide),
    replaceScan_id (bytes "/*") [] _ 0x2A (by decide) h3,
    Replace_eq_scan _ (bytes "*/") _ (by decide),
    replaceScan_id (bytes "*/") [] _ 0x2A (by decide) h3]
  exact ticks_replaced _

/-- Where nothing is spliced the replacements do their work: for every documentation
string with no asterisk, the output of `formatDoc` contains no double backtick; and for
every documentation string made of whole `:rom:cls:` and `:term:` tokens and of other
bytes none of which is a colon or an asterisk, the output contains no occurrence of
`:rom:cls:` or `:term:`. -/
theorem formatDoc_tokens_removed :
    (∀ doc : GoString, (0x2A : UInt8) ∉ doc →
      Contains (formatDoc doc) (bytes "``") = false) ∧
    (∀ ps : List DocPiece, ps.all DocPiece.clean = true →
      Contains (formatDoc (docOf ps)) (bytes ":rom:cls:") = false ∧
      Contains (formatDoc (docOf ps)) (bytes ":term:") = false) := by
  refine ⟨fun doc h => ?_, fun ps hcl => ?_⟩
  · rw [bytes_ticks]
    exact not_contains_ticks _ (noTickPair_formatDoc doc (stripTokens_no_star doc h))
  · have hs := stripTokens_docOf ps hcl
    have hcolon : (0x3A : UInt8) ∉ formatDoc (docOf ps) := by
      intro h
      rcases mem_formatDoc _ _ h with h | h | h | h
      · rw [hs] at h
        rcases replaceScan_mem _ _ _ _ _ h with h | h
        · exact (plainBytes_clean ps hcl _ h).1 rfl
        · revert h; decide
      · revert h; decide
      · revert h; decide
      · revert h; decide
    refine ⟨?_, ?_⟩
    · cases h : Contains (formatDoc (docOf ps)) (bytes ":rom:cls:") with
      | false => rfl
      | true => exact absurd (mem_of_contains _ 0x3A (by decide) _ h) hcolon
    · cases h : Contains (formatDoc (docOf ps)) (bytes ":term:") with
      | false => rfl
      | true => exact absurd (mem_of_contains _ 0x3A (by decide) _ h) hcolon

/-- An instance: the doc `a:rom:cls:`, backtick, `:term:`, backtick. -/
theorem formatDoc_tokens_removed_instance :
    Contains (formatDoc (bytes "a:rom:cls:`:term:`")) (bytes "``") = false ∧
    Contains (formatDoc (docOf [.plain 0x61, .romCls, .plain 0x60, .term, .plain 0x60]))
      (bytes ":rom:cls:") = false ∧
    Contains (formatDoc (docOf [.plain 0x61, .romCls, .plain 0x60, .term, .plain 0x60]))
      (bytes ":term:") = false :=
  ⟨formatDoc_tokens_removed.1 (bytes "a:rom:cls:`:term:`") (by decide),
    formatDoc_tokens_removed.2 [.plain 0x61, .romCls, .plain 0x60, .term, .plain 0x60]
      (by decide)⟩

/-! ## The complex-type template -/

set_option maxRecDepth 100000

/-- C8: for every ComplexType with TypeFormat ENUM, name `N`, doc and value list `vs`,
executing `complexTypeTemplate` runs to the end and writes the doc, the scalar wrapper
`type N string`, its `String` method, and a `const` block holding, for each value `v` of
`vs` in declaration order, one constant whose identifier is uppercase(N), `_`,
uppercase(v), whose type is `N` and whose literal is `v` itself between double quotes.
For `Color` with the values RED and GREEN the constants are `COLOR_RED Color = "RED"` and
`COLOR_GREEN Color = "GREEN"`; for the lower-case value `host` the identifier is upper
case and the literal stays `host`. -/
theorem complexTypeTemplate_enum (T : CaseTables) (doc N : GoString) (vs : List GoString)
    (props : List Props) :
    complexTypeTemplate T ⟨bytes "ENUM", doc, vs, N, props⟩ =
      (bytes "\n\n\n" ++ doc ++ bytes "\ntype " ++ N
        ++ bytes " string\n// Implement fmt.Stringer interface\nfunc (t " ++ N
        ++ bytes ") String() string \x7b\n\treturn string(t)\n\x7d\nconst (\n\t"
        ++ vs.flatMap (fun v =>
            bytes "\n\t\t" ++ (ToUpper T N ++ bytes "_" ++ ToUpper T v) ++ bytes " " ++ N
              ++ bytes " = \"" ++ v ++ bytes "\" \n\t")
        ++ bytes "\n)\n\n", true) ∧
    complexTypeTemplate T ⟨bytes "ENUM", bytes "", [bytes "RED", bytes "GREEN"],
        bytes "Color", props⟩ =
      (bytes ("\n\n\n\ntype Color string\n// Implement fmt.Stringer interface\n"
        ++ "func (t Color) String() string \x7b\n\treturn string(t)\n\x7d\nconst (\n\t"
        ++ "\n\t\tCOLOR_RED Color = \"RED\" \n\t"
        ++ "\n\t\tCOLOR_GREEN Color = \"GREEN\" \n\t"
        ++ "\n)\n\n"), true) ∧
    enumConst T (bytes "RTCStatsIceCandidateType") (bytes "host") =
      bytes "\n\t\tRTCSTATSICECANDIDATETYPE_HOST RTCStatsIceCandidateType = \"host\" \n\t" := by
  refine ⟨?_, ?_, ?_⟩
  · unfold complexTypeTemplate
    rw [if_pos rfl]
    simp only [Prod.mk.injEq, and_true]
    have h3 : bytes "\n\n\n" = bytes "\n" ++ bytes "\n" ++ bytes "\n" := by decide
    have h4 : bytes "\n)\n\n" = bytes "\n)\n" ++ bytes "\n" := by decide
    have hf : (fun v => bytes "\n\t\t" ++ (ToUpper T N ++ bytes "_" ++ ToUpper T v) ++ bytes " "
        ++ N ++ bytes " = \"" ++ v ++ bytes "\" \n\t") = enumConst T N := by
      funext v
      simp only [enumConst, List.append_assoc]
    rw [hf, h3, h4]
    simp only [List.append_assoc]
  · rfl
  · rfl

theorem lookup_of_idx_str (p : Props) (k t : GoString) (h : idx p k = .str t) :
    p.lookup k = some (.str t) := by
  unfold idx at h
  cases hl : p.lookup k with
  | none => rw [hl] at h; exact absurd h (by simp)
  | some v => rw [hl] at h; simp only at h; rw [h]

theorem printKey_str (p : Props) (k t : GoString) (h : idx p k = .str t) :
    printKey p k = t := by
  unfold printKey
  rw [lookup_of_idx_str p k t h]

/-- The `range` over properties that all have a string name and a string type runs to
the end and writes one line per property. -/
theorem structFields_spec (T : CaseTables) (ps : List Props)
    (h : ∀ q ∈ ps, (∃ n, idx q (bytes "name") = .str n) ∧ ∃ t, idx q (bytes "type") = .str t) :
    structFields T ps =
      (ps.flatMap (fun q => Title T (strOf (idx q (bytes "name"))) ++ bytes " "
        ++ strOf (idx q (bytes "type")) ++ bytes "\n\t"), true) := by
  induction ps with
  | nil => rfl
  | cons q qs ih =>
    obtain ⟨⟨n, hn⟩, ⟨t, ht⟩⟩ := h q (by simp)
    have ih2 := ih (fun q hq => h q (List.mem_cons_of_mem _ hq))
    rw [structFields, hn]
    simp only [ih2, printKey_str q _ t ht, List.flatMap_cons, hn, ht, strOf, List.append_assoc]

theorem key_name_ne_type : bytes "name" ≠ bytes "type" := by decide
theorem key_name_ne_default : bytes "name" ≠ bytes "defaultValue" := by decide
theorem key_name_ne_doc : bytes "name" ≠ bytes "doc" := by decide

/-- Properties that all carry a doc text and a string type are all normalised; each result
keeps the name and has a string type. -/
theorem formatProps_spec (props : List Props)
    (h : ∀ p ∈ props, (∃ d, idx p (bytes "doc") = .str d) ∧ ∃ t, idx p (bytes "type") = .str t) :
    ∃ ps, formatProps props = some ps ∧
      List.Forall₂ (fun p q => formatTypes p = some q ∧
        idx q (bytes "name") = idx p (bytes "name") ∧
        idx q (bytes "type") = .str (normType (strOf (idx p (bytes "type")))) ∧
        idx q (bytes "defaultValue") =
          normDefault (normType (strOf (idx p (bytes "type")))) (idx p (bytes "defaultValue")))
        props ps := by
  induction props with
  | nil => exact ⟨[], rfl, List.Forall₂.nil⟩
  | cons p rest ih =>
    obtain ⟨⟨d, hd⟩, ⟨t, ht⟩⟩ := h p (by simp)
    obtain ⟨qs, hqs, hall⟩ := ih (fun p hp => h p (List.mem_cons_of_mem _ hp))
    obtain ⟨q, hq, hqt, hqd, -, hframe⟩ := formatTypes_spec p d t hd ht
    refine ⟨q :: qs, ?_, List.Forall₂.cons ⟨hq, ?_, ?_, ?_⟩ hall⟩
    · rw [formatProps, hq]
      simp only [hqs]
    · exact hframe _ key_name_ne_type key_name_ne_default key_name_ne_doc
    · rw [hqt, ht]; rfl
    · rw [hqd, ht]; rfl

theorem formatted_named (props ps : List Props)
    (hall : List.Forall₂ (fun p q => formatTypes p = some q ∧
        idx q (bytes "name") = idx p (bytes "name") ∧
        idx q (bytes "type") = .str (normType (strOf (idx p (bytes "type")))) ∧
        idx q (bytes "defaultValue") =
          normDefault (normType (strOf (idx p (bytes "type")))) (idx p (bytes "defaultValue")))
        props ps)
    (hn : ∀ p ∈ props, ∃ n, idx p (bytes "name") = .str n) :
    ∀ q ∈ ps, (∃ n, idx q (bytes "name") = .str n) ∧ ∃ t, idx q (bytes "type") = .str t := by
  induction hall with
  | nil => intro q hq; simp at hq
  | cons hpq _ ih =>
    intro q hq
    rcases List.mem_cons.mp hq with rfl | hq
    · obtain ⟨n, hn1⟩ := hn _ (List.mem_cons_self _ _)
      exact ⟨⟨n, by rw [hpq.2.1, hn1]⟩, ⟨_, hpq.2.2.1⟩⟩
    · exact ih (fun p hp => hn p (List.mem_cons_of_mem _ hp)) q hq

/-- The text rendered for a complex type that is not an enumeration and whose properties
are well formed. -/
theorem renderComplexType_spec (T : CaseTables) (ct : ComplexType)
    (hfmt : ct.TypeFormat ≠ bytes "ENUM")
    (hwf : ∀ p ∈ ct.Properties, (∃ n, idx p (bytes "name") = .str n) ∧
      (∃ d, idx p (bytes "doc") = .str d) ∧ ∃ t, idx p (bytes "type") = .str t) :
    ∃ ps, formatProps ct.Properties = some ps ∧
      List.Forall₂ (fun p q => formatTypes p = some q ∧
        idx q (bytes "name") = idx p (bytes "name") ∧
        idx q (bytes "type") = .str (normType (strOf (idx p (bytes "type")))) ∧
        idx q (bytes "defaultValue") =
          normDefault (normType (strOf (idx p (bytes "type"))))
            (idx p (bytes "defaultValue"))) ct.Properties ps ∧
      renderComplexType T ct = some (bytes "\n\ntype " ++ ct.Name ++ bytes " struct \x7b\n\t"
        ++ ps.flatMap (fun q => Title T (strOf (idx q (bytes "name"))) ++ bytes " "
            ++ strOf (idx q (bytes "type")) ++ bytes "\n\t")
        ++ bytes "\n\x7d\n\n") := by
  obtain ⟨ps, hps, hall⟩ := formatProps_spec ct.Properties (fun p hp => (hwf p hp).2)
  refine ⟨ps, hps, hall, ?_⟩
  have hq := formatted_named _ _ hall (fun p hp => (hwf p hp).1)
  have hf := structFields_spec T ps hq
  unfold renderComplexType
  rw [hps]
  simp only [complexTypeTemplate, if_neg hfmt, hf, if_true, Option.some.injEq]
  have h1 : bytes "\n\ntype " = bytes "\n" ++ bytes "\ntype " := by decide
  have h2 : bytes "\n\x7d\n\n" = bytes "\n\x7d\n" ++ bytes "\n" := by decide
  rw [h1, h2]
  simp only [List.append_assoc]

/-- C9: for every ComplexType whose TypeFormat is not ENUM and whose properties carry a
string name, a string type and a doc text, the rendered output is a struct named after the
type with exactly one field line per declared property, in declaration order, each field
named by title-casing the property name and typed with the type `formatTypes` stores for
the property, and nothing else (no methods).  For `Point` with the properties `x` and `y`
of type `int` the fields are `X int` and `Y int`, and each normalised property carries the
default `0`. -/
theorem renderComplexType_struct :
    (∀ (T : CaseTables) (ct : ComplexType), ct.TypeFormat ≠ bytes "ENUM" →
      (∀ p ∈ ct.Properties, (∃ n, idx p (bytes "name") = .str n) ∧
        (∃ d, idx p (bytes "doc") = .str d) ∧ ∃ t, idx p (bytes "type") = .str t) →
      ∃ ps, formatProps ct.Properties = some ps ∧
        List.Forall₂ (fun p q => formatTypes p = some q ∧
          idx q (bytes "name") = idx p (bytes "name")) ct.Properties ps ∧
        renderComplexType T ct = some (bytes "\n\ntype " ++ ct.Name ++ bytes " struct \x7b\n\t"
          ++ ps.flatMap (fun q => Title T (strOf (idx q (bytes "name"))) ++ bytes " "
              ++ strOf (idx q (bytes "type")) ++ bytes "\n\t")
          ++ bytes "\n\x7d\n\n")) ∧
    (∀ (T : CaseTables) (fmt doc dx dy : GoString), fmt ≠ bytes "ENUM" →
      renderComplexType T ⟨fmt, doc, [], bytes "Point",
          [property "x" "int" dx, property "y" "int" dy]⟩ =
        some (bytes "\n\ntype Point struct \x7b\n\tX int\n\tY int\n\t\n\x7d\n\n") ∧
      ∃ qx qy, formatProps [property "x" "int" dx, property "y" "int" dy] = some [qx, qy] ∧
        idx qx (bytes "defaultValue") = .str (bytes "0") ∧
        idx qy (bytes "defaultValue") = .str (bytes "0")) := by
  refine ⟨fun T ct hfmt hwf => ?_, fun T fmt doc dx dy hfmt => ?_⟩
  · obtain ⟨ps, hps, hall, hr⟩ := renderComplexType_spec T ct hfmt hwf
    exact ⟨ps, hps, hall.imp (fun _ _ h => ⟨h.1, h.2.1⟩), hr⟩
  · obtain ⟨ps, hps, hall, hr⟩ := renderComplexType_spec T
      ⟨fmt, doc, [], bytes "Point", [property "x" "int" dx, property "y" "int" dy]⟩ hfmt
      (by
        intro p hp
        simp only [List.mem_cons, List.mem_singleton, List.not_mem_nil, or_false] at hp
        rcases hp with rfl | rfl
        · exact ⟨⟨_, rfl⟩, ⟨_, rfl⟩, ⟨_, rfl⟩⟩
        · exact ⟨⟨_, rfl⟩, ⟨_, rfl⟩, ⟨_, rfl⟩⟩)
    simp only at hps hall hr
    cases hall with
    | cons hx hrest =>
      cases hrest with
      | cons hy hnil =>
        cases hnil
        rename_i qx qy
        obtain ⟨-, hxn, hxt, hxd⟩ := hx
        obtain ⟨-, hyn, hyt, hyd⟩ := hy
        have hxn2 : strOf (idx qx (bytes "name")) = bytes "x" := by rw [hxn]; rfl
        have hyn2 : strOf (idx qy (bytes "name")) = bytes "y" := by rw [hyn]; rfl
        have eint : normType (bytes "int") = bytes "int" := by decide
        have edef : normDefault (bytes "int") Value.nil = Value.str (bytes "0") := by decide
        have hxt2 : idx qx (bytes "type") = Value.str (bytes "int") := hxt.trans (by rw [← eint]; rfl)
        have hyt2 : idx qy (bytes "type") = Value.str (bytes "int") := hyt.trans (by rw [← eint]; rfl)
        have hxd2 : idx qx (bytes "defaultValue") = Value.str (bytes "0") :=
          hxd.trans (by rw [← edef, ← eint]; rfl)
        have hyd2 : idx qy (bytes "defaultValue") = Value.str (bytes "0") :=
          hyd.trans (by rw [← edef, ← eint]; rfl)
        refine ⟨?_, _, _, hps, hxd2, hyd2⟩
        rw [hr]
        simp only [List.flatMap_cons, List.flatMap_nil, hxn2, hyn2, hxt2, hyt2,
          List.append_nil]
        rfl

/-- Witness of C9: the type `Point`. -/
theorem renderComplexType_struct_witness :
    (∃ ps, formatProps pointType.Properties = some ps ∧
      List.Forall₂ (fun p q => formatTypes p = some q ∧
        idx q (bytes "name") = idx p (bytes "name")) pointType.Properties ps ∧
      renderComplexType plainTables pointType =
        some (bytes "\n\ntype " ++ pointType.Name ++ bytes " struct \x7b\n\t"
          ++ ps.flatMap (fun q => Title plainTables (strOf (idx q (bytes "name"))) ++ bytes " "
              ++ strOf (idx q (bytes "type")) ++ bytes "\n\t")
          ++ bytes "\n\x7d\n\n")) ∧
    (renderComplexType plainTables ⟨bytes "REGISTER", bytes "", [], bytes "Point",
          [property "x" "int" (bytes ""), property "y" "int" (bytes "")]⟩ =
        some (bytes "\n\ntype Point struct \x7b\n\tX int\n\tY int\n\t\n\x7d\n\n") ∧
      ∃ qx qy, formatProps [property "x" "int" (bytes ""), property "y" "int" (bytes "")]
          = some [qx, qy] ∧
        idx qx (bytes "defaultValue") = .str (bytes "0") ∧
        idx qy (bytes "defaultValue") = .str (bytes "0")) :=
  ⟨renderComplexType_struct.1 plainTables pointType (by decide)
      (by
        intro p hp
        simp only [pointType, List.mem_cons, List.mem_singleton, List.not_mem_nil,
          or_false] at hp
        rcases hp with rfl | rfl
        · exact ⟨⟨_, rfl⟩, ⟨_, rfl⟩, ⟨_, rfl⟩⟩
        · exact ⟨⟨_, rfl⟩, ⟨_, rfl⟩, ⟨_, rfl⟩⟩),
    renderComplexType_struct.2 plainTables (bytes "REGISTER") (bytes "") (bytes "") (bytes "")
      (by decide)⟩

/-! ## The complex-type pass and the registry -/

theorem isComplexType_iff (l : List GoString) (t : GoString) :
    isComplexType l t = true ↔ t ∈ l := by
  induction l with
  | nil => simp [isComplexType]
  | cons c cs ih =>
    rw [isComplexType]
    split_ifs with h
    · simp [h]
    · rw [ih, List.mem_cons]
      exact ⟨Or.inr, fun h2 => h2.resolve_left (fun e => h e.symm)⟩

theorem globAll_eq (W : World) (pats paths : List GoString) (h : globAll W pats = some paths) :
    paths = pats.flatMap (fun pat => (W.glob pat).getD []) := by
  induction pats generalizing paths with
  | nil =>
    simp only [globAll, Option.some.injEq] at h
    rw [← h]; rfl
  | cons pat rest ih =>
    rw [globAll] at h
    cases hg : W.glob pat with
    | none => rw [hg] at h; simp at h
    | some l =>
      rw [hg] at h
      cases hr : globAll W rest with
      | none => rw [hr] at h; simp at h
      | some more =>
        rw [hr] at h
        simp only [Option.some.injEq] at h
        rw [← h, List.flatMap_cons, hg, ← ih more hr]
        rfl

theorem renderComplexType_isSome (T : CaseTables) (ct : ComplexType)
    (h : ∀ p ∈ ct.Properties, (∃ d, idx p (bytes "doc") = .str d) ∧
      ∃ t, idx p (bytes "type") = .str t) :
    ∃ out, renderComplexType T ct = some out := by
  obtain ⟨ps, hps, -⟩ := formatProps_spec ct.Properties h
  exact ⟨_, by rw [renderComplexType, hps]⟩

/-- The loop over the complex types of a file appends their names, in order, to
`CPXTYPES`. -/
theorem ctypesLoop_spec (T : CaseTables) (cts : List ComplexType)
    (acc : List GoString × List GoString)
    (h : ∀ ct ∈ cts, ∀ p ∈ ct.Properties, (∃ d, idx p (bytes "doc") = .str d) ∧
      ∃ t, idx p (bytes "type") = .str t) :
    ∃ r, ctypesLoop T cts acc = some r ∧ r.1 = acc.1 ++ cts.map (fun ct => ct.Name) := by
  induction cts generalizing acc with
  | nil => exact ⟨acc, rfl, by simp⟩
  | cons ct rest ih =>
    obtain ⟨out, hout⟩ := renderComplexType_isSome T ct (h ct (by simp))
    obtain ⟨r, hr, hr1⟩ := ih (acc.1 ++ [ct.Name], acc.2 ++ [out])
      (fun ct hct => h ct (List.mem_cons_of_mem _ hct))
    refine ⟨r, ?_, ?_⟩
    · rw [ctypesLoop, hout]
      exact hr
    · rw [hr1]
      simp

/-- The loop over the paths appends the names declared by each file, in order. -/
theorem pathsLoop_spec (T : CaseTables) (W : World) (suffix : GoString)
    (paths : List GoString) (acc : State × List GoString)
    (h : ∀ path ∈ paths, ∃ core, W.getModel path = some core ∧
      ∀ cts, core.ComplexTypes = some cts → ∀ ct ∈ cts, ∀ p ∈ ct.Properties,
        (∃ d, idx p (bytes "doc") = .str d) ∧ ∃ t, idx p (bytes "type") = .str t) :
    ∃ r, pathsLoop T W suffix paths acc = some r ∧
      r.1.CPXTYPES = acc.1.CPXTYPES ++ declaredNames W paths := by
  induction paths generalizing acc with
  | nil => exact ⟨acc, rfl, by simp [declaredNames]⟩
  | cons path rest ih =>
    obtain ⟨core, hcore, hwf⟩ := h path (by simp)
    have hrest := fun path hp => h path (List.mem_cons_of_mem _ hp)
    have hd : declaredNames W (path :: rest) =
        (core.ComplexTypes.getD []).map (fun ct => ct.Name) ++ declaredNames W rest := by
      simp only [declaredNames, List.flatMap_cons, hcore]
    rw [hd, pathsLoop, hcore]
    cases hc : core.ComplexTypes with
    | none =>
      obtain ⟨r, hr, hr1⟩ := ih acc hrest
      exact ⟨r, by simp only [hc]; exact hr, by rw [hr1]; simp⟩
    | some cts =>
      obtain ⟨r0, hr0, hr01⟩ := ctypesLoop_spec T cts (acc.1.CPXTYPES, acc.2) (hwf cts hc)
      obtain ⟨r, hr, hr1⟩ := ih
        ({ CPXTYPES := r0.1,
           files := acc.1.files ++ [(createFile T path suffix, fileContent r0.2)] }, r0.2) hrest
      refine ⟨r, ?_, ?_⟩
      · simp only [hc, hr0]
        exact hr
      · rw [hr1]
        simp only [hr01, Option.getD_some, List.append_assoc]

theorem globAll_isSome (W : World) (pats : List GoString)
    (h : ∀ pat ∈ pats, ∃ pathList, W.glob pat = some pathList) :
    ∃ paths, globAll W pats = some paths := by
  induction pats with
  | nil => exact ⟨[], rfl⟩
  | cons pat rest ih =>
    obtain ⟨l, hl⟩ := h pat (by simp)
    obtain ⟨more, hmore⟩ := ih (fun pat hp => h pat (List.mem_cons_of_mem _ hp))
    exact ⟨l ++ more, by rw [globAll, hl]; simp only [hmore]⟩

theorem ctypesLoop_names (T : CaseTables) (cts : List ComplexType)
    (acc r : List GoString × List GoString) (h : ctypesLoop T cts acc = some r) :
    r.1 = acc.1 ++ cts.map (fun ct => ct.Name) := by
  induction cts generalizing acc with
  | nil =>
    simp only [ctypesLoop, Option.some.injEq] at h
    rw [← h]; simp
  | cons ct rest ih =>
    rw [ctypesLoop] at h
    cases ho : renderComplexType T ct with
    | none => rw [ho] at h; simp at h
    | some out =>
      rw [ho] at h
      rw [ih _ h]
      simp

theorem pathsLoop_names (T : CaseTables) (W : World) (suffix : GoString)
    (paths : List GoString) (acc r : State × List GoString)
    (h : pathsLoop T W suffix paths acc = some r) :
    r.1.CPXTYPES = acc.1.CPXTYPES ++ declaredNames W paths := by
  induction paths generalizing acc with
  | nil =>
    simp only [pathsLoop, Option.some.injEq] at h
    rw [← h]; simp [declaredNames]
  | cons path rest ih =>
    rw [pathsLoop] at h
    cases hcore : W.getModel path with
    | none => rw [hcore] at h; simp at h
    | some core =>
      rw [hcore] at h
      simp only at h
      have hd : declaredNames W (path :: rest) =
          (core.ComplexTypes.getD []).map (fun ct => ct.Name) ++ declaredNames W rest := by
        simp only [declaredNames, List.flatMap_cons, hcore]
      rw [hd]
      cases hc : core.ComplexTypes with
      | none =>
        rw [hc] at h
        simp only at h
        rw [ih _ h]
        simp
      | some cts =>
        rw [hc] at h
        simp only at h
        cases hl : ctypesLoop T cts (acc.1.CPXTYPES, acc.2) with
        | none => rw [hl] at h; simp at h
        | some r0 =>
          rw [hl] at h
          simp only at h
          rw [ih _ h]
          simp only [ctypesLoop_names T cts _ r0 hl, Option.getD_some, List.append_assoc]

/-- C10: starting from an empty registry, whenever `parseComplexTypes` ends normally,
`CPXTYPES` is the concatenation of the ComplexType names of the processed documents in
processing order (pattern order, then file order, then in-schema order), duplicates
retained, and `isComplexType(n)` is true exactly when `n` is the name of a ComplexType
declared in some processed document; and the run does end normally when every pattern is
well formed, every file is read and parsed and every property carries a doc text and a
string type (a name met twice does not stop it). -/
theorem parseComplexTypes_registry (T : CaseTables) (W : World)
    (complexs : List GoString) (suffix : GoString) :
    (∀ st, parseComplexTypes T W complexs suffix ⟨[], []⟩ = some st →
      st.CPXTYPES =
        (complexs.flatMap (fun pat => (W.glob pat).getD [])).flatMap (fun path =>
          match W.getModel path with
          | some core => (core.ComplexTypes.getD []).map (fun ct => ct.Name)
          | none => []) ∧
      ∀ n, isComplexType st.CPXTYPES n = true ↔
        ∃ pat ∈ complexs, ∃ path ∈ (W.glob pat).getD [], ∃ core cts ct,
          W.getModel path = some core ∧ core.ComplexTypes = some cts ∧ ct ∈ cts ∧
            ct.Name = n) ∧
    ((∀ pat ∈ complexs, ∃ pathList, W.glob pat = some pathList) →
      (∀ pat ∈ complexs, ∀ path ∈ (W.glob pat).getD [],
        ∃ core, W.getModel path = some core ∧
          ∀ cts, core.ComplexTypes = some cts → ∀ ct ∈ cts, ∀ p ∈ ct.Properties,
            (∃ d, idx p (bytes "doc") = .str d) ∧ ∃ t, idx p (bytes "type") = .str t) →
      ∃ st, parseComplexTypes T W complexs suffix ⟨[], []⟩ = some st) := by
  constructor
  · intro st hst
    rw [parseComplexTypes] at hst
    cases hpaths : globAll W complexs with
    | none => rw [hpaths] at hst; simp at hst
    | some paths =>
      rw [hpaths] at hst
      simp only at hst
      cases hr : pathsLoop T W suffix paths (⟨[], []⟩, []) with
      | none => rw [hr] at hst; simp at hst
      | some r =>
        rw [hr] at hst
        simp only [Option.some.injEq] at hst
        subst hst
        have hpe := globAll_eq W complexs paths hpaths
        have hcpx : r.1.CPXTYPES = declaredNames W paths := by
          simpa using pathsLoop_names T W suffix paths _ r hr
        refine ⟨?_, ?_⟩
        · rw [hcpx, hpe]
          rfl
        · intro n
          rw [isComplexType_iff, hcpx, hpe, declaredNames, List.mem_flatMap]
          constructor
          · rintro ⟨path, hpath, hn⟩
            obtain ⟨pat, hpat, hin⟩ := List.mem_flatMap.mp hpath
            cases hc : W.getModel path with
            | none => rw [hc] at hn; simp at hn
            | some core =>
              rw [hc] at hn
              simp only at hn
              cases hcts : core.ComplexTypes with
              | none => rw [hcts] at hn; simp at hn
              | some cts =>
                rw [hcts] at hn
                simp only [Option.getD_some, List.mem_map] at hn
                obtain ⟨ct, hct, hname⟩ := hn
                exact ⟨pat, hpat, path, hin, core, cts, ct, hc, hcts, hct, hname⟩
          · rintro ⟨pat, hpat, path, hin, core, cts, ct, hc, hcts, hct, hname⟩
            refine ⟨path, List.mem_flatMap.mpr ⟨pat, hpat, hin⟩, ?_⟩
            rw [hc]
            simp only [hcts, Option.getD_some, List.mem_map]
            exact ⟨ct, hct, hname⟩
  · intro hglob hmodel
    obtain ⟨paths, hpaths⟩ := globAll_isSome W complexs hglob
    have hpe := globAll_eq W complexs paths hpaths
    have hm : ∀ path ∈ paths, ∃ core, W.getModel path = some core ∧
        ∀ cts, core.ComplexTypes = some cts → ∀ ct ∈ cts, ∀ p ∈ ct.Properties,
          (∃ d, idx p (bytes "doc") = .str d) ∧ ∃ t, idx p (bytes "type") = .str t := by
      intro path hp
      rw [hpe, List.mem_flatMap] at hp
      obtain ⟨pat, hpat, hin⟩ := hp
      exact hmodel pat hpat path hin
    obtain ⟨r, hr, -⟩ := pathsLoop_spec T W suffix paths (⟨[], []⟩, []) hm
    exact ⟨r.1, by rw [parseComplexTypes, hpaths]; simp only [hr]⟩

/-- Witness of C10: the file `core.kmd.json` declaring `Point` twice; the run ends and
the registry holds the name twice. -/
theorem parseComplexTypes_registry_witness :
    (∃ st, parseComplexTypes plainTables pointWorld [bytes "core.kmd.json"]
        (bytes "complext_types") ⟨[], []⟩ = some st ∧
      (st.CPXTYPES =
        ([bytes "core.kmd.json"].flatMap (fun pat => (pointWorld.glob pat).getD [])).flatMap
          (fun path =>
            match pointWorld.getModel path with
            | some core => (core.ComplexTypes.getD []).map (fun ct => ct.Name)
            | none => []) ∧
      ∀ n, isComplexType st.CPXTYPES n = true ↔
        ∃ pat ∈ [bytes "core.kmd.json"], ∃ path ∈ (pointWorld.glob pat).getD [],
          ∃ core cts ct, pointWorld.getModel path = some core ∧
            core.ComplexTypes = some cts ∧ ct ∈ cts ∧ ct.Name = n)) ∧
    (parseComplexTypes plainTables pointWorld [bytes "core.kmd.json"]
        (bytes "complext_types") ⟨[], []⟩).map State.CPXTYPES
      = some [bytes "Point", bytes "Point"] :=
  ⟨(fun ⟨st, hst⟩ => ⟨st, hst,
      (parseComplexTypes_registry plainTables pointWorld [bytes "core.kmd.json"]
        (bytes "complext_types")).1 st hst⟩)
    ((parseComplexTypes_registry plainTables pointWorld [bytes "core.kmd.json"]
      (bytes "complext_types")).2
      (by
        intro pat hpat
        simp only [List.mem_singleton] at hpat
        subst hpat
        exact ⟨_, rfl⟩)
      (by
        intro pat hpat path hpath
        simp only [List.mem_singleton] at hpat
        subst hpat
        have hp : path = bytes "core.kmd.json" := by
          have : path ∈ [bytes "core.kmd.json"] := hpath
          simpa using this
        subst hp
        refine ⟨⟨[], some [pointType, pointType]⟩, rfl, ?_⟩
        intro cts hcts ct hct p hp
        simp only [Option.some.injEq] at hcts
        subst hcts
        have hct2 : ct = pointType := by simpa using hct
        subst hct2
        simp only [pointType, List.mem_cons, List.mem_singleton, List.not_mem_nil,
          or_false] at hp
        rcases hp with rfl | rfl
        · exact ⟨⟨_, rfl⟩, ⟨_, rfl⟩⟩
        · exact ⟨⟨_, rfl⟩, ⟨_, rfl⟩⟩)),
    by decide⟩

/-! ## The registry rewrite of class properties -/

theorem brackets_take (u : GoString) : (bytes "[]" ++ u).take 2 = bytes "[]" := rfl

theorem brackets_drop (u : GoString) : (bytes "[]" ++ u).drop 2 = u := rfl

theorem isReferenceName_spec (t : GoString) (h : isReferenceName t = true) :
    2 ≤ t.length ∧ ¬ (t = bytes "string" ∨ t = bytes "float64" ∨ t = bytes "bool"
      ∨ t = bytes "[]string") ∧ t.take 2 ≠ bytes "[]" := by
  simp only [isReferenceName, Bool.and_eq_true, decide_eq_true_eq, Bool.not_eq_true',
    Bool.or_eq_false_iff, decide_eq_false_iff_not] at h
  obtain ⟨⟨h1, ⟨⟨h2, h3⟩, h4⟩, h5⟩, h6⟩ := h
  refine ⟨h1, ?_, h6⟩
  rintro (e | e | e | e)
  · exact h2 e
  · exact h3 e
  · exact h4 e
  · exact h5 e

/-- The rewrite of a single reference name: `*` before a registered complex type, `I`
before any other name. -/
theorem rewriteProperty_single (CPXTYPES : List GoString) (q : Props) (t : GoString)
    (ht : idx q (bytes "type") = .str t) (href : isReferenceName t = true) :
    rewriteProperty CPXTYPES q =
      some (setKey q (bytes "type")
        (.str ((if isComplexType CPXTYPES t then bytes "*" else bytes "I") ++ t))) := by
  obtain ⟨hlen, hskip, hpre⟩ := isReferenceName_spec t href
  have hl : ¬ t.length < 2 := by omega
  unfold rewriteProperty
  rw [ht]
  simp only [if_neg hskip, if_neg hl, if_neg hpre]
  split_ifs <;> rfl

/-- The rewrite of a collection: `[]*` before a registered complex type, `[]I` before
any other element name (`[]string` is left as it is). -/
theorem rewriteProperty_collection (CPXTYPES : List GoString) (q : Props) (u : GoString)
    (ht : idx q (bytes "type") = .str (bytes "[]" ++ u)) (hu : u ≠ bytes "string") :
    rewriteProperty CPXTYPES q =
      some (setKey q (bytes "type")
        (.str ((if isComplexType CPXTYPES u then bytes "[]*" else bytes "[]I") ++ u))) := by
  have hskip : ¬ (bytes "[]" ++ u = bytes "string" ∨ bytes "[]" ++ u = bytes "float64"
      ∨ bytes "[]" ++ u = bytes "bool" ∨ bytes "[]" ++ u = bytes "[]string") := by
    obtain ⟨h1, h2, _, h4⟩ := brackets_append_ne u
    intro h
    rcases h with h | h | h | h
    · exact h1 h
    · exact h4 h
    · exact h2 h
    · exact hu (List.append_cancel_left (h.trans (by decide : bytes "[]string" = bytes "[]" ++ bytes "string")))
  have hl : ¬ (bytes "[]" ++ u).length < 2 := by
    have : (bytes "[]" ++ u).length = 2 + u.length := by
      rw [List.length_append]; rfl
    omega
  unfold rewriteProperty
  rw [ht]
  simp only [if_neg hskip, if_neg hl, brackets_take, brackets_drop, if_true]
  split_ifs <;> rfl

/-- C15 (the code at the failing input): a property whose type is the one-byte name `T`
makes the pass panic (`none`), and so does the empty type, while the names `HubPort` and
`HubPort[]`, not registered, become `IHubPort` and `[]IHubPort`. -/
theorem fieldType_short_name :
    fieldType [] "T" = none ∧ fieldType [] "" = none ∧
    rewriteProperty [] [(bytes "type", .str (bytes "T"))] = none ∧
    fieldType [] "HubPort" = some (.str (bytes "IHubPort")) ∧
    fieldType [] "HubPort[]" = some (.str (bytes "[]IHubPort")) := by
  decide

/-- C16 (counterexample): with `VideoInfo` registered as a complex type, a property of
type `VideoInfo` gets the field type `*VideoInfo`, and one of type `VideoInfo[]` gets
`[]*VideoInfo`: a pointer, not the value type. -/
theorem fieldType_complex_pointer :
    isComplexType [bytes "VideoInfo"] (bytes "VideoInfo") = true ∧
    fieldType [bytes "VideoInfo"] "VideoInfo" = some (.str (bytes "*VideoInfo")) ∧
    fieldType [bytes "VideoInfo"] "VideoInfo" ≠ some (.str (bytes "VideoInfo")) ∧
    fieldType [bytes "VideoInfo"] "VideoInfo[]" = some (.str (bytes "[]*VideoInfo")) ∧
    fieldType [bytes "VideoInfo"] "VideoInfo[]" ≠ some (.str (bytes "[]VideoInfo")) := by
  decide

/-- C16 (amended): for every class property whose normalised type is, or is a collection
of, a name `T` that is a registered complex type (a name of at least two bytes, other
than `string`, `float64` and `bool`, that is not itself a collection), the rewrite of
`parseRemotes` returns and the field type is a pointer to the value type: `*T` for a
single value and `[]*T` for a collection. -/
theorem rewriteProperty_registered (CPXTYPES : List GoString) (t : GoString)
    (hreg : isComplexType CPXTYPES t = true) (href : isReferenceName t = true)
    (q qc : Props) (hq : idx q (bytes "type") = .str t)
    (hqc : idx qc (bytes "type") = .str (bytes "[]" ++ t)) :
    (∃ r, rewriteProperty CPXTYPES q = some r ∧
      idx r (bytes "type") = .str (bytes "*" ++ t)) ∧
    (∃ r, rewriteProperty CPXTYPES qc = some r ∧
      idx r (bytes "type") = .str (bytes "[]*" ++ t)) := by
  have hs : t ≠ bytes "string" := fun e => (isReferenceName_spec t href).2.1 (Or.inl e)
  refine ⟨⟨_, rewriteProperty_single CPXTYPES q t hq href, ?_⟩,
    ⟨_, rewriteProperty_collection CPXTYPES qc t hqc hs, ?_⟩⟩
  · rw [idx_setKey_same, hreg]; rfl
  · rw [idx_setKey_same, hreg]; rfl

/-- Witness of C16 (amended): the registered name `VideoInfo`. -/
theorem rewriteProperty_registered_witness :
    (∃ r, rewriteProperty [bytes "VideoInfo"] [(bytes "type", .str (bytes "VideoInfo"))]
        = some r ∧ idx r (bytes "type") = .str (bytes "*" ++ bytes "VideoInfo")) ∧
    (∃ r, rewriteProperty [bytes "VideoInfo"]
        [(bytes "type", .str (bytes "[]" ++ bytes "VideoInfo"))] = some r ∧
      idx r (bytes "type") = .str (bytes "[]*" ++ bytes "VideoInfo")) :=
  rewriteProperty_registered [bytes "VideoInfo"] (bytes "VideoInfo") (by decide) (by decide)
    [(bytes "type", .str (bytes "VideoInfo"))]
    [(bytes "type", .str (bytes "[]" ++ bytes "VideoInfo"))] (by decide) (by decide)

/-- C17 (the code at the failing input): a class property of raw type `String`, `float`,
`double` or `boolean` gets the field type `string`, `float64`, `float64` or `bool`, but
one of raw type `int` gets `Iint`: the rewrite skips `string`, `float64`, `bool` and
`[]string` only. -/
theorem fieldType_primitive :
    fieldType [] "String" = some (.str (bytes "string")) ∧
    fieldType [] "float" = some (.str (bytes "float64")) ∧
    fieldType [] "double" = some (.str (bytes "float64")) ∧
    fieldType [] "boolean" = some (.str (bytes "bool")) ∧
    fieldType [] "int" = some (.str (bytes "Iint")) ∧
    fieldType [] "int" ≠ some (.str (bytes "int")) := by
  decide

/-! ## What `formatTypes` needs and keeps -/

theorem mapPrimitives_of_not_str (p : Props) (h : ∀ t, idx p (bytes "type") ≠ .str t) :
    mapPrimitives p = p := by
  unfold mapPrimitives
  simp [h]

/-- The function `formatTypes` returns only on a map whose doc and type are strings. -/
theorem formatTypes_some (p q : Props) (h : formatTypes p = some q) :
    ∃ d t, idx p (bytes "doc") = .str d ∧ idx p (bytes "type") = .str t := by
  unfold formatTypes at h
  cases hd : idx p (bytes "doc") with
  | str d =>
    by_cases ht : ∃ t, idx p (bytes "type") = .str t
    · obtain ⟨t, ht⟩ := ht
      exact ⟨d, t, rfl, ht⟩
    · exfalso
      rw [hd] at h
      simp only at h
      have h0 : idx (setKey p (bytes "doc") (.str (formatDoc d))) (bytes "type")
          = idx p (bytes "type") := idx_setKey_ne _ _ _ _ key_type_ne_doc
      have hns : ∀ t, idx (setKey p (bytes "doc") (.str (formatDoc d))) (bytes "type")
          ≠ .str t := by
        intro t e
        exact ht ⟨t, h0 ▸ e⟩
      rw [mapPrimitives_of_not_str _ hns] at h
      unfold collectionStep at h
      cases hv : idx (setKey p (bytes "doc") (.str (formatDoc d))) (bytes "type") with
      | str t => exact hns t hv
      | nil => rw [hv] at h; simp at h
      | bool b => rw [hv] at h; simp at h
      | other s => rw [hv] at h; simp at h
  | nil => rw [hd] at h; simp at h
  | bool b => rw [hd] at h; simp at h
  | other s => rw [hd] at h; simp at h

/-- What a returned `formatTypes` stores: a string type, the name as supplied. -/
theorem formatTypes_keeps (p q : Props) (h : formatTypes p = some q) :
    idx q (bytes "type") = .str (normType (strOf (idx p (bytes "type")))) ∧
    idx q (bytes "name") = idx p (bytes "name") ∧
    idx q (bytes "doc") = .str (formatDoc (strOf (idx p (bytes "doc")))) := by
  obtain ⟨d, t, hd, ht⟩ := formatTypes_some p q h
  obtain ⟨r, hr, hrt, -, hrd, hframe⟩ := formatTypes_spec p d t hd ht
  rw [h] at hr
  cases hr
  refine ⟨?_, hframe _ key_name_ne_type key_name_ne_default key_name_ne_doc, ?_⟩
  · rw [hrt, ht]; rfl
  · rw [hrd, hd]; rfl

theorem formatProps_inv (props ps : List Props) (h : formatProps props = some ps) :
    List.Forall₂ (fun p q => formatTypes p = some q) props ps := by
  induction props generalizing ps with
  | nil =>
    simp only [formatProps, Option.some.injEq] at h
    subst h
    exact List.Forall₂.nil
  | cons p rest ih =>
    rw [formatProps] at h
    cases hq : formatTypes p with
    | none => rw [hq] at h; simp at h
    | some q =>
      rw [hq] at h
      cases hqs : formatProps rest with
      | none => rw [hqs] at h; simp at h
      | some qs =>
        rw [hqs] at h
        simp only [Option.some.injEq] at h
        subst h
        exact List.Forall₂.cons hq (ih qs hqs)

theorem formatProps_typed (props ps : List Props) (h : formatProps props = some ps) :
    ∀ q ∈ ps, ∃ t, idx q (bytes "type") = .str t := by
  have hall := formatProps_inv props ps h
  clear h
  induction hall with
  | nil => intro q hq; simp at hq
  | cons hpq _ ih =>
    intro q hq
    rcases List.mem_cons.mp hq with rfl | hq
    · exact ⟨_, (formatTypes_keeps _ _ hpq).1⟩
    · exact ih q hq

theorem formatProps_isSome (props : List Props) (h : props.all typed = true) :
    ∃ ps, formatProps props = some ps := by
  have h2 : ∀ p ∈ props, (∃ d, idx p (bytes "doc") = .str d) ∧
      ∃ t, idx p (bytes "type") = .str t := by
    intro p hp
    have := List.all_eq_true.mp h p hp
    simp only [typed, Bool.and_eq_true] at this
    obtain ⟨h1, h2⟩ := this
    constructor
    · cases hv : idx p (bytes "doc") with
      | str d => exact ⟨d, rfl⟩
      | nil => rw [hv] at h1; simp [isStr] at h1
      | bool b => rw [hv] at h1; simp [isStr] at h1
      | other s => rw [hv] at h1; simp [isStr] at h1
    · cases hv : idx p (bytes "type") with
      | str d => exact ⟨d, rfl⟩
      | nil => rw [hv] at h2; simp [isStr] at h2
      | bool b => rw [hv] at h2; simp [isStr] at h2
      | other s => rw [hv] at h2; simp [isStr] at h2
  obtain ⟨ps, hps, -⟩ := formatProps_spec props h2
  exact ⟨ps, hps⟩

/-! ## The methods as the template receives them -/

theorem formatMethod_spec (m r : Method) (h : formatMethod m = some r) :
    r.Name = m.Name ∧ r.Doc = formatDoc m.Doc ∧ formatProps m.Params = some r.Params ∧
    (idx m.Return (bytes "type") = .nil → r.Return = m.Return) ∧
    (idx m.Return (bytes "type") ≠ .nil → ∃ q d, formatTypes m.Return = some q ∧
      idx q (bytes "doc") = .str d ∧
      r.Return = setKey q (bytes "doc") (.str (formatDoc d))) := by
  unfold formatMethod at h
  cases hps : formatProps m.Params with
  | none => rw [hps] at h; simp at h
  | some ps =>
    rw [hps] at h
    simp only at h
    by_cases hr : idx m.Return (bytes "type") = .nil
    · rw [if_neg (not_not.mpr hr)] at h
      simp only [Option.some.injEq] at h
      subst h
      exact ⟨rfl, rfl, rfl, fun _ => rfl, fun hn => absurd hr hn⟩
    · rw [if_pos hr] at h
      cases hq : formatTypes m.Return with
      | none => rw [hq] at h; simp at h
      | some q =>
        rw [hq] at h
        simp only at h
        cases hd : idx q (bytes "doc") with
        | str d =>
          rw [hd] at h
          simp only [Option.some.injEq] at h
          subst h
          exact ⟨rfl, rfl, rfl, fun hn => absurd hn hr, fun _ => ⟨q, d, rfl, hd, rfl⟩⟩
        | nil => rw [hd] at h; simp at h
        | bool b => rw [hd] at h; simp at h
        | other s => rw [hd] at h; simp at h

theorem formatMethods_inv (ms rs : List Method) (h : formatMethods ms = some rs) :
    List.Forall₂ (fun m r => formatMethod m = some r) ms rs := by
  induction ms generalizing rs with
  | nil =>
    simp only [formatMethods, Option.some.injEq] at h
    subst h
    exact List.Forall₂.nil
  | cons m rest ih =>
    rw [formatMethods] at h
    cases hq : formatMethod m with
    | none => rw [hq] at h; simp at h
    | some q =>
      rw [hq] at h
      cases hqs : formatMethods rest with
      | none => rw [hqs] at h; simp at h
      | some qs =>
        rw [hqs] at h
        simp only [Option.some.injEq] at h
        subst h
        exact List.Forall₂.cons hq (ih qs hqs)

theorem forall₂_right {α β : Type} (R : α → β → Prop) (l1 : List α) (l2 : List β)
    (h : List.Forall₂ R l1 l2) : ∀ b ∈ l2, ∃ a ∈ l1, R a b := by
  induction h with
  | nil => intro b hb; simp at hb
  | cons hab _ ih =>
    intro b hb
    rcases List.mem_cons.mp hb with rfl | hb
    · exact ⟨_, List.mem_cons_self _ _, hab⟩
    · obtain ⟨a, ha, hr⟩ := ih b hb
      exact ⟨a, List.mem_cons_of_mem _ ha, hr⟩

/-- Every parameter of a formatted method has a string type. -/
theorem formatMethods_typed (ms rs : List Method) (h : formatMethods ms = some rs) :
    ∀ r ∈ rs, ∀ e ∈ r.Params, ∃ t, idx e (bytes "type") = .str t := by
  intro r hr
  obtain ⟨m, -, hm⟩ := forall₂_right _ _ _ (formatMethods_inv ms rs h) r hr
  exact formatProps_typed _ _ (formatMethod_spec m r hm).2.2.1

/-! ## The loops of the class template -/

theorem flatMap_congr_mem {α : Type} (f g : α → GoString) (l : List α)
    (h : ∀ a ∈ l, f a = g a) : l.flatMap f = l.flatMap g := by
  induction l with
  | nil => rfl
  | cons a rest ih =>
    rw [List.flatMap_cons, List.flatMap_cons, h a (List.mem_cons_self _ _),
      ih (fun b hb => h b (List.mem_cons_of_mem _ hb))]

theorem rangeOver_eq {α : Type} (body : α → Option GoString) (l : List α) (out : GoString)
    (h : rangeOver body l = some out) :
    out = l.flatMap (fun a => (body a).getD []) ∧ ∀ a ∈ l, ∃ o, body a = some o := by
  induction l generalizing out with
  | nil =>
    simp only [rangeOver, Option.some.injEq] at h
    subst h
    exact ⟨rfl, fun a ha => by simp at ha⟩
  | cons a rest ih =>
    rw [rangeOver] at h
    cases ho : body a with
    | none => rw [ho] at h; simp at h
    | some o =>
      rw [ho] at h
      cases hm : rangeOver body rest with
      | none => rw [hm] at h; simp at h
      | some more =>
        rw [hm] at h
        simp only [Option.some.injEq] at h
        subst h
        obtain ⟨e, hall⟩ := ih more hm
        refine ⟨?_, ?_⟩
        · rw [List.flatMap_cons, ho, ← e]; rfl
        · intro b hb
          rcases List.mem_cons.mp hb with rfl | hb
          · exact ⟨o, ho⟩
          · exact hall b hb

theorem rangeOver_of_forall {α : Type} (body : α → Option GoString) (text : α → GoString)
    (l : List α) (h : ∀ a ∈ l, body a = some (text a)) :
    rangeOver body l = some (l.flatMap text) := by
  induction l with
  | nil => rfl
  | cons a rest ih =>
    rw [rangeOver, h a (List.mem_cons_self _ _)]
    simp only [ih (fun b hb => h b (List.mem_cons_of_mem _ hb)), List.flatMap_cons]

/-! ## `tplCheckElement` and the template `Arguments` -/

theorem tplCheckElement_eq (p : GoString) : tplCheckElement p = capability p := by
  unfold tplCheckElement capability isMediaName
  by_cases h1 : p.length > 5 ∧ p.take 5 = bytes "Media"
  · rw [if_pos h1]
    by_cases h2 : p.drop (p.length - 4) = bytes "Type"
    · have h3 : ¬ (p.drop (p.length - 4) ≠ bytes "Type") := not_not.mpr h2
      rw [if_neg h3]
      simp [h2]
    · rw [if_pos h2]
      have hp : bytes "IMedia" ++ p.drop 5 = bytes "I" ++ p := by
        have e : bytes "I" ++ p = bytes "I" ++ (p.take 5 ++ p.drop 5) := by
          rw [List.take_append_drop]
        rw [e, h1.2]
        rfl
      have hl : 5 < p.length := h1.1
      simp [hl, h1.2, h2, hp]
  · rw [if_neg h1]
    have : ¬ (5 < p.length ∧ p.take 5 = bytes "Media") := h1
    rw [not_and] at this
    by_cases hl : 5 < p.length
    · simp [hl, this hl]
    · simp [hl]

theorem paramText_of_type (e : Props) (t : GoString) (ht : idx e (bytes "type") = .str t) :
    paramText e = printKey e (bytes "name") ++ bytes " " ++ tplCheckElement t := by
  rw [paramText, printKey_str e _ t ht, tplCheckElement_eq]

theorem argumentsFrom_succ (i : Nat) (ps : List Props)
    (h : ∀ e ∈ ps, ∃ t, idx e (bytes "type") = .str t) :
    argumentsFrom (i + 1) ps = some (ps.flatMap (fun e => bytes " , " ++ paramText e)) := by
  induction ps generalizing i with
  | nil => rfl
  | cons e es ih =>
    obtain ⟨t, ht⟩ := h e (List.mem_cons_self _ _)
    rw [argumentsFrom, ht]
    simp only [ih (i + 1) (fun b hb => h b (List.mem_cons_of_mem _ hb)), List.flatMap_cons,
      paramText_of_type e t ht, Nat.add_one_ne_zero, if_false, List.append_assoc]

theorem Join_cons (a : GoString) (rest : List GoString) (sep : GoString) :
    Join (a :: rest) sep = a ++ rest.flatMap (fun b => sep ++ b) := by
  induction rest generalizing a with
  | nil => simp [Join]
  | cons b more ih =>
    rw [Join, ih b, List.flatMap_cons]
    simp only [List.append_assoc]

/-- The template `Arguments` on parameters with string types: the parameters in order,
separated by ` , `, each with its type passed through `tplCheckElement`. -/
theorem Arguments_eq (ps : List Props) (h : ∀ e ∈ ps, ∃ t, idx e (bytes "type") = .str t) :
    Arguments ps = some (paramList ps) := by
  cases ps with
  | nil => rfl
  | cons e es =>
    obtain ⟨t, ht⟩ := h e (List.mem_cons_self _ _)
    rw [Arguments, argumentsFrom, ht]
    simp only [argumentsFrom_succ 0 es (fun b hb => h b (List.mem_cons_of_mem _ hb)),
      paramList, List.map_cons, Join_cons, paramText_of_type e t ht, if_true,
      List.nil_append, List.append_assoc, List.flatMap_map]

/-! ## The sections of the class template -/

theorem interfaceMethod_eq (T : CaseTables) (m : Method)
    (h : ∀ e ∈ m.Params, ∃ t, idx e (bytes "type") = .str t) :
    interfaceMethod T m = some (signature T m) := by
  rw [interfaceMethod, Arguments_eq _ h]
  rfl

/-- The interface section on a class whose method parameters have string types: nothing
for `MediaObject`, else the interface `I` + name with one signature per method, in
order. -/
theorem interfaceSection_eq (T : CaseTables) (c : Class)
    (h : ∀ m ∈ c.Methods, ∀ e ∈ m.Params, ∃ t, idx e (bytes "type") = .str t) :
    interfaceSection T c = some (if c.Name = bytes "MediaObject" then [] else
      bytes "\ntype I" ++ c.Name ++ bytes " interface \x7b\n\t"
        ++ c.Methods.flatMap (signature T) ++ bytes "\n\x7d\n") := by
  unfold interfaceSection
  by_cases hn : c.Name = bytes "MediaObject"
  · rw [if_neg (not_not.mpr hn), if_pos hn]
  · rw [if_pos hn, if_neg hn,
      rangeOver_of_forall (interfaceMethod T) (signature T) c.Methods
        (fun m hm => interfaceMethod_eq T m (h m hm))]

theorem classField_of_name (T : CaseTables) (p : Props) (n : GoString)
    (h : idx p (bytes "name") = .str n) : classField T p = some (fieldText T p) := by
  rw [classField, fieldText, h]
  rfl

theorem classField_eq (T : CaseTables) (p : Props) (o : GoString)
    (h : classField T p = some o) :
    classField T p = some (fieldText T p) ∧ ∃ n, idx p (bytes "name") = .str n := by
  cases hn : idx p (bytes "name") with
  | str n => exact ⟨classField_of_name T p n hn, n, rfl⟩
  | nil => rw [classField, hn] at h; simp at h
  | bool b => rw [classField, hn] at h; simp at h
  | other s => rw [classField, hn] at h; simp at h

/-- The struct section, when it is rendered: the doc, the head, the first field, then
the lines of every property in order. -/
theorem structSection_eq (T : CaseTables) (c : Class) (s : GoString)
    (h : structSection T c = some s) :
    s = bytes "\n\n" ++ c.Doc ++ bytes "\ntype " ++ c.Name ++ bytes " struct \x7b\n\t"
      ++ (if c.Name = bytes "MediaObject" then bytes "connection *Connection\n\t"
          else bytes " " ++ c.Extends ++ bytes "\n\t")
      ++ bytes "\n\t\n\t" ++ c.Properties.flatMap (fieldText T) ++ bytes "\n\x7d\n" := by
  unfold structSection at h
  cases hf : rangeOver (classField T) c.Properties with
  | none => rw [hf] at h; simp at h
  | some fields =>
    rw [hf] at h
    simp only [Option.some.injEq] at h
    obtain ⟨e, hall⟩ := rangeOver_eq _ _ _ hf
    have e2 : fields = c.Properties.flatMap (fieldText T) := by
      rw [e]
      apply flatMap_congr_mem
      intro p hp
      obtain ⟨o, ho⟩ := hall p hp
      rw [(classField_eq T p o ho).1]
      rfl
    rw [← h, e2]

theorem structSection_isSome (T : CaseTables) (c : Class)
    (h : ∀ p ∈ c.Properties, ∃ n, idx p (bytes "name") = .str n) :
    ∃ s, structSection T c = some s := by
  have hr := rangeOver_of_forall (classField T) (fieldText T) c.Properties
    (fun p hp => by
      obtain ⟨n, hn⟩ := h p hp
      exact classField_of_name T p n hn)
  exact ⟨_, by rw [structSection, hr]⟩

theorem requestText_eq (m : Method)
    (hn : ∀ p ∈ m.Params, ∃ n, idx p (bytes "name") = .str n) :
    requestText m = requestOf m.Name (paramNames m) := by
  have hcalls : m.Params.flatMap setCall =
      (paramNames m).flatMap (fun n => bytes "\n\tsetIfNotEmpty(params, \"" ++ n
        ++ bytes "\", " ++ n ++ bytes ")\n\t") := by
    rw [paramNames, List.flatMap_map]
    apply flatMap_congr_mem
    intro p hp
    obtain ⟨n, hpn⟩ := hn p hp
    simp only [setCall, printKey_str p _ n hpn, hpn, strOf, Function.comp]
  have hne : (paramNames m ≠ []) ↔ (m.Params ≠ []) := by
    rw [paramNames]
    simp
  unfold requestText requestOf
  by_cases hp : m.Params = []
  · have hp2 : ¬ (paramNames m ≠ []) := fun e => (hne.mp e) hp
    rw [if_neg (not_not.mpr hp), if_neg (not_not.mpr hp), if_neg hp2, if_neg hp2]
  · rw [if_pos hp, if_pos hp, if_pos (hne.mpr hp), if_pos (hne.mpr hp), hcalls]

/-- A method stub on parameters with string types: head, request, tail around what
`returnText` gives. -/
theorem methodStub_eq (T : CaseTables) (lib : TemplateLib) (name : GoString) (m : Method)
    (h : ∀ e ∈ m.Params, ∃ t, idx e (bytes "type") = .str t) :
    methodStub T lib name m =
      (returnText lib m).map (fun ret => stubHead T name m ++ requestText m ++ stubTail ret) := by
  rw [methodStub, Arguments_eq _ h]
  cases hr : returnText lib m with
  | none => rfl
  | some ret =>
    simp only [Option.map_some', stubHead, stubTail, returnPart, List.append_assoc]

/-! ## The class as the template receives it -/

theorem isStr_iff (v : Value) : isStr v = true ↔ ∃ s, v = .str s := by
  cases v with
  | str s => exact ⟨fun _ => ⟨s, rfl⟩, fun _ => rfl⟩
  | nil => exact ⟨fun h => by simp [isStr] at h, fun ⟨s, h⟩ => by simp at h⟩
  | bool b => exact ⟨fun h => by simp [isStr] at h, fun ⟨s, h⟩ => by simp at h⟩
  | other o => exact ⟨fun h => by simp [isStr] at h, fun ⟨s, h⟩ => by simp at h⟩

theorem typed_iff (p : Props) :
    typed p = true ↔ (∃ d, idx p (bytes "doc") = .str d) ∧ ∃ t, idx p (bytes "type") = .str t := by
  rw [typed, Bool.and_eq_true, isStr_iff, isStr_iff]

theorem rewriteProperty_keeps (R : List GoString) (q r : Props)
    (h : rewriteProperty R q = some r) (k : GoString) (hk : k ≠ bytes "type") :
    idx r k = idx q k := by
  unfold rewriteProperty at h
  cases ht : idx q (bytes "type") with
  | str t =>
    rw [ht] at h
    simp only at h
    split_ifs at h <;> simp only [Option.some.injEq] at h <;> subst h <;>
      first
        | rfl
        | exact idx_setKey_ne _ _ _ _ hk
  | nil => rw [ht] at h; simp only [Option.some.injEq] at h; rw [h]
  | bool b => rw [ht] at h; simp only [Option.some.injEq] at h; rw [h]
  | other s => rw [ht] at h; simp only [Option.some.injEq] at h; rw [h]

theorem rewriteProperty_isSome (R : List GoString) (q : Props) (t : GoString)
    (ht : idx q (bytes "type") = .str t) (hl : 2 ≤ t.length) :
    ∃ r, rewriteProperty R q = some r := by
  have hl2 : ¬ t.length < 2 := by omega
  unfold rewriteProperty
  rw [ht]
  simp only [if_neg hl2]
  split_ifs <;> exact ⟨_, rfl⟩

theorem remoteProperties_inv (R : List GoString) (ps rs : List Props)
    (h : remoteProperties R ps = some rs) :
    List.Forall₂ (fun p r => ∃ q, formatTypes p = some q ∧ rewriteProperty R q = some r)
      ps rs := by
  induction ps generalizing rs with
  | nil =>
    simp only [remoteProperties, Option.some.injEq] at h
    subst h
    exact List.Forall₂.nil
  | cons p rest ih =>
    rw [remoteProperties] at h
    cases hq : formatTypes p with
    | none => rw [hq] at h; simp at h
    | some q =>
      rw [hq] at h
      simp only at h
      cases hr : rewriteProperty R q with
      | none => rw [hr] at h; simp at h
      | some r =>
        rw [hr] at h
        simp only at h
        cases hrs : remoteProperties R rest with
        | none => rw [hrs] at h; simp at h
        | some more =>
          rw [hrs] at h
          simp only [Option.some.injEq] at h
          subst h
          exact List.Forall₂.cons ⟨q, hq, hr⟩ (ih more hrs)

theorem remoteProperties_isSome (R : List GoString) (ps : List Props)
    (h : ps.all wellFormedProperty = true) :
    ∃ rs, remoteProperties R ps = some rs := by
  induction ps with
  | nil => exact ⟨[], rfl⟩
  | cons p rest ih =>
    rw [List.all_cons, Bool.and_eq_true] at h
    obtain ⟨hp, hrest⟩ := h
    obtain ⟨more, hmore⟩ := ih hrest
    simp only [wellFormedProperty, Bool.and_eq_true, decide_eq_true_eq] at hp
    obtain ⟨⟨hty, -⟩, hlen⟩ := hp
    obtain ⟨⟨d, hd⟩, ⟨t, ht⟩⟩ := (typed_iff p).mp hty
    obtain ⟨q, hq, hqt, -⟩ := formatTypes_spec p d t hd ht
    rw [ht] at hlen
    obtain ⟨r, hr⟩ := rewriteProperty_isSome R q _ hqt hlen
    exact ⟨r :: more, by rw [remoteProperties, hq]; simp only [hr, hmore]⟩

theorem formatMethod_isSome (m : Method) (h : wellFormedMethod m = true) :
    ∃ r, formatMethod m = some r := by
  simp only [wellFormedMethod, Bool.and_eq_true, Bool.or_eq_true, decide_eq_true_eq] at h
  obtain ⟨hps, hret⟩ := h
  obtain ⟨ps, hps2⟩ := formatProps_isSome m.Params hps
  unfold formatMethod
  rw [hps2]
  simp only
  by_cases hr : idx m.Return (bytes "type") = .nil
  · rw [if_neg (not_not.mpr hr)]
    exact ⟨_, rfl⟩
  · rw [if_pos hr]
    rcases hret with he | hty
    · rw [he] at hr
      exact absurd rfl hr
    · obtain ⟨⟨d, hd⟩, ⟨t, ht⟩⟩ := (typed_iff _).mp hty
      obtain ⟨q, hq, -, -, hqd, -⟩ := formatTypes_spec m.Return d t hd ht
      rw [hq]
      simp only [hqd]
      exact ⟨_, rfl⟩

theorem formatMethods_isSome (ms : List Method) (h : ms.all wellFormedMethod = true) :
    ∃ rs, formatMethods ms = some rs := by
  induction ms with
  | nil => exact ⟨[], rfl⟩
  | cons m rest ih =>
    rw [List.all_cons, Bool.and_eq_true] at h
    obtain ⟨r, hr⟩ := formatMethod_isSome m h.1
    obtain ⟨rs, hrs⟩ := ih h.2
    exact ⟨r :: rs, by rw [formatMethods, hr]; simp only [hrs]⟩

/-- The parts of a prepared class. -/
theorem prepareClass_spec (R : List GoString) (cl c : Class) (h : prepareClass R cl = some c) :
    c.Name = cl.Name ∧ c.Doc = formatDoc cl.Doc ∧ c.Extends = cl.Extends ∧
    remoteProperties R cl.Properties = some c.Properties ∧
    formatMethods cl.Methods = some c.Methods ∧
    formatProps cl.Constructor.Params = some c.Constructor.Params := by
  unfold prepareClass at h
  cases hps : remoteProperties R cl.Properties with
  | none => rw [hps] at h; simp at h
  | some ps =>
    rw [hps] at h
    simp only at h
    cases hms : formatMethods cl.Methods with
    | none => rw [hms] at h; simp at h
    | some ms =>
      rw [hms] at h
      simp only at h
      cases hcs : formatProps cl.Constructor.Params with
      | none => rw [hcs] at h; simp at h
      | some cs =>
        rw [hcs] at h
        simp only [Option.some.injEq] at h
        subst h
        exact ⟨rfl, rfl, rfl, rfl, rfl, rfl⟩

theorem prepareClass_isSome (R : List GoString) (cl : Class)
    (h : wellFormedClass cl = true) : ∃ c, prepareClass R cl = some c := by
  simp only [wellFormedClass, Bool.and_eq_true] at h
  obtain ⟨⟨hp, hm⟩, hc⟩ := h
  obtain ⟨ps, hps⟩ := remoteProperties_isSome R cl.Properties hp
  obtain ⟨ms, hms⟩ := formatMethods_isSome cl.Methods hm
  obtain ⟨cs, hcs⟩ := formatProps_isSome cl.Constructor.Params hc
  rw [prepareClass, hps]
  simp only [hms, hcs]
  exact ⟨_, rfl⟩

/-! ## The class template runs on a well-formed class -/

theorem constructorEntry_isSome (lib : TemplateLib) (p : Props) (t : GoString)
    (ht : idx p (bytes "type") = .str t) : ∃ o, constructorEntry lib p = some o := by
  unfold constructorEntry
  rw [ht]
  simp only [eqStrings]
  split <;> simp_all

theorem rangeOver_isSome {α : Type} (body : α → Option GoString) (l : List α)
    (h : ∀ a ∈ l, ∃ o, body a = some o) : ∃ out, rangeOver body l = some out := by
  refine ⟨_, rangeOver_of_forall body (fun a => (body a).getD []) l ?_⟩
  intro a ha
  obtain ⟨o, ho⟩ := h a ha
  simp only [ho, Option.getD_some]

theorem constructorSection_isSome (lib : TemplateLib) (c : Class)
    (h : ∀ p ∈ c.Constructor.Params, ∃ t, idx p (bytes "type") = .str t) :
    ∃ s, constructorSection lib c = some s := by
  obtain ⟨entries, he⟩ := rangeOver_isSome (constructorEntry lib) c.Constructor.Params
    (fun p hp => by
      obtain ⟨t, ht⟩ := h p hp
      exact constructorEntry_isSome lib p t ht)
  unfold constructorSection
  rw [he]
  split_ifs <;> exact ⟨_, rfl⟩

theorem returnText_isSome (lib : TemplateLib) (m : Method)
    (h : m.Return = [] ∨ ∃ t, idx m.Return (bytes "type") = .str t) :
    ∃ ret, returnText lib m = some ret := by
  unfold returnText
  by_cases he : m.Return = []
  · rw [if_neg (not_not.mpr he)]
    exact ⟨_, rfl⟩
  · rw [if_pos he]
    obtain ⟨t, ht⟩ := h.resolve_left he
    rw [ht]
    simp only [eqStrings]
    split <;> simp_all

/-- The return of a formatted method: the schema's own when that has no type, else a
map with a string type. -/
theorem formatMethod_return (m r : Method) (h : formatMethod m = some r) :
    (idx m.Return (bytes "type") = .nil ∧ r.Return = m.Return) ∨
    (∃ q d, formatTypes m.Return = some q ∧ idx q (bytes "doc") = .str d ∧
      r.Return = setKey q (bytes "doc") (.str (formatDoc d)) ∧
      idx r.Return (bytes "type") = idx q (bytes "type")) := by
  obtain ⟨-, -, -, h1, h2⟩ := formatMethod_spec m r h
  by_cases hr : idx m.Return (bytes "type") = .nil
  · exact Or.inl ⟨hr, h1 hr⟩
  · obtain ⟨q, d, hq, hd, hret⟩ := h2 hr
    refine Or.inr ⟨q, d, hq, hd, hret, ?_⟩
    rw [hret, idx_setKey_ne _ _ _ _ key_type_ne_doc]

theorem formatMethod_return_wf (m r : Method) (h : formatMethod m = some r)
    (hw : wellFormedMethod m = true) :
    r.Return = [] ∨ ∃ t, idx r.Return (bytes "type") = .str t := by
  simp only [wellFormedMethod, Bool.and_eq_true, Bool.or_eq_true, decide_eq_true_eq] at hw
  rcases formatMethod_return m r h with ⟨hn, he⟩ | ⟨q, d, hq, -, -, ht⟩
  · rcases hw.2 with h0 | hty
    · exact Or.inl (he.trans h0)
    · obtain ⟨-, ⟨t, ht⟩⟩ := (typed_iff _).mp hty
      rw [ht] at hn
      exact absurd hn (by simp)
  · exact Or.inr ⟨_, ht.trans (formatTypes_keeps _ _ hq).1⟩

theorem forall₂_right_mem {α β : Type} (R : α → β → Prop) (P : α → Prop) (l1 : List α)
    (l2 : List β) (h : List.Forall₂ R l1 l2) (hP : ∀ a ∈ l1, P a) :
    ∀ b ∈ l2, ∃ a, P a ∧ R a b := by
  intro b hb
  obtain ⟨a, ha, hr⟩ := forall₂_right R l1 l2 h b hb
  exact ⟨a, hP a ha, hr⟩

theorem header_bytes :
    bytes "\n" ++ bytes "\n" ++ bytes "\n\n" ++ bytes "\n" = bytes "\n\n\n\n\n" := by
  decide

/-- What a rendered class consists of: five newlines, the interface section, then the
struct section, the constructor section, a newline, the method stubs, a newline. -/
theorem renderClass_sections (T : CaseTables) (lib : TemplateLib) (R : List GoString)
    (cl : Class) (out : GoString) (h : renderClass T lib R cl = some out) :
    ∃ c struct constr stubs, prepareClass R cl = some c ∧
      structSection T c = some struct ∧ constructorSection lib c = some constr ∧
      rangeOver (methodStub T lib c.Name) c.Methods = some stubs ∧
      out = bytes "\n\n\n\n\n"
        ++ (if cl.Name = bytes "MediaObject" then [] else
              bytes "\ntype I" ++ cl.Name ++ bytes " interface \x7b\n\t"
                ++ c.Methods.flatMap (signature T) ++ bytes "\n\x7d\n")
        ++ struct ++ constr ++ bytes "\n" ++ stubs ++ bytes "\n" := by
  unfold renderClass at h
  cases hc : prepareClass R cl with
  | none => rw [hc] at h; simp at h
  | some c =>
    rw [hc] at h
    simp only at h
    obtain ⟨hname, -, -, -, hms, -⟩ := prepareClass_spec R cl c hc
    have hi := interfaceSection_eq T c (formatMethods_typed _ _ hms)
    unfold strTemplate at h
    rw [hi] at h
    simp only at h
    cases hs : structSection T c with
    | none => rw [hs] at h; simp at h
    | some struct =>
      rw [hs] at h
      simp only at h
      cases hk : constructorSection lib c with
      | none => rw [hk] at h; simp at h
      | some constr =>
        rw [hk] at h
        simp only at h
        cases hst : rangeOver (methodStub T lib c.Name) c.Methods with
        | none => rw [hst] at h; simp at h
        | some stubs =>
          rw [hst] at h
          simp only [Option.some.injEq] at h
          refine ⟨c, struct, constr, stubs, rfl, hs, hk, hst, ?_⟩
          rw [← h, header_bytes, hname]

/-- The pass renders every well-formed class, whatever the registry holds. -/
theorem renderClass_isSome (T : CaseTables) (lib : TemplateLib) (R : List GoString)
    (cl : Class) (h : wellFormedClass cl = true) :
    ∃ out, renderClass T lib R cl = some out := by
  obtain ⟨c, hc⟩ := prepareClass_isSome R cl h
  obtain ⟨-, -, -, hps, hms, hcs⟩ := prepareClass_spec R cl c hc
  simp only [wellFormedClass, Bool.and_eq_true] at h
  obtain ⟨⟨hwp, hwm⟩, -⟩ := h
  have htyped := formatMethods_typed _ _ hms
  have hnames : ∀ p ∈ c.Properties, ∃ n, idx p (bytes "name") = .str n := by
    intro r hr
    obtain ⟨p, hp, q, hq, hqr⟩ := forall₂_right_mem _ (fun p => wellFormedProperty p = true) _ _
      (remoteProperties_inv R _ _ hps) (fun p hp => List.all_eq_true.mp hwp p hp) r hr
    simp only [wellFormedProperty, Bool.and_eq_true] at hp
    obtain ⟨n, hn⟩ := (isStr_iff _).mp hp.1.2
    exact ⟨n, by rw [rewriteProperty_keeps R q r hqr _ key_name_ne_type,
      (formatTypes_keeps p q hq).2.1, hn]⟩
  obtain ⟨struct, hs⟩ := structSection_isSome T c hnames
  obtain ⟨constr, hk⟩ := constructorSection_isSome lib c (formatProps_typed _ _ hcs)
  obtain ⟨stubs, hst⟩ := rangeOver_isSome (methodStub T lib c.Name) c.Methods (fun r hr => by
    obtain ⟨m, hm, hmr⟩ := forall₂_right_mem _ (fun m => wellFormedMethod m = true) _ _
      (formatMethods_inv _ _ hms) (fun m hm => List.all_eq_true.mp hwm m hm) r hr
    obtain ⟨ret, hret⟩ := returnText_isSome lib r (formatMethod_return_wf m r hmr hm)
    rw [methodStub_eq T lib c.Name r (htyped r hr), hret]
    exact ⟨_, rfl⟩)
  rw [renderClass, hc]
  simp only [strTemplate, interfaceSection_eq T c htyped, hs, hk, hst]
  exact ⟨_, rfl⟩

/-! ## Method signatures -/

/-- C12 (counterexample): with `MediaState` the only registered complex type, the
parameters of type `HubPort`, a name that is not registered, are emitted as `HubPort`
in the interface and in the stub, not as `IHubPort`; the parameter of the registered
type `MediaState` is emitted as `IMediaState`; and the return type `HubPort` is emitted
as `HubPort`. -/
theorem signature_not_by_registry :
    isComplexType [bytes "MediaState"] (bytes "HubPort") = false ∧
    isComplexType [bytes "MediaState"] (bytes "MediaState") = true ∧
    rendersText (renderClass plainTables goLib [bytes "MediaState"] dispatcherClass)
      "\n\tConnect(source HubPort , sink HubPort)( error)\n" = true ∧
    rendersText (renderClass plainTables goLib [bytes "MediaState"] dispatcherClass)
      "\n\tSetState(state IMediaState)( error)\n" = true ∧
    rendersText (renderClass plainTables goLib [bytes "MediaState"] dispatcherClass)
      "\n\tGetPort()(HubPort, error)\n" = true ∧
    rendersText (renderClass plainTables goLib [bytes "MediaState"] dispatcherClass)
      "\nfunc (elem *Dispatcher) Connect(source HubPort , sink HubPort) ( error) \x7b" = true ∧
    rendersText (renderClass plainTables goLib [bytes "MediaState"] dispatcherClass)
      "\nfunc (elem *Dispatcher) SetState(state IMediaState) ( error) \x7b" = true ∧
    rendersText (renderClass plainTables goLib [bytes "MediaState"] dispatcherClass)
      "\nfunc (elem *Dispatcher) GetPort() (HubPort,  error) \x7b" = true ∧
    rendersText (renderClass plainTables goLib [bytes "MediaState"] dispatcherClass)
      "IHubPort" = false := by
  decide

/-- C12 (amended): the methods the template receives do not depend on the registry, and
in both signatures of every method (interface and stub) a parameter of normalised type
`t` is emitted as `I` + `t` exactly when `t` has more than five bytes, starts with
`Media` and does not end in `Type` (the test of `tplCheckElement`), and as `t`
otherwise, whether or not `t` is a registered complex type; the return type is emitted
as it is stored, never rewritten. -/
theorem signature_by_media_name (T : CaseTables) (lib : TemplateLib) (R : List GoString)
    (cl c : Class) (h : prepareClass R cl = some c) :
    formatMethods cl.Methods = some c.Methods ∧
    ∀ m ∈ c.Methods,
      (∀ e ∈ m.Params, ∃ t, idx e (bytes "type") = .str t ∧
        paramText e = printKey e (bytes "name") ++ bytes " "
          ++ (if isMediaName t then bytes "I" ++ t else t)) ∧
      interfaceMethod T m = some (bytes "\n\t" ++ Title T m.Name ++ bytes "("
        ++ Join (m.Params.map paramText) (bytes " , ") ++ bytes ")("
        ++ (if truthKey m.Return (bytes "type") then
              printKey m.Return (bytes "type") ++ bytes ","
            else [])
        ++ bytes " error)\n\t") ∧
      methodStub T lib c.Name m = (returnText lib m).map (fun ret =>
        bytes "\n" ++ m.Doc ++ bytes " \n"
          ++ (if truthKey m.Return (bytes "doc") then
                bytes "\n// Returns\n" ++ printKey m.Return (bytes "doc") ++ bytes "\n"
              else [])
          ++ bytes "\nfunc (elem *" ++ c.Name ++ bytes ") " ++ Title T m.Name ++ bytes "("
          ++ Join (m.Params.map paramText) (bytes " , ") ++ bytes ") ("
          ++ (if truthKey m.Return (bytes "type") then
                printKey m.Return (bytes "type") ++ bytes ", "
              else [])
          ++ bytes " error) \x7b" ++ requestText m ++ stubTail ret) := by
  obtain ⟨-, -, -, -, hms, -⟩ := prepareClass_spec R cl c h
  refine ⟨hms, ?_⟩
  intro m hm
  have hty := formatMethods_typed _ _ hms m hm
  refine ⟨?_, interfaceMethod_eq T m hty, methodStub_eq T lib c.Name m hty⟩
  intro e he
  obtain ⟨t, ht⟩ := hty e he
  exact ⟨t, ht, by rw [paramText, printKey_str e _ t ht]; rfl⟩

/-- Witness of C12 (amended): the class `Dispatcher` under the registry that holds
`MediaState`. -/
theorem signature_by_media_name_witness :
    ∃ c, prepareClass [bytes "MediaState"] dispatcherClass = some c ∧
      formatMethods dispatcherClass.Methods = some c.Methods ∧
      ∀ m ∈ c.Methods,
        (∀ e ∈ m.Params, ∃ t, idx e (bytes "type") = .str t ∧
          paramText e = printKey e (bytes "name") ++ bytes " "
            ++ (if isMediaName t then bytes "I" ++ t else t)) ∧
        interfaceMethod plainTables m = some (bytes "\n\t" ++ Title plainTables m.Name
          ++ bytes "(" ++ Join (m.Params.map paramText) (bytes " , ") ++ bytes ")("
          ++ (if truthKey m.Return (bytes "type") then
                printKey m.Return (bytes "type") ++ bytes ","
              else [])
          ++ bytes " error)\n\t") ∧
        methodStub plainTables goLib c.Name m = (returnText goLib m).map (fun ret =>
          bytes "\n" ++ m.Doc ++ bytes " \n"
            ++ (if truthKey m.Return (bytes "doc") then
                  bytes "\n// Returns\n" ++ printKey m.Return (bytes "doc") ++ bytes "\n"
                else [])
            ++ bytes "\nfunc (elem *" ++ c.Name ++ bytes ") " ++ Title plainTables m.Name
            ++ bytes "(" ++ Join (m.Params.map paramText) (bytes " , ") ++ bytes ") ("
            ++ (if truthKey m.Return (bytes "type") then
                  printKey m.Return (bytes "type") ++ bytes ", "
                else [])
            ++ bytes " error) \x7b" ++ requestText m ++ stubTail ret) :=
  (fun ⟨c, hc⟩ => ⟨c, hc,
      signature_by_media_name plainTables goLib [bytes "MediaState"] dispatcherClass c hc⟩)
    (prepareClass_isSome [bytes "MediaState"] dispatcherClass (by decide))

/-! ## The interface, the struct and the stubs of a rendered class -/

theorem forall₂_imp_mem {α β : Type} (R S : α → β → Prop) (l1 : List α) (l2 : List β)
    (h : List.Forall₂ R l1 l2) (hi : ∀ a b, R a b → S a b) : List.Forall₂ S l1 l2 := by
  induction h with
  | nil => exact List.Forall₂.nil
  | cons hab _ ih => exact List.Forall₂.cons (hi _ _ hab) ih

theorem forall₂_map_eq {α β γ : Type} (f : α → γ) (g : β → γ) (l1 : List α) (l2 : List β)
    (h : List.Forall₂ (fun a b => g b = f a) l1 l2) : l2.map g = l1.map f := by
  induction h with
  | nil => rfl
  | cons hab _ ih => rw [List.map_cons, List.map_cons, hab, ih]

/-- A formatted method keeps the name of the method and the names of its parameters. -/
theorem formatMethod_names (m r : Method) (h : formatMethod m = some r) :
    r.Name = m.Name ∧ paramNames r = paramNames m := by
  obtain ⟨hn, -, hps, -⟩ := formatMethod_spec m r h
  refine ⟨hn, ?_⟩
  apply forall₂_map_eq
  apply forall₂_imp_mem _ _ _ _ (formatProps_inv _ _ hps)
  intro p q hq
  show strOf (idx q (bytes "name")) = strOf (idx p (bytes "name"))
  rw [(formatTypes_keeps p q hq).2.1]

theorem formatMethods_names (ms rs : List Method) (h : formatMethods ms = some rs) :
    List.Forall₂ (fun m r => r.Name = m.Name ∧ paramNames r = paramNames m) ms rs :=
  forall₂_imp_mem _ _ _ _ (formatMethods_inv ms rs h) (fun m r => formatMethod_names m r)

theorem struct_head_bytes : bytes " struct \x7b\n\t" = bytes " struct \x7b" ++ bytes "\n\t" := by
  decide

/-- C13: whenever a class is rendered, the output starts with five newlines followed, for
a class not named `MediaObject`, by the interface `I` + class name holding exactly one
signature per declared method, in declaration order, each of the form title-cased method
name, parameters in parentheses, then in parentheses the return type and a comma if
there is one, and `error`; for `MediaObject` nothing stands between the five newlines and
the doc of the struct. The formatted methods keep the declared names, and a well-formed
class is rendered. -/
theorem renderClass_interface (T : CaseTables) (lib : TemplateLib) (R : List GoString)
    (cl : Class) :
    (∀ out, renderClass T lib R cl = some out →
      ∃ ms rest, formatMethods cl.Methods = some ms ∧
        List.Forall₂ (fun m r => r.Name = m.Name ∧ paramNames r = paramNames m)
          cl.Methods ms ∧
        out = bytes "\n\n\n\n\n"
          ++ (if cl.Name = bytes "MediaObject" then [] else
                bytes "\ntype I" ++ cl.Name ++ bytes " interface \x7b\n\t"
                  ++ ms.flatMap (fun m =>
                      bytes "\n\t" ++ Title T m.Name ++ bytes "(" ++ paramList m.Params
                        ++ bytes ")("
                        ++ (if truthKey m.Return (bytes "type") then
                              printKey m.Return (bytes "type") ++ bytes ","
                            else [])
                        ++ bytes " error)\n\t")
                  ++ bytes "\n\x7d\n")
          ++ bytes "\n\n" ++ formatDoc cl.Doc ++ bytes "\ntype " ++ cl.Name
          ++ bytes " struct \x7b" ++ rest) ∧
    (wellFormedClass cl = true → ∃ out, renderClass T lib R cl = some out) := by
  refine ⟨?_, renderClass_isSome T lib R cl⟩
  intro out h
  obtain ⟨c, struct, constr, stubs, hc, hs, -, -, hout⟩ := renderClass_sections T lib R cl out h
  obtain ⟨hname, hdoc, -, -, hms, -⟩ := prepareClass_spec R cl c hc
  have hstruct := structSection_eq T c struct hs
  rw [hname, hdoc, struct_head_bytes] at hstruct
  refine ⟨c.Methods, bytes "\n\t"
    ++ (if cl.Name = bytes "MediaObject" then bytes "connection *Connection\n\t"
        else bytes " " ++ c.Extends ++ bytes "\n\t")
    ++ bytes "\n\t\n\t" ++ c.Properties.flatMap (fieldText T) ++ bytes "\n\x7d\n"
    ++ constr ++ bytes "\n" ++ stubs ++ bytes "\n", hms, formatMethods_names _ _ hms, ?_⟩
  rw [hout, hstruct]
  delta signature returnPart
  simp only [List.append_assoc]

/-- Witness of C13: the class `Shape` is rendered with the interface `IShape` holding
the one signature `Move(to Point)( error)`, and a class named `MediaObject` with the
same method is rendered without an interface. -/
theorem renderClass_interface_witness :
    (∃ out, renderClass plainTables goLib [bytes "Point"] shapeClass = some out ∧
      ∃ ms rest, formatMethods shapeClass.Methods = some ms ∧
        List.Forall₂ (fun m r => r.Name = m.Name ∧ paramNames r = paramNames m)
          shapeClass.Methods ms ∧
        out = bytes "\n\n\n\n\n"
          ++ (if shapeClass.Name = bytes "MediaObject" then [] else
                bytes "\ntype I" ++ shapeClass.Name ++ bytes " interface \x7b\n\t"
                  ++ ms.flatMap (fun m =>
                      bytes "\n\t" ++ Title plainTables m.Name ++ bytes "("
                        ++ paramList m.Params ++ bytes ")("
                        ++ (if truthKey m.Return (bytes "type") then
                              printKey m.Return (bytes "type") ++ bytes ","
                            else [])
                        ++ bytes " error)\n\t")
                  ++ bytes "\n\x7d\n")
          ++ bytes "\n\n" ++ formatDoc shapeClass.Doc ++ bytes "\ntype " ++ shapeClass.Name
          ++ bytes " struct \x7b" ++ rest) ∧
    rendersText (renderClass plainTables goLib [bytes "Point"] shapeClass)
      "\n\n\n\n\n\ntype IShape interface \x7b\n\t\n\tMove(to Point)( error)\n\t\n\x7d\n\n\n/**/\ntype Shape struct \x7b"
      = true ∧
    rendersText (renderClass plainTables goLib [bytes "Point"]
        (classOf "MediaObject" "" [] shapeClass.Methods []))
      "\n\n\n\n\n\n\n/**/\ntype MediaObject struct \x7b" = true :=
  ⟨(fun ⟨out, h⟩ => ⟨out, h,
      (renderClass_interface plainTables goLib [bytes "Point"] shapeClass).1 out h⟩)
    ((renderClass_interface plainTables goLib [bytes "Point"] shapeClass).2 (by decide)),
    by decide, by decide⟩

/-- A parameter whose name is a JSON null is written as `<no value>`, in the interface
and in the stub, as the template library prints a nil entry of a map; so is an entry
that is absent. -/
theorem renderClass_null_name :
    wellFormedClass nullNameClass = true ∧
    printKey [] (bytes "name") = bytes "<no value>" ∧
    rendersText (renderClass plainTables goLib [] nullNameClass)
      "\n\tM(<no value> int)( error)\n" = true ∧
    rendersText (renderClass plainTables goLib [] nullNameClass)
      "\nfunc (elem *Shape) M(<no value> int) ( error) \x7b" = true ∧
    rendersText (renderClass plainTables goLib [] nullNameClass) "<nil>" = false := by
  decide

theorem remoteProperties_names (R : List GoString) (ps rs : List Props)
    (h : remoteProperties R ps = some rs) :
    List.Forall₂ (fun p r => idx r (bytes "name") = idx p (bytes "name")) ps rs := by
  apply forall₂_imp_mem _ _ _ _ (remoteProperties_inv R ps rs h)
  rintro p r ⟨q, hq, hr⟩
  rw [rewriteProperty_keeps R q r hr _ key_name_ne_type, (formatTypes_keeps p q hq).2.1]

/-- C14 (counterexample): the class `Shape`, whose `Extends` is empty, is rendered with
a struct whose first line holds a blank only and no `connection *Connection`; and a
class named `MediaObject` that extends `Base` is rendered with `connection *Connection`
as the first field and without the embedded `Base`. -/
theorem struct_first_field_by_name :
    shapeClass.Extends = [] ∧
    rendersText (renderClass plainTables goLib [bytes "Point"] shapeClass)
      "\ntype Shape struct \x7b\n\t \n\t\n\t\n\t\n\t/**/\n\tCenter *Point\n\t\n\x7d\n" = true ∧
    rendersText (renderClass plainTables goLib [bytes "Point"] shapeClass)
      "connection *Connection" = false ∧
    rendersText (renderClass plainTables goLib []
        (classOf "MediaObject" "Base" [property "id" "String" (bytes "")] [] []))
      "\ntype MediaObject struct \x7b\n\tconnection *Connection\n\t\n\t\n\t\n\t/**/\n\tId string\n\t\n\x7d\n"
      = true ∧
    rendersText (renderClass plainTables goLib []
        (classOf "MediaObject" "Base" [property "id" "String" (bytes "")] [] []))
      "Base" = false := by
  decide

/-- C14 (amended): whenever a class is rendered, the struct `type` + name follows the
interface section and the formatted doc, and its first field is `connection *Connection`
when the class is named `MediaObject` and otherwise the embedded base named by `Extends`
(a line with a blank only when `Extends` is empty); then come the declared own
properties, in declaration order, each as its doc, its title-cased name and its
rewritten type; after the struct come the constructor section and the method stubs.  A
well-formed class is rendered. -/
theorem renderClass_struct (T : CaseTables) (lib : TemplateLib) (R : List GoString)
    (cl : Class) :
    (∀ out, renderClass T lib R cl = some out →
      ∃ c constr stubs, prepareClass R cl = some c ∧
        List.Forall₂ (fun p r => idx r (bytes "name") = idx p (bytes "name"))
          cl.Properties c.Properties ∧
        constructorSection lib c = some constr ∧
        rangeOver (methodStub T lib c.Name) c.Methods = some stubs ∧
        out = bytes "\n\n\n\n\n"
          ++ (if cl.Name = bytes "MediaObject" then [] else
                bytes "\ntype I" ++ cl.Name ++ bytes " interface \x7b\n\t"
                  ++ c.Methods.flatMap (signature T) ++ bytes "\n\x7d\n")
          ++ bytes "\n\n" ++ formatDoc cl.Doc
          ++ bytes "\ntype " ++ cl.Name ++ bytes " struct \x7b\n\t"
          ++ (if cl.Name = bytes "MediaObject" then bytes "connection *Connection\n\t"
              else bytes " " ++ cl.Extends ++ bytes "\n\t")
          ++ bytes "\n\t\n\t"
          ++ c.Properties.flatMap (fun p =>
              bytes "\n\t" ++ printKey p (bytes "doc") ++ bytes "\n\t"
                ++ Title T (strOf (idx p (bytes "name"))) ++ bytes " "
                ++ printKey p (bytes "type") ++ bytes "\n\t")
          ++ bytes "\n\x7d\n" ++ constr ++ bytes "\n" ++ stubs ++ bytes "\n") ∧
    (wellFormedClass cl = true → ∃ out, renderClass T lib R cl = some out) := by
  refine ⟨?_, renderClass_isSome T lib R cl⟩
  intro out h
  obtain ⟨c, struct, constr, stubs, hc, hs, hk, hst, hout⟩ :=
    renderClass_sections T lib R cl out h
  obtain ⟨hname, hdoc, hext, hps, -, -⟩ := prepareClass_spec R cl c hc
  have hstruct := structSection_eq T c struct hs
  rw [hname, hdoc, hext] at hstruct
  refine ⟨c, constr, stubs, hc, remoteProperties_names R _ _ hps, hk, hst, ?_⟩
  rw [hout, hstruct]
  delta fieldText
  simp only [List.append_assoc]

/-- Witness of C14 (amended): the class `Shape` under the registry that holds
`Point`. -/
theorem renderClass_struct_witness :
    ∃ out, renderClass plainTables goLib [bytes "Point"] shapeClass = some out ∧
      ∃ c constr stubs, prepareClass [bytes "Point"] shapeClass = some c ∧
        List.Forall₂ (fun p r => idx r (bytes "name") = idx p (bytes "name"))
          shapeClass.Properties c.Properties ∧
        constructorSection goLib c = some constr ∧
        rangeOver (methodStub plainTables goLib c.Name) c.Methods = some stubs ∧
        out = bytes "\n\n\n\n\n"
          ++ (if shapeClass.Name = bytes "MediaObject" then [] else
                bytes "\ntype I" ++ shapeClass.Name ++ bytes " interface \x7b\n\t"
                  ++ c.Methods.flatMap (signature plainTables) ++ bytes "\n\x7d\n")
          ++ bytes "\n\n" ++ formatDoc shapeClass.Doc
          ++ bytes "\ntype " ++ shapeClass.Name ++ bytes " struct \x7b\n\t"
          ++ (if shapeClass.Name = bytes "MediaObject" then bytes "connection *Connection\n\t"
              else bytes " " ++ shapeClass.Extends ++ bytes "\n\t")
          ++ bytes "\n\t\n\t"
          ++ c.Properties.flatMap (fun p =>
              bytes "\n\t" ++ printKey p (bytes "doc") ++ bytes "\n\t"
                ++ Title plainTables (strOf (idx p (bytes "name"))) ++ bytes " "
                ++ printKey p (bytes "type") ++ bytes "\n\t")
          ++ bytes "\n\x7d\n" ++ constr ++ bytes "\n" ++ stubs ++ bytes "\n" :=
  (fun ⟨out, h⟩ => ⟨out, h,
      (renderClass_struct plainTables goLib [bytes "Point"] shapeClass).1 out h⟩)
    ((renderClass_struct plainTables goLib [bytes "Point"] shapeClass).2 (by decide))

/-! ## The request of a method stub -/

/-- C18: whenever a class whose declared parameters have string names is rendered, the
output ends with one stub per declared method, in declaration order, and the stub of a
method builds the request of `requestOf`: one `setIfNotEmpty(params, "name", name)` call
per declared parameter, in declaration order and under the schema name, and a `params`
map with `operation` equal to the method name as declared (not title-cased), `object`
equal to `elem.Id` and, when the method declares parameters, `operationParams` holding
the map `params`.  A well-formed class is rendered; for `move(to: Point)` the request
holds `"operation": "move"`, `"object": elem.Id` and `"operationParams": params`, with
`to` entered into `params`. -/
theorem renderClass_request (T : CaseTables) (lib : TemplateLib) (R : List GoString)
    (cl : Class)
    (hn : namedParams cl = true) :
    (∀ out, renderClass T lib R cl = some out →
      ∃ ms front, formatMethods cl.Methods = some ms ∧
        List.Forall₂ (fun m r => r.Name = m.Name ∧ paramNames r = paramNames m)
          cl.Methods ms ∧
        out = front
          ++ ms.flatMap (fun m => stubHead T cl.Name m ++ requestOf m.Name (paramNames m)
              ++ stubTail ((returnText lib m).getD []))
          ++ bytes "\n") ∧
    (wellFormedClass cl = true → ∃ out, renderClass T lib R cl = some out) ∧
    rendersText (renderClass plainTables goLib [bytes "Point"] shapeClass)
      "\n\treq := elem.getInvokeRequest()\n\t\n\tparams := make(map[string]interface\x7b\x7d)\n\t\n\tsetIfNotEmpty(params, \"to\", to)\n\t\n\t\n\n\treq[\"params\"] = map[string]interface\x7b\x7d \x7b\n\t\t\"operation\": \"move\",\n\t\t\"object\": elem.Id, \n\t\t\n\t\t\"operationParams\": params,\n\t\t\n\t\x7d\n"
      = true := by
  refine ⟨?_, renderClass_isSome T lib R cl, by decide⟩
  intro out h
  obtain ⟨c, struct, constr, stubs, hc, -, -, hst, hout⟩ :=
    renderClass_sections T lib R cl out h
  obtain ⟨hname, -, -, -, hms, -⟩ := prepareClass_spec R cl c hc
  have hnames := formatMethods_names _ _ hms
  have htyped := formatMethods_typed _ _ hms
  obtain ⟨hstubs, hall⟩ := rangeOver_eq _ _ _ hst
  have hstr : ∀ r ∈ c.Methods, ∀ p ∈ r.Params, ∃ n, idx p (bytes "name") = .str n := by
    intro r hr p hp
    obtain ⟨m, hm, hmr⟩ := forall₂_right _ _ _ (formatMethods_inv _ _ hms) r hr
    obtain ⟨p0, hp0, hpq⟩ := forall₂_right _ _ _
      (formatProps_inv _ _ (formatMethod_spec m r hmr).2.2.1) p hp
    obtain ⟨n, hn0⟩ := (isStr_iff _).mp
      (List.all_eq_true.mp (List.all_eq_true.mp hn m hm) p0 hp0)
    exact ⟨n, by rw [(formatTypes_keeps p0 p hpq).2.1, hn0]⟩
  have hflat : stubs = c.Methods.flatMap (fun m => stubHead T cl.Name m
      ++ requestOf m.Name (paramNames m) ++ stubTail ((returnText lib m).getD [])) := by
    rw [hstubs]
    apply flatMap_congr_mem
    intro m hm
    obtain ⟨o, ho⟩ := hall m hm
    rw [methodStub_eq T lib c.Name m (htyped m hm)] at ho ⊢
    cases hr : returnText lib m with
    | none => rw [hr] at ho; simp at ho
    | some ret =>
      simp only [Option.map_some', Option.getD_some, requestText_eq m (hstr m hm), hname]
  exact ⟨c.Methods, _, hms, hnames, by rw [hout, hflat]⟩

/-- Witness of C18: the class `Shape` with the method `move(to: Point)`. -/
theorem renderClass_request_witness :
    ∃ out, renderClass plainTables goLib [bytes "Point"] shapeClass = some out ∧
      ∃ ms front, formatMethods shapeClass.Methods = some ms ∧
        List.Forall₂ (fun m r => r.Name = m.Name ∧ paramNames r = paramNames m)
          shapeClass.Methods ms ∧
        out = front
          ++ ms.flatMap (fun m => stubHead plainTables shapeClass.Name m
              ++ requestOf m.Name (paramNames m)
              ++ stubTail ((returnText goLib m).getD []))
          ++ bytes "\n" :=
  (fun ⟨out, h⟩ => ⟨out, h,
      (renderClass_request plainTables goLib [bytes "Point"] shapeClass (by decide)).1 out h⟩)
    ((renderClass_request plainTables goLib [bytes "Point"] shapeClass (by decide)).2.1
      (by decide))

/-! ## The return statement and the constructor parameters -/

/-- C19 (the code at the failing input): a method without return gives
`return response.Error`; the return types `String`, `int`, `float` and `double` give the
direct read of `response.Result["value"]`; the reference `Point` and the collection
`Point[]` give a zero value `Point{}`, `[]Point{}`; but the return type `boolean`,
normalised to `bool`, is not among the names the template tests (`string`, `int`,
`float64`, `boolean`) and gives `ret := bool{}`. -/
theorem returnText_bool :
    returnRendered [] = some (bytes "\n\treturn response.Error\n\t") ∧
    returnRendered (returnOf "String") = some (bytes
      "\n\t/**/\n\t\t\n\t\treturn response.Result[\"value\"], response.Error\n\t\t\n\t") ∧
    returnRendered (returnOf "int") = some (bytes
      "\n\t/**/\n\t\t\n\t\treturn response.Result[\"value\"], response.Error\n\t\t\n\t") ∧
    returnRendered (returnOf "float") = some (bytes
      "\n\t/**/\n\t\t\n\t\treturn response.Result[\"value\"], response.Error\n\t\t\n\t") ∧
    returnRendered (returnOf "double") = some (bytes
      "\n\t/**/\n\t\t\n\t\treturn response.Result[\"value\"], response.Error\n\t\t\n\t") ∧
    returnRendered (returnOf "Point") = some (bytes
      "\n\t/**/\n\t\t\n\t\tret := Point\x7b\x7d\n\t\treturn ret, response.Error\n\t\t\n\t") ∧
    returnRendered (returnOf "Point[]") = some (bytes
      "\n\t/**/\n\t\t\n\t\tret := []Point\x7b\x7d\n\t\treturn ret, response.Error\n\t\t\n\t") ∧
    (formatTypes (returnOf "boolean")).map (fun r => idx r (bytes "type"))
      = some (.str (bytes "bool")) ∧
    returnRendered (returnOf "boolean") = some (bytes
      "\n\t/**/\n\t\t\n\t\tret := bool\x7b\x7d\n\t\treturn ret, response.Error\n\t\t\n\t") := by
  decide

/-- C20 (the code at the failing input): a class without constructor parameters gets
`return options`; for the constructor of `PlayerEndpoint` the map holds one entry per
parameter, in order, the string `uri` with its synthesised default `""` and the int
`networkCache` with its declared default 2000, the reference `mediaPipeline` with
`fmt.Sprintf("%s", from)`; but the parameter `useEncodedMedia` of type `boolean`,
normalised to `bool`, is not among the names the template tests (`string`, `float64`,
`boolean`, `int`) and is seeded with `fmt.Sprintf("%s", from)` too, not with its default
`false`. -/
theorem constructor_bool_param :
    rendersText (renderClass plainTables goLib [] (classOf "Shape" "" [] [] []))
      "\nfunc (elem *Shape) getConstuctorParams(from IMediaObject, options map[string]interface\x7b\x7d) map[string]interface\x7b\x7d \x7b\n\treturn options\n\t\n\x7d\n"
      = true ∧
    rendersText (renderClass plainTables goLib [] playerClass)
      "\nfunc (elem *PlayerEndpoint) getConstuctorParams(from IMediaObject, options map[string]interface\x7b\x7d) map[string]interface\x7b\x7d \x7b\n\t\n\n\t// Create basic constructor params\n\tret := map[string]interface\x7b\x7d \x7b\n\t\t \"mediaPipeline\" : fmt.Sprintf(\"%s\", from),\n\t\t\"uri\" : \"\",\n\t\t \"useEncodedMedia\" : fmt.Sprintf(\"%s\", from),\n\t\t\"networkCache\" : 2000,\n\t\t\n\t\x7d\n\t\n\tmergeOptions(ret, options)\n\treturn ret\n\t\n\x7d\n"
      = true ∧
    (formatTypes (property "useEncodedMedia" "boolean" (bytes ""))).map
        (fun r => (idx r (bytes "type"), idx r (bytes "defaultValue")))
      = some (.str (bytes "bool"), .str (bytes "false")) ∧
    entryRendered (property "useEncodedMedia" "boolean" (bytes ""))
      = some (bytes " \"useEncodedMedia\" : fmt.Sprintf(\"%s\", from),\n\t\t") ∧
    entryRendered (property "uri" "String" (bytes "")) = some (bytes "\"uri\" : \"\",\n\t\t") ∧
    entryRendered (property "n" "int" (bytes "")) = some (bytes "\"n\" : 0,\n\t\t") ∧
    entryRendered (property "f" "double" (bytes "")) = some (bytes "\"f\" : 0,\n\t\t") := by
  decide

/-! ## The two passes of a run -/

theorem classesLoop_inv (T : CaseTables) (lib : TemplateLib) (R : List GoString)
    (cls : List Class) (outs : List GoString) (h : classesLoop T lib R cls = some outs) :
    List.Forall₂ (fun cl out => renderClass T lib R cl = some out) cls outs := by
  induction cls generalizing outs with
  | nil =>
    simp only [classesLoop, Option.some.injEq] at h
    subst h
    exact List.Forall₂.nil
  | cons cl rest ih =>
    rw [classesLoop] at h
    cases ho : renderClass T lib R cl with
    | none => rw [ho] at h; simp at h
    | some out =>
      rw [ho] at h
      simp only at h
      cases hr : classesLoop T lib R rest with
      | none => rw [hr] at h; simp at h
      | some more =>
        rw [hr] at h
        simp only [Option.some.injEq] at h
        subst h
        exact List.Forall₂.cons ho (ih more hr)

theorem classesLoop_isSome (T : CaseTables) (lib : TemplateLib) (R : List GoString)
    (cls : List Class) (h : cls.all wellFormedClass = true) :
    ∃ outs, classesLoop T lib R cls = some outs := by
  induction cls with
  | nil => exact ⟨[], rfl⟩
  | cons cl rest ih =>
    rw [List.all_cons, Bool.and_eq_true] at h
    obtain ⟨out, ho⟩ := renderClass_isSome T lib R cl h.1
    obtain ⟨more, hm⟩ := ih h.2
    exact ⟨out :: more, by rw [classesLoop, ho]; simp only [hm]⟩

/-- The remote-class pass leaves the registry as it finds it and writes, for each path
in order, the file of the classes of that path rendered under that registry. -/
theorem remotePathsLoop_spec (T : CaseTables) (lib : TemplateLib) (W : World)
    (paths : List GoString) (st st2 : State)
    (h : remotePathsLoop T lib W paths st = some st2) :
    st2.CPXTYPES = st.CPXTYPES ∧
    ∃ written, st2.files = st.files ++ written ∧
      List.Forall₂ (fun path f => ∃ core outs, W.getModel path = some core ∧
        classesLoop T lib st.CPXTYPES core.RemoteClasses = some outs ∧
        f = (createFile T path [], fileContent outs)) paths written := by
  induction paths generalizing st with
  | nil =>
    simp only [remotePathsLoop, Option.some.injEq] at h
    subst h
    exact ⟨rfl, [], by simp, List.Forall₂.nil⟩
  | cons p rest ih =>
    rw [remotePathsLoop] at h
    cases hc : W.getModel p with
    | none => rw [hc] at h; simp at h
    | some core =>
      rw [hc] at h
      simp only at h
      cases ho : classesLoop T lib st.CPXTYPES core.RemoteClasses with
      | none => rw [ho] at h; simp at h
      | some ret =>
        rw [ho] at h
        simp only at h
        obtain ⟨h1, written, h2, h3⟩ := ih _ h
        refine ⟨h1, (createFile T p [], fileContent ret) :: written, ?_, ?_⟩
        · rw [h2]
          simp
        · exact List.Forall₂.cons ⟨core, ret, hc, ho, rfl⟩ h3

theorem remotePathsLoop_isSome (T : CaseTables) (lib : TemplateLib) (W : World)
    (paths : List GoString) (st : State)
    (h : ∀ path ∈ paths, ∃ core, W.getModel path = some core ∧
      core.RemoteClasses.all wellFormedClass = true) :
    ∃ st2, remotePathsLoop T lib W paths st = some st2 := by
  induction paths generalizing st with
  | nil => exact ⟨st, rfl⟩
  | cons p rest ih =>
    obtain ⟨core, hc, hw⟩ := h p (List.mem_cons_self _ _)
    obtain ⟨ret, ho⟩ := classesLoop_isSome T lib st.CPXTYPES core.RemoteClasses hw
    obtain ⟨st2, h2⟩ := ih
      { CPXTYPES := st.CPXTYPES,
        files := st.files ++ [(createFile T p [], fileContent ret)] }
      (fun path hp => h path (List.mem_cons_of_mem _ hp))
    exact ⟨st2, by rw [remotePathsLoop, hc]; simp only [ho]; exact h2⟩

/-- The registry after the complex-type pass, from any starting state: the names
declared by the files of all patterns, appended in processing order. -/
theorem parseComplexTypes_names (T : CaseTables) (W : World) (complexs : List GoString)
    (suffix : GoString) (st0 st1 : State)
    (h : parseComplexTypes T W complexs suffix st0 = some st1) :
    globAll W complexs = some (pathsOf W complexs) ∧
    st1.CPXTYPES = st0.CPXTYPES ++ declaredNames W (pathsOf W complexs) := by
  rw [parseComplexTypes] at h
  cases hpaths : globAll W complexs with
  | none => rw [hpaths] at h; simp at h
  | some paths =>
    rw [hpaths] at h
    simp only at h
    have hpe : paths = pathsOf W complexs := globAll_eq W complexs paths hpaths
    cases hr : pathsLoop T W suffix paths (st0, []) with
    | none => rw [hr] at h; simp at h
    | some r =>
      rw [hr] at h
      simp only [Option.some.injEq] at h
      subst h
      refine ⟨by rw [hpe], ?_⟩
      rw [← hpe]
      exact pathsLoop_names T W suffix paths _ r hr

theorem wellFormedWorld_spec (W : World) (pats : List GoString)
    (h : wellFormedWorld W pats = true) :
    (∀ pat ∈ pats, ∃ pathList, W.glob pat = some pathList) ∧
    ∀ path ∈ pathsOf W pats, ∃ core, W.getModel path = some core ∧
      (∀ cts, core.ComplexTypes = some cts → ∀ ct ∈ cts, ∀ p ∈ ct.Properties,
        (∃ d, idx p (bytes "doc") = .str d) ∧ ∃ t, idx p (bytes "type") = .str t) ∧
      core.RemoteClasses.all wellFormedClass = true := by
  simp only [wellFormedWorld, Bool.and_eq_true] at h
  obtain ⟨hg, hm⟩ := h
  constructor
  · intro pat hpat
    have := List.all_eq_true.mp hg pat hpat
    exact Option.isSome_iff_exists.mp this
  · intro path hpath
    have := List.all_eq_true.mp hm path hpath
    cases hc : W.getModel path with
    | none => rw [hc] at this; simp at this
    | some core =>
      rw [hc] at this
      simp only [Bool.and_eq_true] at this
      refine ⟨core, rfl, ?_, this.2⟩
      intro cts hcts ct hct p hp
      have h1 := this.1
      rw [hcts] at h1
      exact (typed_iff p).mp
        (List.all_eq_true.mp (List.all_eq_true.mp h1 ct hct) p hp)

theorem parseComplexTypes_isSome (T : CaseTables) (W : World) (complexs : List GoString)
    (suffix : GoString) (st0 : State) (h : wellFormedWorld W complexs = true) :
    ∃ st1, parseComplexTypes T W complexs suffix st0 = some st1 := by
  obtain ⟨hg, hm⟩ := wellFormedWorld_spec W complexs h
  obtain ⟨paths, hpaths⟩ := globAll_isSome W complexs hg
  have hpe : paths = pathsOf W complexs := globAll_eq W complexs paths hpaths
  obtain ⟨r, hr, -⟩ := pathsLoop_spec T W suffix paths (st0, []) (fun path hp => by
    rw [hpe] at hp
    obtain ⟨core, hc, hty, -⟩ := hm path hp
    exact ⟨core, hc, hty⟩)
  exact ⟨r.1, by rw [parseComplexTypes, hpaths]; simp only [hr]⟩

/-- C11 (counterexample): in the full run where the core file declares the class `Shape`
with a property `center: Point` and a file processed after it declares the complex type
`Point`, the registry holds `Point` when the class is emitted, and the field is emitted
as `Center *Point`, a pointer: neither the value form `Center Point` nor the capability
form `Center IPoint`. -/
theorem main_field_pointer :
    (main plainTables goLib shapeWorld (some ([], []))).map State.CPXTYPES
      = some [bytes "Point"] ∧
    rendersText ((main plainTables goLib shapeWorld (some ([], []))).bind
        (fun st => fileNamed st (bytes "kurento/core.go"))) "\n\tCenter *Point\n" = true ∧
    rendersText ((main plainTables goLib shapeWorld (some ([], []))).bind
        (fun st => fileNamed st (bytes "kurento/core.go"))) "Center Point" = false ∧
    rendersText ((main plainTables goLib shapeWorld (some ([], []))).bind
        (fun st => fileNamed st (bytes "kurento/core.go"))) "IPoint" = false := by
  decide

/-- C11 (amended): whenever a full run ends, the complex-type pass over all files has
ended before the remote-class pass starts; the registry it leaves holds the names of the
complex types declared in all files, those processed after the file that declares a class
included; every class of every file is rendered under that registry; and for every such
name `n`, `isComplexType` is true and a class property whose normalised type is `n` (a
name of at least two bytes, other than `string`, `float64` and `bool`, that is not a
collection) gets the type `*` + `n`, the pointer to the registered type, not the
capability form `I` + `n`.  A run over a well-formed world ends. -/
theorem main_registry_complete (T : CaseTables) (lib : TemplateLib) (W : World)
    (base : Option (GoString × GoString)) :
    (∀ st, main T lib W base = some st →
      ∃ b st1, base = some b ∧
        parseComplexTypes T W complexList (bytes "complext_types") (startState b)
          = some st1 ∧
        parseRemotes T lib W complexList st1 = some st ∧
        st1.CPXTYPES = declaredNames W (pathsOf W complexList) ∧
        (∃ written, st.files = st1.files ++ written ∧
          List.Forall₂ (fun path f => ∃ core outs, W.getModel path = some core ∧
            List.Forall₂ (fun cl out => renderClass T lib st1.CPXTYPES cl = some out)
              core.RemoteClasses outs ∧
            f = (createFile T path [], fileContent outs)) (pathsOf W complexList) written) ∧
        ∀ n ∈ declaredNames W (pathsOf W complexList),
          isComplexType st1.CPXTYPES n = true ∧
          (isReferenceName n = true → ∀ q, idx q (bytes "type") = .str n →
            rewriteProperty st1.CPXTYPES q
              = some (setKey q (bytes "type") (.str (bytes "*" ++ n))))) ∧
    (wellFormedWorld W complexList = true → base.isSome = true →
      ∃ st, main T lib W base = some st) := by
  constructor
  · intro st h
    unfold main at h
    cases hb : base with
    | none => rw [hb] at h; simp at h
    | some b =>
      rw [hb] at h
      simp only at h
      cases h1 : parseComplexTypes T W complexList (bytes "complext_types")
          { CPXTYPES := [],
            files := [(bytes "kurento/base.go", b.1), (bytes "kurento/kurento_ws.go", b.2)] } with
      | none => rw [h1] at h; simp at h
      | some st1 =>
        rw [h1] at h
        simp only at h
        obtain ⟨hglob, hnames⟩ := parseComplexTypes_names T W complexList _ _ st1 h1
        have hreg : st1.CPXTYPES = declaredNames W (pathsOf W complexList) := by
          rw [hnames]
          rfl
        have h2 := h
        unfold parseRemotes at h2
        rw [hglob] at h2
        simp only at h2
        obtain ⟨-, written, hfiles, hall⟩ := remotePathsLoop_spec T lib W _ st1 st h2
        refine ⟨b, st1, rfl, h1, h, hreg, ⟨written, hfiles, ?_⟩, ?_⟩
        · apply forall₂_imp_mem _ _ _ _ hall
          rintro path f ⟨core, outs, hc, ho, hf⟩
          exact ⟨core, outs, hc, classesLoop_inv T lib _ _ _ ho, hf⟩
        · intro n hn
          have hin : isComplexType st1.CPXTYPES n = true := by
            rw [isComplexType_iff, hreg]
            exact hn
          refine ⟨hin, ?_⟩
          intro href q hq
          rw [rewriteProperty_single st1.CPXTYPES q n hq href, hin]
          rfl
  · intro hw hb
    obtain ⟨b, hb2⟩ := Option.isSome_iff_exists.mp hb
    obtain ⟨st1, h1⟩ := parseComplexTypes_isSome T W complexList (bytes "complext_types")
      (startState b) hw
    obtain ⟨hglob, -⟩ := parseComplexTypes_names T W complexList _ _ st1 h1
    obtain ⟨-, hm⟩ := wellFormedWorld_spec W complexList hw
    obtain ⟨st, h2⟩ := remotePathsLoop_isSome T lib W (pathsOf W complexList) st1
      (fun path hp => by
        obtain ⟨core, hc, -, hcl⟩ := hm path hp
        exact ⟨core, hc, hcl⟩)
    refine ⟨st, ?_⟩
    rw [hb2]
    unfold main
    simp only
    have h1b : parseComplexTypes T W complexList (bytes "complext_types")
        { CPXTYPES := [],
          files := [(bytes "kurento/base.go", b.1), (bytes "kurento/kurento_ws.go", b.2)] }
        = some st1 := h1
    rw [h1b]
    simp only [parseRemotes, hglob]
    exact h2

/-- Witness of C11 (amended): the run over the world of `Shape` and `Point` ends, with
the registry holding `Point` although its file comes after the file of `Shape`. -/
theorem main_registry_complete_witness :
    (∃ st, main plainTables goLib shapeWorld (some ([], [])) = some st ∧
      ∃ b st1, some (([] : GoString), ([] : GoString)) = some b ∧
        parseComplexTypes plainTables shapeWorld complexList (bytes "complext_types")
          (startState b) = some st1 ∧
        parseRemotes plainTables goLib shapeWorld complexList st1 = some st ∧
        st1.CPXTYPES = declaredNames shapeWorld (pathsOf shapeWorld complexList) ∧
        (∃ written, st.files = st1.files ++ written ∧
          List.Forall₂ (fun path f => ∃ core outs, shapeWorld.getModel path = some core ∧
            List.Forall₂ (fun cl out =>
              renderClass plainTables goLib st1.CPXTYPES cl = some out)
              core.RemoteClasses outs ∧
            f = (createFile plainTables path [], fileContent outs))
            (pathsOf shapeWorld complexList) written) ∧
        ∀ n ∈ declaredNames shapeWorld (pathsOf shapeWorld complexList),
          isComplexType st1.CPXTYPES n = true ∧
          (isReferenceName n = true → ∀ q, idx q (bytes "type") = .str n →
            rewriteProperty st1.CPXTYPES q
              = some (setKey q (bytes "type") (.str (bytes "*" ++ n))))) ∧
    declaredNames shapeWorld (pathsOf shapeWorld complexList) = [bytes "Point"] ∧
    pathsOf shapeWorld complexList =
      [bytes "kms-core/src/server/interface/core.kmd.json",
       bytes "kms-elements/src/server/interface/elements.geometry.kmd.json"] :=
  ⟨(fun ⟨st, h⟩ => ⟨st, h,
      (main_registry_complete plainTables goLib shapeWorld (some ([], []))).1 st h⟩)
    ((main_registry_complete plainTables goLib shapeWorld (some ([], []))).2
      (by decide) (by decide)),
    by decide, by decide⟩

/-! ## The output files of a run -/

/-- C23 (the code at the failing input): in the run over the two schema files that both
declare complex types, the complex-type file of `core.kmd.json` is named
`kurento/core_complext_types.go` and that of `elements.geometry.kmd.json`
`kurento/elements_geometry_complext_types.go`: the stem of the class file followed by
the suffix `_complext_types`, the constant `main` passes, not `_complex_types`; a file
without complex types gets no second file. -/
theorem createFile_complext_suffix :
    fileNames (main plainTables goLib twoFilesWorld (some ([], []))) =
      [bytes "kurento/base.go", bytes "kurento/kurento_ws.go",
       bytes "kurento/core_complext_types.go",
       bytes "kurento/elements_geometry_complext_types.go",
       bytes "kurento/core.go", bytes "kurento/elements_geometry.go"] ∧
    fileOf (main plainTables goLib twoFilesWorld (some ([], [])))
      "kurento/core_complex_types.go" = none ∧
    fileOf (main plainTables goLib twoFilesWorld (some ([], [])))
      "kurento/elements_geometry_complex_types.go" = none ∧
    createFile plainTables (bytes "kms-core/src/server/interface/core.kmd.json")
      (bytes "complext_types") = bytes "kurento/core_complext_types.go" ∧
    fileNames (main plainTables goLib shapeWorld (some ([], []))) =
      [bytes "kurento/base.go", bytes "kurento/kurento_ws.go",
       bytes "kurento/elements_geometry_complext_types.go",
       bytes "kurento/core.go", bytes "kurento/elements_geometry.go"] := by
  decide

/-- C24 (the code at the failing input): in the run over two schema files, the first
declaring the complex type `Point` and the second the complex type `Size`, the
complex-type file of the second holds the body of `Point` too, before that of `Size`:
the slice `ret` of `parseComplexTypes` is declared before the loop over the paths and is
never emptied.  The complex-type file of the first file holds `Point` only, and each class
file holds the classes of its own schema only. -/
theorem parseComplexTypes_ret_accumulates :
    fileOf (main plainTables goLib twoFilesWorld (some ([], [])))
      "kurento/core_complext_types.go" = some (bytes
        "package kurento\n\n\ntype Point struct \x7b\n\tX int\n\tY int\n\t\n\x7d\n\n\n") ∧
    fileOf (main plainTables goLib twoFilesWorld (some ([], [])))
      "kurento/elements_geometry_complext_types.go" = some (bytes
        "package kurento\n\n\ntype Point struct \x7b\n\tX int\n\tY int\n\t\n\x7d\n\n\n\n\ntype Size struct \x7b\n\tW int\n\tH int\n\t\n\x7d\n\n\n") ∧
    rendersText (fileOf (main plainTables goLib twoFilesWorld (some ([], [])))
      "kurento/core.go") "type Shape struct" = true ∧
    rendersText (fileOf (main plainTables goLib twoFilesWorld (some ([], [])))
      "kurento/core.go") "type Dispatcher struct" = false ∧
    rendersText (fileOf (main plainTables goLib twoFilesWorld (some ([], [])))
      "kurento/elements_geometry.go") "type Dispatcher struct" = true ∧
    rendersText (fileOf (main plainTables goLib twoFilesWorld (some ([], [])))
      "kurento/elements_geometry.go") "type Shape struct" = false := by
  decide

/-! ## Maps without a doc, comment blocks, markers inside a type -/

/-- C26 (the code at the failing input): on the property `x` of type `int` and on the
parameter `to` of type `Point`, which carry a name and a type and no doc, `formatTypes`
panics (`none`) at the assertion `p["doc"].(string)`; with a doc it returns; and the run
over the end-to-end scenario is aborted in the complex-type pass. -/
theorem formatTypes_without_doc :
    formatTypes (bareProperty "x" "int") = none ∧
    formatTypes (bareProperty "to" "Point") = none ∧
    (formatTypes (property "x" "int" (bytes ""))).isSome = true ∧
    renderComplexType plainTables barePointType = none ∧
    (parseComplexTypes plainTables scenarioWorld complexList (bytes "complext_types")
      (startState ([], []))).isSome = false ∧
    (main plainTables goLib scenarioWorld (some ([], []))).isSome = false := by
  decide

/-- C29 (the code at the failing input): the doc of two asterisks followed by two
slashes gives the line `/*` + `*/` + `*/`, whose body is `*/`: the one pass that removes
`*/` leaves the asterisk before and the slash after the removed pair next to each other,
and the comment block is closed before its end.  Likewise two slashes followed by two
asterisks give a body `/*`.  A doc that holds the delimiters once, as in `a/*b*/c`, gives
the body `abc`. -/
theorem formatDoc_block_closed_early :
    formatDoc (bytes "**//") = bytes "/*" ++ bytes "*/" ++ bytes "*/" ∧
    formatDoc (bytes "//**") = bytes "/*" ++ bytes "/*" ++ bytes "*/" ∧
    formatDoc (bytes "a/*b*/c") = bytes "/*" ++ bytes "abc" ++ bytes "*/" ∧
    Contains (bytes "*/") (bytes "*/") = true := by
  decide

/-- C30 (the code at the failing input): the raw type `a[]b`, which does not end in
`[]`, becomes the collection `[]a` and loses the `b` after the marker; the raw type
`a<>b` becomes `a<`, losing its last two bytes, the `>` of the marker and the `b` after
it; a trailing marker is handled as described: `Foo[]` gives `[]Foo`, `Foo<>` gives
`Foo`, and `Foo` stays. -/
theorem formatTypes_marker_inside :
    typeOf "a[]b" = some (.str (bytes "[]a")) ∧
    typeOf "int[]x" = some (.str (bytes "[]int")) ∧
    typeOf "a<>b" = some (.str (bytes "a<")) ∧
    typeOf "Foo[]" = some (.str (bytes "[]Foo")) ∧
    typeOf "Foo<>" = some (.str (bytes "Foo")) ∧
    typeOf "Foo" = some (.str (bytes "Foo")) := by
  decide

/-! ## Names that resolve to nothing -/

/-- A run over a well-formed world ends. -/
theorem main_ends (T : CaseTables) (lib : TemplateLib) (W : World)
    (base : Option (GoString × GoString)) (hw : wellFormedWorld W complexList = true)
    (hb : base.isSome = true) : ∃ st, main T lib W base = some st := by
  obtain ⟨b, hb2⟩ := Option.isSome_iff_exists.mp hb
  obtain ⟨st1, h1⟩ := parseComplexTypes_isSome T W complexList (bytes "complext_types")
    (startState b) hw
  obtain ⟨hglob, -⟩ := parseComplexTypes_names T W complexList _ _ st1 h1
  obtain ⟨-, hm⟩ := wellFormedWorld_spec W complexList hw
  obtain ⟨st, h2⟩ := remotePathsLoop_isSome T lib W (pathsOf W complexList) st1
    (fun path hp => by
      obtain ⟨core, hc, -, hcl⟩ := hm path hp
      exact ⟨core, hc, hcl⟩)
  refine ⟨st, ?_⟩
  rw [hb2]
  unfold main
  simp only
  have h1b : parseComplexTypes T W complexList (bytes "complext_types")
      { CPXTYPES := [],
        files := [(bytes "kurento/base.go", b.1), (bytes "kurento/kurento_ws.go", b.2)] }
      = some st1 := h1
  rw [h1b]
  simp only [parseRemotes, hglob]
  exact h2

/-- C25 (counterexample): in the world whose only schema file declares the class `Shape`
with a property, a parameter and a return of type `Ghost` and a parameter of type
`MediaGhost`, names that are neither complex types nor classes of the corpus, the run
ends normally and the class file holds the field `Center IGhost`, the signature
`Move(to Ghost , via IMediaGhost)(Ghost, error)`, the same parameters in the stub, and
the return value `Ghost{}`: the names are rendered, no error is raised. -/
theorem main_unresolved_rendered :
    declaredNames ghostWorld (pathsOf ghostWorld complexList) = [] ∧
    (pathsOf ghostWorld complexList).all (fun path =>
      match ghostWorld.getModel path with
      | some core => core.RemoteClasses.all (fun cl =>
          cl.Name != bytes "Ghost" && cl.Name != bytes "MediaGhost")
      | none => false) = true ∧
    (main plainTables goLib ghostWorld (some ([], []))).isSome = true ∧
    rendersText (fileOf (main plainTables goLib ghostWorld (some ([], []))) "kurento/core.go")
      "\n\tCenter IGhost\n" = true ∧
    rendersText (fileOf (main plainTables goLib ghostWorld (some ([], []))) "kurento/core.go")
      "\n\tMove(to Ghost , via IMediaGhost)(Ghost, error)\n" = true ∧
    rendersText (fileOf (main plainTables goLib ghostWorld (some ([], []))) "kurento/core.go")
      "\nfunc (elem *Shape) Move(to Ghost , via IMediaGhost) (Ghost,  error) \x7b" = true ∧
    rendersText (fileOf (main plainTables goLib ghostWorld (some ([], []))) "kurento/core.go")
      "\n\t\tret := Ghost\x7b\x7d\n" = true := by
  decide

/-- C25 (amended): emission has no resolution check.  A run over a well-formed world
(every pattern well formed, every file read and parsed, every doc and type a string)
ends normally whether or not the type names resolve; a class property whose normalised
type is a name `n` that is not a registered complex type (a name of at least two bytes,
other than `string`, `float64` and `bool`, that is not a collection) gets the type `I` +
`n`, whether or not a class `n` exists; and in both signatures of every method (interface
and stub) a parameter of normalised type `t` is written as `I` + `t` exactly when `t`
has more than five bytes, starts with `Media` and does not end in `Type` (the test of
`tplCheckElement`), and as `t` otherwise, and the return type is written as it is
stored: no registry is consulted. -/
theorem main_no_resolution_check (T : CaseTables) (lib : TemplateLib) (W : World)
    (base : Option (GoString × GoString)) (hw : wellFormedWorld W complexList = true)
    (hb : base.isSome = true) :
    (∃ st, main T lib W base = some st) ∧
    (∀ n q, isReferenceName n = true →
      isComplexType (declaredNames W (pathsOf W complexList)) n = false →
      idx q (bytes "type") = .str n →
      rewriteProperty (declaredNames W (pathsOf W complexList)) q
        = some (setKey q (bytes "type") (.str (bytes "I" ++ n)))) ∧
    (∀ m r name, formatMethod m = some r →
      (∀ e ∈ r.Params, ∃ t, idx e (bytes "type") = .str t ∧
        paramText e = printKey e (bytes "name") ++ bytes " "
          ++ (if isMediaName t then bytes "I" ++ t else t)) ∧
      interfaceMethod T r = some (bytes "\n\t" ++ Title T r.Name ++ bytes "("
        ++ Join (r.Params.map paramText) (bytes " , ") ++ bytes ")("
        ++ (if truthKey r.Return (bytes "type") then
              printKey r.Return (bytes "type") ++ bytes ","
            else [])
        ++ bytes " error)\n\t") ∧
      methodStub T lib name r = (returnText lib r).map (fun ret =>
        bytes "\n" ++ r.Doc ++ bytes " \n"
          ++ (if truthKey r.Return (bytes "doc") then
                bytes "\n// Returns\n" ++ printKey r.Return (bytes "doc") ++ bytes "\n"
              else [])
          ++ bytes "\nfunc (elem *" ++ name ++ bytes ") " ++ Title T r.Name ++ bytes "("
          ++ Join (r.Params.map paramText) (bytes " , ") ++ bytes ") ("
          ++ (if truthKey r.Return (bytes "type") then
                printKey r.Return (bytes "type") ++ bytes ", "
              else [])
          ++ bytes " error) \x7b" ++ requestText r ++ stubTail ret)) := by
  refine ⟨main_ends T lib W base hw hb, ?_, ?_⟩
  · intro n q href hnot hq
    rw [rewriteProperty_single _ q n hq href, hnot]
    rfl
  · intro m r name hmr
    have hty := formatProps_typed _ _ (formatMethod_spec m r hmr).2.2.1
    refine ⟨?_, interfaceMethod_eq T r hty, methodStub_eq T lib name r hty⟩
    intro e he
    obtain ⟨t, ht⟩ := hty e he
    exact ⟨t, ht, by rw [paramText, printKey_str e _ t ht]; rfl⟩

/-- Witness of C25 (amended): the world of the class `Shape` with the unresolved names
`Ghost` and `MediaGhost`. -/
theorem main_no_resolution_check_witness :
    (∃ st, main plainTables goLib ghostWorld (some ([], [])) = some st) ∧
    (∀ n q, isReferenceName n = true →
      isComplexType (declaredNames ghostWorld (pathsOf ghostWorld complexList)) n = false →
      idx q (bytes "type") = .str n →
      rewriteProperty (declaredNames ghostWorld (pathsOf ghostWorld complexList)) q
        = some (setKey q (bytes "type") (.str (bytes "I" ++ n)))) ∧
    (∀ m r name, formatMethod m = some r →
      (∀ e ∈ r.Params, ∃ t, idx e (bytes "type") = .str t ∧
        paramText e = printKey e (bytes "name") ++ bytes " "
          ++ (if isMediaName t then bytes "I" ++ t else t)) ∧
      interfaceMethod plainTables r = some (bytes "\n\t" ++ Title plainTables r.Name
        ++ bytes "(" ++ Join (r.Params.map paramText) (bytes " , ") ++ bytes ")("
        ++ (if truthKey r.Return (bytes "type") then
              printKey r.Return (bytes "type") ++ bytes ","
            else [])
        ++ bytes " error)\n\t") ∧
      methodStub plainTables goLib name r = (returnText goLib r).map (fun ret =>
        bytes "\n" ++ r.Doc ++ bytes " \n"
          ++ (if truthKey r.Return (bytes "doc") then
                bytes "\n// Returns\n" ++ printKey r.Return (bytes "doc") ++ bytes "\n"
              else [])
          ++ bytes "\nfunc (elem *" ++ name ++ bytes ") " ++ Title plainTables r.Name
          ++ bytes "(" ++ Join (r.Params.map paramText) (bytes " , ") ++ bytes ") ("
          ++ (if truthKey r.Return (bytes "type") then
                printKey r.Return (bytes "type") ++ bytes ", "
              else [])
          ++ bytes " error) \x7b" ++ requestText r ++ stubTail ret)) :=
  main_no_resolution_check plainTables goLib ghostWorld (some ([], [])) (by decide) (by decide)

/-! ## Two runs over the same documents -/

theorem globAll_congr (W1 W2 : World) (pats : List GoString)
    (h : ∀ pat ∈ pats, W1.glob pat = W2.glob pat) : globAll W1 pats = globAll W2 pats := by
  induction pats with
  | nil => rfl
  | cons pat rest ih =>
    rw [globAll, globAll, h pat (List.mem_cons_self _ _),
      ih (fun p hp => h p (List.mem_cons_of_mem _ hp))]

theorem pathsLoop_congr (T : CaseTables) (W1 W2 : World) (suffix : GoString)
    (paths : List GoString) (acc : State × List GoString)
    (h : ∀ path ∈ paths, W1.getModel path = W2.getModel path) :
    pathsLoop T W1 suffix paths acc = pathsLoop T W2 suffix paths acc := by
  induction paths generalizing acc with
  | nil => rfl
  | cons path rest ih =>
    have ih2 := fun a => ih a (fun p hp => h p (List.mem_cons_of_mem _ hp))
    rw [pathsLoop, pathsLoop, h path (List.mem_cons_self _ _)]
    cases W2.getModel path with
    | none => rfl
    | some core =>
      simp only
      cases core.ComplexTypes with
      | none => exact ih2 acc
      | some cts =>
        simp only
        cases ctypesLoop T cts (acc.1.CPXTYPES, acc.2) with
        | none => rfl
        | some r => exact ih2 _

theorem remotePathsLoop_congr (T : CaseTables) (lib : TemplateLib) (W1 W2 : World)
    (paths : List GoString) (st : State)
    (h : ∀ path ∈ paths, W1.getModel path = W2.getModel path) :
    remotePathsLoop T lib W1 paths st = remotePathsLoop T lib W2 paths st := by
  induction paths generalizing st with
  | nil => rfl
  | cons path rest ih =>
    have ih2 := fun a => ih a (fun p hp => h p (List.mem_cons_of_mem _ hp))
    rw [remotePathsLoop, remotePathsLoop, h path (List.mem_cons_self _ _)]
    cases W2.getModel path with
    | none => rfl
    | some core =>
      simp only
      cases classesLoop T lib st.CPXTYPES core.RemoteClasses with
      | none => rfl
      | some ret => exact ih2 _

/-- C27: two runs of `main` (each starts from the empty registry and runs the
complex-type pass, then the remote-class pass) in which the patterns expand to the same
paths and every path holds the same document end alike: both are aborted, or both end
with the same files, by name and by content byte for byte, written in the same order.
Nothing else of the world is read: the two worlds may differ in every other file. -/
theorem main_deterministic (T : CaseTables) (lib : TemplateLib) (W1 W2 : World)
    (base : Option (GoString × GoString))
    (hg : ∀ pat ∈ complexList, W1.glob pat = W2.glob pat)
    (hm : ∀ path ∈ pathsOf W1 complexList, W1.getModel path = W2.getModel path) :
    main T lib W1 base = main T lib W2 base ∧
    (main T lib W1 base).map State.files = (main T lib W2 base).map State.files := by
  have hmain : main T lib W1 base = main T lib W2 base := by
    have hgl := globAll_congr W1 W2 complexList hg
    cases base with
    | none => rfl
    | some b =>
      have hpc : ∀ st0, parseComplexTypes T W1 complexList (bytes "complext_types") st0
          = parseComplexTypes T W2 complexList (bytes "complext_types") st0 := by
        intro st0
        rw [parseComplexTypes, parseComplexTypes, ← hgl]
        cases hp : globAll W1 complexList with
        | none => rfl
        | some paths =>
          simp only
          have hpe : paths = pathsOf W1 complexList := globAll_eq W1 complexList paths hp
          rw [pathsLoop_congr T W1 W2 _ paths _ (fun p hpp => hm p (hpe ▸ hpp))]
      have hpr : ∀ st1, parseRemotes T lib W1 complexList st1
          = parseRemotes T lib W2 complexList st1 := by
        intro st1
        rw [parseRemotes, parseRemotes, ← hgl]
        cases hp : globAll W1 complexList with
        | none => rfl
        | some paths =>
          simp only
          have hpe : paths = pathsOf W1 complexList := globAll_eq W1 complexList paths hp
          exact remotePathsLoop_congr T lib W1 W2 paths st1 (fun p hpp => hm p (hpe ▸ hpp))
      unfold main
      simp only [hpc]
      cases parseComplexTypes T W2 complexList (bytes "complext_types")
          { CPXTYPES := [],
            files := [(bytes "kurento/base.go", b.1), (bytes "kurento/kurento_ws.go", b.2)] } with
      | none => rfl
      | some st1 => exact hpr st1
  exact ⟨hmain, by rw [hmain]⟩

/-- Witness of C27: the world of `Shape` and `Point` and a second world that agrees with
it on the three patterns and on the two schema files and differs elsewhere; the two runs
write the same five files with the same contents. -/
theorem main_deterministic_witness :
    (main plainTables goLib shapeWorld (some ([], []))
        = main plainTables goLib shapeWorldAgain (some ([], [])) ∧
      (main plainTables goLib shapeWorld (some ([], []))).map State.files
        = (main plainTables goLib shapeWorldAgain (some ([], []))).map State.files) ∧
    shapeWorld.glob (bytes "other") ≠ shapeWorldAgain.glob (bytes "other") ∧
    fileNames (main plainTables goLib shapeWorld (some ([], []))) =
      [bytes "kurento/base.go", bytes "kurento/kurento_ws.go",
       bytes "kurento/elements_geometry_complext_types.go",
       bytes "kurento/core.go", bytes "kurento/elements_geometry.go"] :=
  ⟨main_deterministic plainTables goLib shapeWorld shapeWorldAgain (some ([], []))
      (by
        intro pat hpat
        simp only [complexList, List.mem_cons, List.mem_singleton, List.not_mem_nil,
          or_false] at hpat
        rcases hpat with rfl | rfl | rfl <;> decide)
      (by
        intro path hpath
        have hp : pathsOf shapeWorld complexList =
            [bytes "kms-core/src/server/interface/core.kmd.json",
             bytes "kms-elements/src/server/interface/elements.geometry.kmd.json"] := by
          decide
        rw [hp] at hpath
        simp only [List.mem_cons, List.mem_singleton, List.not_mem_nil, or_false] at hpath
        rcases hpath with rfl | rfl <;> rfl),
    by decide, by decide⟩

/-! ## The name of an output file -/

/-- Replacing a one-byte string by a one-byte string maps every byte. -/
theorem replaceScan_single (a b : UInt8) (s : GoString) :
    replaceScan [a] [b] 0 s = s.map (fun c => if c = a then b else c) := by
  induction s with
  | nil => rfl
  | cons c cs ih =>
    rw [replaceScan]
    by_cases h : c = a
    · subst h
      have hp : [c].isPrefixOf (c :: cs) = true := by simp [List.isPrefixOf]
      rw [if_pos hp]
      simp only [List.length_singleton, Nat.sub_self, ih, List.map_cons, if_true,
        List.singleton_append]
    · have hp : [a].isPrefixOf (c :: cs) = false := by
        simp [List.isPrefixOf, Ne.symm h]
      rw [hp]
      simp only [Bool.false_eq_true, if_false, ih, List.map_cons, if_neg h]

theorem mem_Base (path : GoString) (c : UInt8) (h : c ∈ Base path) :
    c ∈ path ∨ c = 0x2E ∨ c = 0x2F := by
  unfold Base at h
  by_cases h1 : path = []
  · rw [if_pos h1] at h
    right; left
    have : c ∈ [(0x2E : UInt8)] := h
    simpa using this
  · rw [if_neg h1] at h
    simp only at h
    by_cases h2 : lastElement (stripSlashes path) = []
    · rw [if_pos h2] at h
      right; right
      have : c ∈ [(0x2F : UInt8)] := h
      simpa using this
    · rw [if_neg h2] at h
      left
      unfold lastElement stripSlashes at h
      rw [List.mem_reverse] at h
      have h3 := ( List.takeWhile_prefix (fun c => c != 0x2F)).subset h
      rw [List.mem_reverse, List.mem_reverse] at h3
      have h4 := ( List.dropWhile_suffix (fun c => c == 0x2F)).subset h3
      exact List.mem_reverse.mp h4

theorem isASCII_iff (s : GoString) : isASCII s = true ↔ ∀ c ∈ s, c < 0x80 := by
  unfold isASCII
  rw [List.all_eq_true]
  simp

theorem isASCII_append (a b : GoString) :
    isASCII (a ++ b) = (isASCII a && isASCII b) := by
  unfold isASCII
  rw [List.all_append]

theorem lowerByte_ascii (c : UInt8) (h : c < 0x80) : lowerByte c < 0x80 := by
  revert h
  cases c with
  | mk v =>
    revert v
    decide

theorem ToLower_ascii (T : CaseTables) (s : GoString) (h : isASCII s = true) :
    ToLower T s = s.map lowerByte := by
  rw [ToLower, if_pos h]

/-- The stem of an output file: the base name with `.kmd.json` removed, every dot
replaced by an underscore. -/
theorem stem_ascii (path : GoString) (h : isASCII path = true) :
    isASCII ((Replace (Base path) (bytes ".kmd.json") []).map
      (fun c => if c = 0x2E then 0x5F else c)) = true := by
  rw [isASCII_iff] at h ⊢
  intro c hc
  obtain ⟨d, hd, rfl⟩ := List.mem_map.mp hc
  rw [Replace_eq_scan _ _ _ (by decide)] at hd
  have hd2 : d < 0x80 := by
    rcases replaceScan_mem _ _ _ _ _ hd with hd | hd
    · rcases mem_Base path d hd with hd | hd | hd
      · exact h d hd
      · rw [hd]; decide
      · rw [hd]; decide
    · simp at hd
  split_ifs
  · decide
  · exact hd2

/-- C22: for every path and suffix, `createFile` returns the lower-cased text made of
`kurento/`, the base name of the path with every occurrence of `.kmd.json` removed and
then every dot replaced by an underscore, and `.go`, or, for a non-empty suffix `s`, `_`
+ `s` + `.go`; the stem holds no dot; on an ASCII path and suffix the lower-casing is byte
by byte and leaves `kurento/`, `_` and `.go` as they are; and the path of
`elements.PlayerEndpoint.kmd.json` gives `kurento/elements_playerendpoint.go`. -/
theorem createFile_name (T : CaseTables) (path suffix : GoString) :
    createFile T path suffix = ToLower T (bytes "kurento/"
      ++ (Replace (Base path) (bytes ".kmd.json") []).map
          (fun c => if c = 0x2E then 0x5F else c)
      ++ (if suffix = [] then bytes ".go" else bytes "_" ++ suffix ++ bytes ".go")) ∧
    (0x2E : UInt8) ∉ (Replace (Base path) (bytes ".kmd.json") []).map
        (fun c => if c = 0x2E then 0x5F else c) ∧
    (isASCII path = true → isASCII suffix = true →
      createFile T path suffix = bytes "kurento/"
        ++ (Replace (Base path) (bytes ".kmd.json") []).map
            (fun c => lowerByte (if c = 0x2E then 0x5F else c))
        ++ (if suffix = [] then bytes ".go"
            else bytes "_" ++ suffix.map lowerByte ++ bytes ".go")) ∧
    createFile plainTables
        (bytes "kms-elements/src/server/interface/elements.PlayerEndpoint.kmd.json") []
      = bytes "kurento/elements_playerendpoint.go" := by
  have hdot : bytes "." = [0x2E] := by decide
  have hund : bytes "_" = [0x5F] := by decide
  have h1 : createFile T path suffix = ToLower T (bytes "kurento/"
      ++ (Replace (Base path) (bytes ".kmd.json") []).map
          (fun c => if c = 0x2E then 0x5F else c)
      ++ (if suffix = [] then bytes ".go" else bytes "_" ++ suffix ++ bytes ".go")) := by
    unfold createFile
    simp only
    rw [Replace_eq_scan _ (bytes ".") _ (by decide)]
    have hrs := replaceScan_single 0x2E 0x5F (Replace (Base path) (bytes ".kmd.json") [])
    rw [← hdot, ← hund] at hrs
    rw [hrs]
    by_cases hs : suffix = []
    · rw [if_neg (not_not.mpr hs), if_pos hs]
    · rw [if_pos hs, if_neg hs]
      simp only [List.append_assoc]
  refine ⟨h1, ?_, ?_, by decide⟩
  · intro hmem
    obtain ⟨d, -, hd⟩ := List.mem_map.mp hmem
    split_ifs at hd
    · revert hd; decide
    · exact absurd hd (by assumption)
  · intro hp hsuf
    have hstem := stem_ascii path hp
    rw [h1]
    by_cases hs : suffix = []
    · simp only [if_pos hs]
      rw [ToLower_ascii]
      · simp only [List.map_append, List.map_map]
        rfl
      · rw [isASCII_append, isASCII_append, hstem]
        decide
    · simp only [if_neg hs]
      rw [ToLower_ascii]
      · simp only [List.map_append, List.map_map]
        rfl
      · rw [isASCII_append, isASCII_append, isASCII_append, isASCII_append, hstem, hsuf]
        decide

/-- Witness of C22: the path of `elements.PlayerEndpoint.kmd.json` with the suffix
`complext_types`. -/
theorem createFile_name_witness :
    createFile plainTables
        (bytes "kms-elements/src/server/interface/elements.PlayerEndpoint.kmd.json")
        (bytes "complext_types")
      = bytes "kurento/"
        ++ (Replace
              (Base (bytes "kms-elements/src/server/interface/elements.PlayerEndpoint.kmd.json"))
              (bytes ".kmd.json") []).map
            (fun c => lowerByte (if c = 0x2E then 0x5F else c))
        ++ (if bytes "complext_types" = [] then bytes ".go"
            else bytes "_" ++ (bytes "complext_types").map lowerByte ++ bytes ".go") ∧
    createFile plainTables
        (bytes "kms-elements/src/server/interface/elements.PlayerEndpoint.kmd.json")
        (bytes "complext_types")
      = bytes "kurento/elements_playerendpoint_complext_types.go" :=
  ⟨(createFile_name plainTables
      (bytes "kms-elements/src/server/interface/elements.PlayerEndpoint.kmd.json")
      (bytes "complext_types")).2.2.1 (by decide) (by decide), by decide⟩

/-! ## The sparse payload of a method stub -/

theorem lookup_filter_args (params : List (GoString × Arg)) (name k : GoString)
    (h : k ≠ name) :
    (params.filter (fun e => e.1 != name)).lookup k = params.lookup k := by
  induction params with
  | nil => rfl
  | cons e rest ih =>
    cases e with
    | mk a b =>
      by_cases he : a = name
      · have h1 : ((a != name) = false) := by simp [he]
        have h2 : (k == a) = false := by
          rw [he]
          simpa using h
        rw [List.filter_cons]
        simp only [h1, Bool.false_eq_true, if_false]
        rw [ih, List.lookup_cons, h2]
      · have h1 : ((a != name) = true) := by simp [he]
        rw [List.filter_cons]
        simp only [h1, if_true]
        rw [List.lookup_cons, List.lookup_cons, ih]

theorem lookup_setIfNotEmpty_ne (params : List (GoString × Arg)) (name k : GoString) (v : Arg)
    (h : k ≠ name) : (setIfNotEmpty params name v).lookup k = params.lookup k := by
  unfold setIfNotEmpty
  split_ifs
  · rfl
  · have hb : (k == name) = false := by simpa using h
    rw [List.lookup_cons, hb]
    exact lookup_filter_args params name k h

theorem lookup_setIfNotEmpty_same (params : List (GoString × Arg)) (name : GoString) (v : Arg) :
    (setIfNotEmpty params name v).lookup name
      = if v.isZero then params.lookup name else some v := by
  unfold setIfNotEmpty
  split_ifs
  · rfl
  · simp [List.lookup_cons]

/-- Entering further arguments leaves the entry of a name none of them carries. -/
theorem fill_lookup_other (kvs acc : List (GoString × Arg)) (k : GoString)
    (h : k ∉ kvs.map Prod.fst) :
    (kvs.foldl (fun acc e => setIfNotEmpty acc e.1 e.2) acc).lookup k = acc.lookup k := by
  induction kvs generalizing acc with
  | nil => rfl
  | cons e rest ih =>
    rw [List.map_cons, List.mem_cons, not_or] at h
    rw [List.foldl_cons, ih _ h.2, lookup_setIfNotEmpty_ne _ _ _ _ h.1]

/-- After the calls for arguments with distinct names, the entry of each name is its
argument when that is not zero, and is what was there before otherwise. -/
theorem fill_lookup (kvs acc : List (GoString × Arg)) (hnd : (kvs.map Prod.fst).Nodup)
    (k : GoString) (v : Arg) (hm : (k, v) ∈ kvs) :
    (kvs.foldl (fun acc e => setIfNotEmpty acc e.1 e.2) acc).lookup k
      = if v.isZero then acc.lookup k else some v := by
  induction kvs generalizing acc with
  | nil => simp at hm
  | cons e rest ih =>
    rw [List.map_cons, List.nodup_cons] at hnd
    rw [List.foldl_cons]
    rcases List.mem_cons.mp hm with he | hr
    · subst he
      rw [fill_lookup_other rest _ k hnd.1, lookup_setIfNotEmpty_same]
    · have hk : k ≠ e.1 := by
        intro e2
        apply hnd.1
        rw [← e2]
        exact List.mem_map.mpr ⟨(k, v), hr, rfl⟩
      rw [ih _ hnd.2 hr, lookup_setIfNotEmpty_ne _ _ _ _ hk]

/-- C21: when a stub is run on one argument per parameter and the parameter names are
distinct, the payload holds the operation and the object, and its `operationParams` map
has no entry under the name of an argument that is the zero value of its type, and holds
every other argument under its parameter name (`setIfNotEmpty` as the spec words the
sparse wire payload policy). -/
theorem invokeStub_sparse (m : Method) (id : GoString) (args : List Arg)
    (hne : m.Params ≠ []) (hnd : (callNames m).Nodup)
    (hlen : args.length = m.Params.length) :
    (invokeStub m id args).operation = m.Name ∧ (invokeStub m id args).object = id ∧
    ∃ params, (invokeStub m id args).operationParams = some params ∧
      ∀ i (h1 : i < (callNames m).length) (h2 : i < args.length),
        (Arg.isZero (args.get ⟨i, h2⟩) = true →
          params.lookup ((callNames m).get ⟨i, h1⟩) = none) ∧
        (Arg.isZero (args.get ⟨i, h2⟩) = false →
          params.lookup ((callNames m).get ⟨i, h1⟩) = some (args.get ⟨i, h2⟩)) := by
  have hp : (invokeStub m id args).operationParams
      = some (((callNames m).zip args).foldl (fun acc e => setIfNotEmpty acc e.1 e.2) []) := by
    rw [invokeStub]
    simp only [if_pos hne]
  refine ⟨rfl, rfl, _, hp, ?_⟩
  intro i h1 h2
  have hlen2 : (callNames m).length = args.length := by
    rw [callNames, List.length_map, hlen]
  have hnd2 : (((callNames m).zip args).map Prod.fst).Nodup := by
    rw [List.map_fst_zip _ _ (le_of_eq hlen2)]
    exact hnd
  have hmem : ((callNames m).get ⟨i, h1⟩, args.get ⟨i, h2⟩) ∈ (callNames m).zip args := by
    have hz : i < ((callNames m).zip args).length := by
      rw [List.length_zip]
      omega
    have := List.get_mem ((callNames m).zip args) i hz
    simpa [List.getElem_zip] using this
  have hl := fill_lookup _ [] hnd2 _ _ hmem
  constructor
  · intro hz
    rw [hl, hz]
    rfl
  · intro hz
    rw [hl, hz]
    rfl

/-- Witness of C21: `setOverlayedImage` run with the empty `uri`, the offsets 0 and 2
and the sizes 0 and 1: the payload holds `offsetYPercent` and `heightPercent` only. -/
theorem invokeStub_sparse_witness :
    ((invokeStub overlayMethod (bytes "id")
        [.text [], .number 0, .number 2, .number 0, .number 1]).operation
        = overlayMethod.Name ∧
      (invokeStub overlayMethod (bytes "id")
        [.text [], .number 0, .number 2, .number 0, .number 1]).object = bytes "id" ∧
      ∃ params, (invokeStub overlayMethod (bytes "id")
          [.text [], .number 0, .number 2, .number 0, .number 1]).operationParams
          = some params ∧
        ∀ i (h1 : i < (callNames overlayMethod).length)
          (h2 : i < [Arg.text [], .number 0, .number 2, .number 0, .number 1].length),
          (Arg.isZero ([Arg.text [], .number 0, .number 2, .number 0, .number 1].get
              ⟨i, h2⟩) = true →
            params.lookup ((callNames overlayMethod).get ⟨i, h1⟩) = none) ∧
          (Arg.isZero ([Arg.text [], .number 0, .number 2, .number 0, .number 1].get
              ⟨i, h2⟩) = false →
            params.lookup ((callNames overlayMethod).get ⟨i, h1⟩)
              = some ([Arg.text [], .number 0, .number 2, .number 0, .number 1].get
                  ⟨i, h2⟩))) ∧
    (invokeStub overlayMethod (bytes "id")
        [.text [], .number 0, .number 2, .number 0, .number 1]).operationParams
      = some [(bytes "heightPercent", .number 1), (bytes "offsetYPercent", .number 2)] :=
  ⟨invokeStub_sparse overlayMethod (bytes "id")
      [.text [], .number 0, .number 2, .number 0, .number 1]
      (by decide) (by decide) (by decide), by decide⟩

/-! ## Formatting a formatted doc again -/

/-! ### `TrimSpace` leaves a trimmed string as it is -/

theorem spaceWidth_eq_zero (rs : List GoString) (h : ∀ r ∈ rs, r ≠ []) (s : GoString) :
    spaceWidth rs s = 0 ↔ ∀ r ∈ rs, r.isPrefixOf s = false := by
  unfold spaceWidth
  constructor
  · intro h0 r hr
    cases hf : rs.find? (fun r => r.isPrefixOf s) with
    | none =>
      have hnot := List.find?_eq_none.mp hf r hr
      cases hb : r.isPrefixOf s with
      | false => rfl
      | true => exact absurd hb hnot
    | some r0 =>
      rw [hf] at h0
      simp only at h0
      have hm := List.mem_of_find?_eq_some hf
      exact absurd (List.length_eq_zero.mp h0) (h r0 hm)
  · intro hall
    have hf : rs.find? (fun r => r.isPrefixOf s) = none := by
      rw [List.find?_eq_none]
      intro r hr
      simp [hall r hr]
    rw [hf]

theorem spaceWidth_trimScan (rs : List GoString) (h : ∀ r ∈ rs, r ≠ []) (s : GoString) :
    ∀ k, spaceWidth rs (trimScan rs k s) = 0 := by
  induction s with
  | nil =>
    intro k
    have : trimScan rs k [] = [] := by cases k <;> rfl
    rw [this, spaceWidth_eq_zero rs h]
    intro r hr
    cases r with
    | nil => exact absurd rfl (h [] hr)
    | cons a as => rfl
  | cons c cs ih =>
    intro k
    cases k with
    | succ k =>
      rw [trimScan]
      exact ih k
    | zero =>
      rw [trimScan]
      split
      · assumption
      · exact ih _

theorem trimScan_of_width (rs : List GoString) (s : GoString) (h : spaceWidth rs s = 0) :
    trimScan rs 0 s = s := by
  cases s with
  | nil => rfl
  | cons c cs =>
    rw [trimScan, h]

theorem spaceWidth_of_prefix (rs : List GoString) (h : ∀ r ∈ rs, r ≠ []) (x y : GoString)
    (hp : y <+: x) (hx : spaceWidth rs x = 0) : spaceWidth rs y = 0 := by
  rw [spaceWidth_eq_zero rs h] at hx ⊢
  intro r hr
  cases hy : r.isPrefixOf y with
  | false => rfl
  | true =>
    rw [ List.isPrefixOf_iff_prefix] at hy
    have h2 : r.isPrefixOf x = true := by
      rw [ List.isPrefixOf_iff_prefix]
      exact hy.trans hp
    rw [hx r hr] at h2
    exact absurd h2 (by simp)

theorem spaceRunes_ne_nil : ∀ r ∈ spaceRunes, r ≠ [] := by decide

theorem spaceRunes_reverse_ne_nil : ∀ r ∈ spaceRunes.map List.reverse, r ≠ [] := by decide

/-- Trimming a trimmed string changes nothing. -/
theorem TrimSpace_idem (s : GoString) : TrimSpace (TrimSpace s) = TrimSpace s := by
  have hx : spaceWidth spaceRunes (trimScan spaceRunes 0 s) = 0 :=
    spaceWidth_trimScan spaceRunes spaceRunes_ne_nil s 0
  have hpre : TrimSpace s <+: trimScan spaceRunes 0 s := by
    unfold TrimSpace
    rw [← List.reverse_suffix, List.reverse_reverse]
    exact trimScan_suffix _ _ _
  have hy : spaceWidth spaceRunes (TrimSpace s) = 0 :=
    spaceWidth_of_prefix spaceRunes spaceRunes_ne_nil _ _ hpre hx
  have h1 : trimScan spaceRunes 0 (TrimSpace s) = TrimSpace s := trimScan_of_width _ _ hy
  have h2 : (TrimSpace s).reverse =
      trimScan (spaceRunes.map List.reverse) 0 (trimScan spaceRunes 0 s).reverse := by
    unfold TrimSpace
    rw [List.reverse_reverse]
  have h3 : trimScan (spaceRunes.map List.reverse) 0 (TrimSpace s).reverse
      = (TrimSpace s).reverse := by
    apply trimScan_of_width
    rw [h2]
    exact spaceWidth_trimScan _ spaceRunes_reverse_ne_nil _ 0
  show (trimScan (spaceRunes.map List.reverse) 0
    (trimScan spaceRunes 0 (TrimSpace s)).reverse).reverse = TrimSpace s
  rw [h1, h3, List.reverse_reverse]

/-! ### Where a pattern can be found -/

theorem contains_nil (s : GoString) : Contains s [] = true := by
  cases s <;> rfl

theorem contains_append_right (t q sub : GoString) (h : Contains t sub = true) :
    Contains (t ++ q) sub = true := by
  induction t with
  | nil =>
    have hs : sub = [] := by
      cases sub with
      | nil => rfl
      | cons a as => simp [Contains, List.isPrefixOf] at h
    rw [hs]
    exact contains_nil _
  | cons c cs ih =>
    rw [Contains, Bool.or_eq_true] at h
    rcases h with h | h
    · apply contains_of_isPrefixOf
      rw [ List.isPrefixOf_iff_prefix] at h ⊢
      exact h.trans ( List.prefix_append _ _)
    · exact contains_cons _ _ _ (ih h)

theorem contains_append_left (p t sub : GoString) (h : Contains t sub = true) :
    Contains (p ++ t) sub = true := by
  induction p with
  | nil => exact h
  | cons c cs ih => exact contains_cons _ _ _ ih

/-- A pattern found in a contiguous part is found in the whole. -/
theorem contains_mono (t s sub : GoString) (hts : t <:+: s) (h : Contains s sub = false) :
    Contains t sub = false := by
  cases ht : Contains t sub with
  | false => rfl
  | true =>
    obtain ⟨p, q, e⟩ := hts
    have h2 := contains_append_right (p ++ t) q sub (contains_append_left p t sub ht)
    rw [e, h] at h2
    exact absurd h2 (by simp)

theorem isPrefixOf_stretch (tok x : GoString) (c : UInt8) (y : GoString) (hc : c ∉ tok)
    (h : tok.isPrefixOf (x ++ c :: y) = true) : tok.isPrefixOf x = true := by
  induction tok generalizing x with
  | nil => cases x <;> rfl
  | cons t0 tok ih =>
    have h0 : c ≠ t0 := fun e => hc (by simp [e])
    have htok : c ∉ tok := fun e => hc (List.mem_cons_of_mem _ e)
    cases x with
    | nil =>
      simp only [List.nil_append, List.isPrefixOf, Bool.and_eq_true, beq_iff_eq] at h
      exact absurd h.1.symm h0
    | cons a x =>
      simp only [List.cons_append, List.isPrefixOf, Bool.and_eq_true, beq_iff_eq] at h ⊢
      exact ⟨h.1, ih x htok h.2⟩

/-- A pattern found in a text is found before or after a byte it does not hold. -/
theorem contains_append_sep (x : GoString) (c : UInt8) (y tok : GoString) (hne : tok ≠ [])
    (hc : c ∉ tok) (h : Contains (x ++ c :: y) tok = true) :
    Contains x tok = true ∨ Contains y tok = true := by
  induction x with
  | nil =>
    rw [List.nil_append, Contains, Bool.or_eq_true] at h
    rcases h with h | h
    · have := isPrefixOf_stretch tok [] c y hc h
      cases tok with
      | nil => exact absurd rfl hne
      | cons a as => simp [List.isPrefixOf] at this
    · exact Or.inr h
  | cons a x ih =>
    rw [List.cons_append, Contains, Bool.or_eq_true] at h
    rcases h with h | h
    · have := isPrefixOf_stretch tok (a :: x) c y hc h
      exact Or.inl (contains_of_isPrefixOf _ _ this)
    · rcases ih h with h2 | h2
      · exact Or.inl (contains_cons _ _ _ h2)
      · exact Or.inr h2

theorem contains_cons_sep (c : UInt8) (y tok : GoString) (hne : tok ≠ []) (hc : c ∉ tok)
    (h : Contains (c :: y) tok = true) : Contains y tok = true := by
  rcases contains_append_sep [] c y tok hne hc h with h2 | h2
  · cases tok with
    | nil => exact absurd rfl hne
    | cons a as => simp [Contains, List.isPrefixOf] at h2
  · exact h2

/-- A pattern that holds neither a slash nor an asterisk nor a newline is not found in
wrapped lines joined by newlines unless it is found in a line. -/
theorem contains_wrapped_lines (ts : List GoString) (tok : GoString) (hne : tok ≠ [])
    (h1 : (0x2F : UInt8) ∉ tok) (h2 : (0x2A : UInt8) ∉ tok) (h3 : (0x0A : UInt8) ∉ tok)
    (h : ∀ t ∈ ts, Contains t tok = false) :
    Contains (ts.flatMap (fun t => 0x0A :: ([0x2F, 0x2A] ++ t ++ [0x2A, 0x2F]))) tok
      = false := by
  induction ts with
  | nil =>
    cases tok with
    | nil => exact absurd rfl hne
    | cons a as => rfl
  | cons t rest ih =>
    have ih2 := ih (fun u hu => h u (List.mem_cons_of_mem _ hu))
    cases hc : Contains ((t :: rest).flatMap
        (fun t => 0x0A :: ([0x2F, 0x2A] ++ t ++ [0x2A, 0x2F]))) tok with
    | false => rfl
    | true =>
      exfalso
      rw [List.flatMap_cons] at hc
      have e : (0x0A :: ([0x2F, 0x2A] ++ t ++ [0x2A, 0x2F])
            ++ rest.flatMap (fun t => 0x0A :: ([0x2F, 0x2A] ++ t ++ [0x2A, 0x2F])))
          = 0x0A :: 0x2F :: 0x2A :: (t ++ 0x2A :: 0x2F ::
              rest.flatMap (fun t => 0x0A :: ([0x2F, 0x2A] ++ t ++ [0x2A, 0x2F]))) := by
        simp
      rw [e] at hc
      have c1 := contains_cons_sep _ _ _ hne h3 hc
      have c2 := contains_cons_sep _ _ _ hne h1 c1
      have c3 := contains_cons_sep _ _ _ hne h2 c2
      rcases contains_append_sep _ _ _ _ hne h2 c3 with c4 | c4
      · rw [h t (List.mem_cons_self _ _)] at c4
        exact absurd c4 (by simp)
      · have c5 := contains_cons_sep _ _ _ hne h1 c4
        rw [ih2] at c5
        exact absurd c5 (by simp)

theorem contains_wrapped (ts : List GoString) (tok : GoString) (hne : tok ≠ [])
    (h1 : (0x2F : UInt8) ∉ tok) (h2 : (0x2A : UInt8) ∉ tok) (h3 : (0x0A : UInt8) ∉ tok)
    (h : ∀ t ∈ ts, Contains t tok = false) :
    Contains (Join (ts.map (fun t => [0x2F, 0x2A] ++ t ++ [0x2A, 0x2F])) [0x0A]) tok
      = false := by
  cases ts with
  | nil =>
    cases tok with
    | nil => exact absurd rfl hne
    | cons a as => rfl
  | cons t rest =>
    have hl := contains_wrapped_lines (t :: rest) tok hne h1 h2 h3 h
    rw [List.flatMap_cons] at hl
    cases hc : Contains (Join ((t :: rest).map
        (fun t => [0x2F, 0x2A] ++ t ++ [0x2A, 0x2F])) [0x0A]) tok with
    | false => rfl
    | true =>
      exfalso
      rw [List.map_cons, Join_cons, List.flatMap_map] at hc
      have hc2 := contains_cons _ 0x0A _ hc
      have e : (0x0A :: ([0x2F, 0x2A] ++ t ++ [0x2A, 0x2F]
            ++ rest.flatMap (fun t => [(0x0A : UInt8)] ++ ([0x2F, 0x2A] ++ t ++ [0x2A, 0x2F]))))
          = (0x0A :: ([0x2F, 0x2A] ++ t ++ [0x2A, 0x2F])
            ++ rest.flatMap (fun t => 0x0A :: ([0x2F, 0x2A] ++ t ++ [0x2A, 0x2F]))) := rfl
      rw [e, hl] at hc2
      exact absurd hc2 (by simp)

/-! ### Removing the comment delimiters from wrapped lines -/

theorem replaceScan_of_not_contains (old new s : GoString) (h : Contains s old = false) :
    replaceScan old new 0 s = s := by
  induction s with
  | nil => rfl
  | cons c cs ih =>
    rw [Contains, Bool.or_eq_false_iff] at h
    rw [replaceScan_copy old new c cs h.1, ih h.2]

theorem isPrefixOf_pair (a b c : UInt8) (X : GoString)
    (h : c ≠ a ∨ X.head? ≠ some b) : [a, b].isPrefixOf (c :: X) = false := by
  cases X with
  | nil => simp [List.isPrefixOf]
  | cons d X =>
    rcases h with h | h
    · simp [List.isPrefixOf, Ne.symm h]
    · have hd : d ≠ b := fun e => h (by simp [e])
      simp [List.isPrefixOf, Ne.symm hd]

/-- A two-byte pattern is not found in a stretch that does not hold it, unless the
stretch ends with its first byte and the second follows. -/
theorem replaceScan_append_pair (a b : UInt8) (new u X : GoString)
    (hu : Contains u [a, b] = false)
    (hx : u.getLast? ≠ some a ∨ X.head? ≠ some b) :
    replaceScan [a, b] new 0 (u ++ X) = u ++ replaceScan [a, b] new 0 X := by
  induction u with
  | nil => rfl
  | cons c u ih =>
    rw [Contains, Bool.or_eq_false_iff] at hu
    show replaceScan [a, b] new 0 (c :: (u ++ X)) = c :: (u ++ _)
    cases u with
    | nil =>
      have hp : [a, b].isPrefixOf (c :: ([] ++ X)) = false := by
        apply isPrefixOf_pair
        rcases hx with hx | hx
        · left
          intro e
          apply hx
          simp [e]
        · right
          simpa using hx
      rw [replaceScan_copy _ _ _ _ hp]
      rfl
    | cons d u2 =>
      have hp : [a, b].isPrefixOf (c :: (d :: u2 ++ X)) = false := by
        have h0 := hu.1
        simp only [List.isPrefixOf, Bool.and_true] at h0 ⊢
        simpa using h0
      rw [replaceScan_copy _ _ _ _ hp, ih hu.2 (by
        rcases hx with hx | hx
        · left
          simpa [List.getLast?_cons_cons] using hx
        · right
          exact hx)]

/-- What the removal of `/*` leaves of a wrapped line. -/
theorem strip_open_block (t X : GoString) (ht : Contains t [0x2F, 0x2A] = false)
    (hX : X.head? ≠ some 0x2A) :
    replaceScan [0x2F, 0x2A] [] 0 ([0x2F, 0x2A] ++ t ++ [0x2A, 0x2F] ++ X)
      = (if t.getLast? = some 0x2F then t else t ++ [0x2A, 0x2F])
        ++ replaceScan [0x2F, 0x2A] [] 0 X := by
  have hslash : replaceScan [0x2F, 0x2A] [] 0 (0x2F :: X)
      = 0x2F :: replaceScan [0x2F, 0x2A] [] 0 X :=
    replaceScan_copy _ _ _ _ (isPrefixOf_pair _ _ _ _ (Or.inr hX))
  rw [List.append_assoc, List.append_assoc, replaceScan_match, List.nil_append]
  by_cases hl : t.getLast? = some 0x2F
  · rw [if_pos hl]
    have ht2 : t.dropLast ++ [0x2F] = t := List.dropLast_append_getLast? 0x2F hl
    have hd : Contains t.dropLast [0x2F, 0x2A] = false :=
      contains_mono _ _ _ ⟨[], [0x2F], by simpa using ht2⟩ ht
    have e1 : t ++ ([0x2A, 0x2F] ++ X) = t.dropLast ++ ([0x2F, 0x2A] ++ (0x2F :: X)) := by
      conv_lhs => rw [← ht2]
      simp
    rw [e1, replaceScan_append_pair _ _ _ _ _ hd (Or.inr (by simp)), replaceScan_match,
      List.nil_append, hslash]
    conv_rhs => rw [← ht2]
    simp
  · rw [if_neg hl, replaceScan_append_pair _ _ _ _ _ ht (Or.inl hl)]
    have hs : replaceScan [0x2F, 0x2A] [] 0 ([0x2A, 0x2F] ++ X)
        = 0x2A :: 0x2F :: replaceScan [0x2F, 0x2A] [] 0 X := by
      show replaceScan [0x2F, 0x2A] [] 0 (0x2A :: 0x2F :: X) = _
      rw [replaceScan_copy _ _ _ _ (isPrefixOf_cons_ne _ _ _ _ (by decide)), hslash]
    rw [hs]
    simp

/-- What the removal of `*/` leaves of that. -/
theorem strip_close_block (t X : GoString) (ht : Contains t [0x2A, 0x2F] = false) :
    replaceScan [0x2A, 0x2F] [] 0
        ((if t.getLast? = some 0x2F then t else t ++ [0x2A, 0x2F]) ++ X)
      = t ++ replaceScan [0x2A, 0x2F] [] 0 X := by
  by_cases hl : t.getLast? = some 0x2F
  · rw [if_pos hl, replaceScan_append_pair _ _ _ _ _ ht (Or.inl (by rw [hl]; decide))]
  · rw [if_neg hl, List.append_assoc,
      replaceScan_append_pair _ _ _ _ _ ht (Or.inr (by simp)),
      replaceScan_match, List.nil_append]

theorem head_flatMap_newline (f : GoString → GoString) (ts : List GoString) :
    (ts.flatMap (fun t => (0x0A : UInt8) :: f t)).head? ≠ some 0x2A := by
  cases ts with
  | nil => simp
  | cons t rest => simp

theorem strip_open_lines (ts : List GoString)
    (h : ∀ t ∈ ts, Contains t [0x2F, 0x2A] = false) :
    replaceScan [0x2F, 0x2A] [] 0
        (ts.flatMap (fun t => 0x0A :: ([0x2F, 0x2A] ++ t ++ [0x2A, 0x2F])))
      = ts.flatMap (fun t => 0x0A ::
          (if t.getLast? = some 0x2F then t else t ++ [0x2A, 0x2F])) := by
  induction ts with
  | nil => rfl
  | cons t rest ih =>
    have ih2 := ih (fun u hu => h u (List.mem_cons_of_mem _ hu))
    rw [List.flatMap_cons, List.flatMap_cons, List.cons_append,
      replaceScan_copy _ _ _ _ (isPrefixOf_cons_ne _ _ _ _ (by decide)),
      strip_open_block t _ (h t (List.mem_cons_self _ _)) (head_flatMap_newline _ rest), ih2]
    rfl

theorem strip_close_lines (ts : List GoString)
    (h : ∀ t ∈ ts, Contains t [0x2A, 0x2F] = false) :
    replaceScan [0x2A, 0x2F] [] 0
        (ts.flatMap (fun t => 0x0A ::
          (if t.getLast? = some 0x2F then t else t ++ [0x2A, 0x2F])))
      = ts.flatMap (fun t => 0x0A :: t) := by
  induction ts with
  | nil => rfl
  | cons t rest ih =>
    have ih2 := ih (fun u hu => h u (List.mem_cons_of_mem _ hu))
    rw [List.flatMap_cons, List.flatMap_cons, List.cons_append,
      replaceScan_copy _ _ _ _ (isPrefixOf_cons_ne _ _ _ _ (by decide)),
      strip_close_block t _ (h t (List.mem_cons_self _ _)), ih2]
    rfl

/-- Removing `/*`, then `*/`, from lines that hold neither and were wrapped in the
delimiters and joined by newlines gives the lines back. -/
theorem strip_wrapped (ts : List GoString)
    (ho : ∀ t ∈ ts, Contains t [0x2F, 0x2A] = false)
    (hc : ∀ t ∈ ts, Contains t [0x2A, 0x2F] = false) :
    replaceScan [0x2A, 0x2F] [] 0 (replaceScan [0x2F, 0x2A] [] 0
        (Join (ts.map (fun t => [0x2F, 0x2A] ++ t ++ [0x2A, 0x2F])) [0x0A]))
      = Join ts [0x0A] := by
  cases ts with
  | nil => rfl
  | cons t rest =>
    have horest := fun u hu => ho u (List.mem_cons_of_mem _ hu)
    have hcrest := fun u hu => hc u (List.mem_cons_of_mem _ hu)
    rw [List.map_cons, Join_cons, Join_cons, List.flatMap_map]
    have e2 : rest.flatMap (fun t => [(0x0A : UInt8)] ++ t)
        = rest.flatMap (fun t => 0x0A :: t) := rfl
    rw [e2]
    show replaceScan [0x2A, 0x2F] [] 0 (replaceScan [0x2F, 0x2A] [] 0
        ([0x2F, 0x2A] ++ t ++ [0x2A, 0x2F]
          ++ rest.flatMap (fun t => 0x0A :: ([0x2F, 0x2A] ++ t ++ [0x2A, 0x2F])))) = _
    rw [strip_open_block t _ (ho t (List.mem_cons_self _ _)) (head_flatMap_newline _ rest),
      strip_open_lines rest horest,
      strip_close_block t _ (hc t (List.mem_cons_self _ _)), strip_close_lines rest hcrest]

/-! ### `formatDoc` on its own output -/

/-- The five replacements give back the lines that were wrapped in the delimiters and
joined by newlines, when no line holds one of the five patterns. -/
theorem stripTokens_wrapped (ts : List GoString)
    (h1 : ∀ t ∈ ts, Contains t (bytes ":rom:cls:") = false)
    (h2 : ∀ t ∈ ts, Contains t (bytes ":term:") = false)
    (h3 : ∀ t ∈ ts, Contains t (bytes "``") = false)
    (h4 : ∀ t ∈ ts, Contains t [0x2F, 0x2A] = false)
    (h5 : ∀ t ∈ ts, Contains t [0x2A, 0x2F] = false) :
    stripTokens (Join (ts.map (fun t => [0x2F, 0x2A] ++ t ++ [0x2A, 0x2F])) [0x0A])
      = Join ts [0x0A] := by
  unfold stripTokens
  simp only
  rw [Replace_eq_scan _ (bytes ":rom:cls:") _ (by decide),
    replaceScan_of_not_contains (bytes ":rom:cls:") [] _
      (contains_wrapped ts _ (by decide) (by decide) (by decide) (by decide) h1),
    Replace_eq_scan _ (bytes ":term:") _ (by decide),
    replaceScan_of_not_contains (bytes ":term:") [] _
      (contains_wrapped ts _ (by decide) (by decide) (by decide) (by decide) h2),
    Replace_eq_scan _ (bytes "``") _ (by decide),
    replaceScan_of_not_contains (bytes "``") _ _
      (contains_wrapped ts _ (by decide) (by decide) (by decide) (by decide) h3),
    Replace_eq_scan _ (bytes "/*") _ (by decide),
    Replace_eq_scan _ (bytes "*/") _ (by decide), bytes_open, bytes_close]
  exact strip_wrapped ts h4 h5

/-- C28 (counterexample): the doc `:te:term:rm:` is formatted to the block of `:term:`,
the token that the removal of the inner `:term:` leaves, and formatting that again gives
the empty block: `formatDoc (formatDoc d)` differs from `formatDoc d`. -/
theorem formatDoc_not_idempotent :
    formatDoc (bytes ":te:term:rm:") = bytes "/*:term:*/" ∧
    formatDoc (formatDoc (bytes ":te:term:rm:")) = bytes "/**/" ∧
    formatDoc (formatDoc (bytes ":te:term:rm:")) ≠ formatDoc (bytes ":te:term:rm:") := by
  decide

/-- C28 (amended): for every documentation string `d` whose text after the five
replacements of `formatDoc` holds none of the five patterns any more (`:rom:cls:`,
`:term:`, the double backtick, `/*`, `*/`), `formatDoc (formatDoc d) = formatDoc d`: for
such a doc the return doc that `parseRemotes` formats twice is rendered as if formatted
once. -/
theorem formatDoc_idempotent (d : GoString)
    (h1 : Contains (stripTokens d) (bytes ":rom:cls:") = false)
    (h2 : Contains (stripTokens d) (bytes ":term:") = false)
    (h3 : Contains (stripTokens d) (bytes "``") = false)
    (h4 : Contains (stripTokens d) (bytes "/*") = false)
    (h5 : Contains (stripTokens d) (bytes "*/") = false) :
    formatDoc (formatDoc d) = formatDoc d := by
  have hnl : bytes "\n" = [0x0A] := by decide
  rw [bytes_open] at h4
  rw [bytes_close] at h5
  -- every trimmed line is a contiguous part of the stripped doc
  have hpart : ∀ t ∈ (Split 0x0A (stripTokens d)).map TrimSpace, t <:+: stripTokens d := by
    intro t ht
    obtain ⟨l, hl, rfl⟩ := List.mem_map.mp ht
    exact (TrimSpace_contiguous l).trans (Split_mem 0x0A _ l hl).1
  have hnewline : ∀ t ∈ (Split 0x0A (stripTokens d)).map TrimSpace, (0x0A : UInt8) ∉ t := by
    intro t ht
    obtain ⟨l, hl, rfl⟩ := List.mem_map.mp ht
    intro hm
    exact (Split_mem 0x0A _ l hl).2 ((TrimSpace_contiguous l).subset hm)
  have hF : formatDoc d = Join (((Split 0x0A (stripTokens d)).map TrimSpace).map
      (fun t => [0x2F, 0x2A] ++ t ++ [0x2A, 0x2F])) [0x0A] := by
    unfold formatDoc
    simp only [hnl, List.map_map]
    rfl
  have hstrip : stripTokens (formatDoc d)
      = Join ((Split 0x0A (stripTokens d)).map TrimSpace) [0x0A] := by
    rw [hF]
    exact stripTokens_wrapped _
      (fun t ht => contains_mono _ _ _ (hpart t ht) h1)
      (fun t ht => contains_mono _ _ _ (hpart t ht) h2)
      (fun t ht => contains_mono _ _ _ (hpart t ht) h3)
      (fun t ht => contains_mono _ _ _ (hpart t ht) h4)
      (fun t ht => contains_mono _ _ _ (hpart t ht) h5)
  have hsplit : Split 0x0A (stripTokens (formatDoc d))
      = (Split 0x0A (stripTokens d)).map TrimSpace := by
    rw [hstrip]
    apply Split_Join
    · simpa using Split_ne_nil 0x0A (stripTokens d)
    · exact hnewline
  show Join ((Split 0x0A (stripTokens (formatDoc d))).map wrapLine) (bytes "\n")
    = Join ((Split 0x0A (stripTokens d)).map wrapLine) (bytes "\n")
  rw [hsplit, List.map_map]
  congr 1
  apply List.map_congr_left
  intro l _
  show bytes "/*" ++ TrimSpace (TrimSpace l) ++ bytes "*/" = bytes "/*" ++ TrimSpace l ++ bytes "*/"
  rw [TrimSpace_idem]

/-- Witness of C28 (amended): the doc `Default value: 2 * 3`, and the doc of two lines
`a :rom:cls:`, backtick, `Foo`, backtick, `: ` and ` `, two backticks, `b`, two
backticks, `/`. -/
theorem formatDoc_idempotent_witness :
    (formatDoc (formatDoc (bytes "Default value: 2 * 3")) = formatDoc (bytes "Default value: 2 * 3")
      ∧ formatDoc (bytes "Default value: 2 * 3") = bytes "/*Default value: 2 * 3*/") ∧
    (formatDoc (formatDoc (bytes "a :rom:cls:`Foo`: \n ``b``/"))
        = formatDoc (bytes "a :rom:cls:`Foo`: \n ``b``/")
      ∧ formatDoc (bytes "a :rom:cls:`Foo`: \n ``b``/") = bytes "/*a `Foo`:*/\n/*\"b\"/*/") :=
  ⟨⟨formatDoc_idempotent (bytes "Default value: 2 * 3") (by decide) (by decide) (by decide)
      (by decide) (by decide), by decide⟩,
   ⟨formatDoc_idempotent (bytes "a :rom:cls:`Foo`: \n ``b``/") (by decide) (by decide)
      (by decide) (by decide) (by decide), by decide⟩⟩

end Kurento
